import Mathlib

/-!
# The message-passing ATM of `4/16_bank_improved.cpp`

A shallow embedding of the actor core: the `Message` variant, the
`messaging::queue` / `sender` / `receiver` channel, the three actors
(`atm`, `bank_machine`, `interface_machine`) and the wiring done by `main`.

Conventions of the embedding.

* `std::string` is a list of characters, `unsigned` is a natural number and
  the one arithmetic operation that can wrap (`balance -= amount`) is written
  with an explicit reduction modulo `2 ^ 32`.
* A queue object is identified by a `QueueId`; its contents are a list with the
  front (oldest) element first.  The mutex and the condition variable only
  serialise the operations and are not modelled: a blocked `wait_and_pop` is
  the result `none` / the control value `blocked`.
* A thread is a function of the messages it dequeues.  What it sends is
  recorded, in program order, as a list of `(sender, message)` pairs which the
  composition delivers with `sender.send`.
-/

namespace messaging

/-- Identity (address) of a `messaging::queue` object.  `main` constructs three
receivers, named here after the variables that own them. -/
inductive QueueId where
  | bank
  | ui_hardware
  | machine
deriving DecidableEq, Repr

/-- The class `messaging::sender`: a pointer to a queue, `none` being `nullptr`. -/
structure sender where
  q : Option QueueId
deriving DecidableEq, Repr

end messaging

open messaging

/-- The variant `Message` (lines 165-179), one constructor per alternative, in
the order of the alternatives; the arguments are the members of the payload
struct.  A `sender*` member is represented by the sender it points to. -/
inductive Message where
  | close_queue
  | withdraw (account : List Char) (amount : Nat) (atm_queue : sender)
  | cancel_withdrawal (account : List Char) (amount : Nat)
  | verify_pin (account : List Char) (pin : List Char) (atm_queue : sender)
  | get_balance (account : List Char) (atm_queue : sender)
  | withdrawal_processed (account : List Char) (amount : Nat)
  | withdrawal_approved
  | withdrawal_denied
  | pin_verified
  | pin_incorrect
  | balance_received (amount : Nat)
  | issue_money (amount : Nat)
  | eject_card
  | display_enter_pin
  | display_enter_card
  | display_insufficient_funds
  | display_withdrawal_cancelled
  | display_pin_incorrect_message
  | display_withdrawal_options
  | display_balance (amount : Nat)
  | card_inserted (account : List Char)
  | digit_pressed (digit : Char)
  | clear_last_pressed
  | cancel_pressed
  | withdraw_pressed (amount : Nat)
  | balance_pressed
deriving DecidableEq, Repr

/-- The alternative held by a message, as `std::variant::index` reports it. -/
def Message.index : Message → Nat
  | .close_queue => 0
  | .withdraw _ _ _ => 1
  | .cancel_withdrawal _ _ => 2
  | .verify_pin _ _ _ => 3
  | .get_balance _ _ => 4
  | .withdrawal_processed _ _ => 5
  | .withdrawal_approved => 6
  | .withdrawal_denied => 7
  | .pin_verified => 8
  | .pin_incorrect => 9
  | .balance_received _ => 10
  | .issue_money _ => 11
  | .eject_card => 12
  | .display_enter_pin => 13
  | .display_enter_card => 14
  | .display_insufficient_funds => 15
  | .display_withdrawal_cancelled => 16
  | .display_pin_incorrect_message => 17
  | .display_withdrawal_options => 18
  | .display_balance _ => 19
  | .card_inserted _ => 20
  | .digit_pressed _ => 21
  | .clear_last_pressed => 22
  | .cancel_pressed => 23
  | .withdraw_pressed _ => 24
  | .balance_pressed => 25

namespace messaging

/-- The class `messaging::queue`: the member `std::queue<Message> q`, front first. -/
structure queue where
  q : List Message
deriving DecidableEq, Repr

/-- The empty queue of a newly constructed receiver. -/
def queue.empty : queue := ⟨[]⟩

/-- Member `queue::push`: `q.push(msg)` appends at the back. -/
def queue.push (self : queue) (msg : Message) : queue :=
  ⟨self.q ++ [msg]⟩

/-- Member `queue::wait_and_pop`: once the queue is non-empty, `q.front()` is
returned and `q.pop()` removes it.  On an empty queue the caller stays blocked
in `c.wait`, which is the result `none`. -/
def queue.wait_and_pop (self : queue) : Option (Message × queue) :=
  match self.q with
  | [] => none
  | res :: rest => some (res, ⟨rest⟩)

/-- A sequence of `push` calls, in the order in which the mutex admits them. -/
def queue.push_all (self : queue) (msgs : List Message) : queue :=
  msgs.foldl queue.push self

/-- The results of `n` successive `wait_and_pop` calls and the queue they leave;
`none` when one of the calls blocks. -/
def queue.pop_n : Nat → queue → Option (List Message × queue)
  | 0, self => some ([], self)
  | n + 1, self =>
    match self.wait_and_pop with
    | none => none
    | some (res, self1) =>
      match queue.pop_n n self1 with
      | none => none
      | some (out, self2) => some (res :: out, self2)

/-- The messages that producer `s` pushed, in the order it pushed them, read off
a serialised history of `(producer, message)` push events. -/
def sent_by (s : Nat) (pushes : List (Nat × Message)) : List Message :=
  (pushes.filter (fun p => p.1 = s)).map Prod.snd

/-- The messages of `received` whose position in the serialised push history
belongs to producer `s`, in the order of their reception. -/
def received_from (s : Nat) (pushes : List (Nat × Message)) (received : List Message) :
    List Message :=
  (((pushes.map Prod.fst).zip received).filter (fun p => p.1 = s)).map Prod.snd

end messaging

/-- One `send` call made by a thread: the sender object it was made on and the
message passed. -/
abbrev Sent := sender × Message

/-- The member functions an `atm` can hold in its `state` pointer. -/
inductive atm_state where
  | waiting_for_card
  | getting_pin
  | verifying_pin
  | wait_for_action
  | process_withdrawal
  | process_balance
  | done_processing
deriving DecidableEq, Repr

/-- The data members of class `atm`.  `inbox` is the identity of the queue owned
by the receiver member; its contents are passed to the member functions. -/
structure atm where
  inbox : QueueId
  to_bank : sender
  to_interface : sender
  state : atm_state
  account : List Char
  withdrawal_amount : Nat
  pin : List Char
deriving DecidableEq, Repr

/-- The effect of one user-provided handler lambda: the boolean it returns, the
data members after its body and the messages its body sent. -/
structure Handled where
  handled : Bool
  self : atm
  sent : List Sent
deriving DecidableEq, Repr

/-- The pack of handler lambdas passed to `process_messages`: `none` for a
message alternative that no lambda of the pack accepts. -/
abbrev Handlers := atm → Message → Option Handled

/-- How a call of a state function ends: it returns to `run`, it leaves by the
exception `close_queue`, or it stays blocked in `inbox.wait()`. -/
inductive Ctl where
  | returned
  | thrown
  | blocked
deriving DecidableEq, Repr

/-- The result of running a state function on the messages waiting in the
inbox: how it ended, the data members, the messages sent and the messages left
in the inbox. -/
structure Outcome where
  ctl : Ctl
  self : atm
  sent : List Sent
  inbox : List Message
deriving DecidableEq, Repr

/-- The same outcome, preceded by the sends `pre` made earlier in the call. -/
def Outcome.after (pre : List Sent) (o : Outcome) : Outcome :=
  { o with sent := pre ++ o.sent }

namespace atm

/-- Member `atm::get_sender`, also the value of each `static my_sender`:
`inbox.get_sender()`, a sender on the queue of the own receiver. -/
def get_sender (self : atm) : sender := ⟨some self.inbox⟩

/-- The template `atm::process_messages` (lines 238-249).  Each round takes
`inbox.wait()`; `close_queue` throws; an alternative accepted by no user lambda
falls to the generic lambda, which returns `false`; otherwise the user lambda
decides whether the loop ends. -/
def process_messages (handlers : Handlers) : atm → List Message → Outcome
  | self, [] => ⟨.blocked, self, [], []⟩
  | self, msg :: inbox =>
    match msg with
    | .close_queue => ⟨.thrown, self, [], inbox⟩
    | _ =>
      match handlers self msg with
      | none => process_messages handlers self inbox
      | some h =>
        if h.handled then ⟨.returned, h.self, h.sent, inbox⟩
        else (process_messages handlers h.self inbox).after h.sent

/-- The three lambdas of `atm::process_withdrawal` (lines 253-269). -/
def process_withdrawal_handlers : Handlers := fun self msg =>
  match msg with
  | .withdrawal_approved =>
    some ⟨true, { self with state := .done_processing },
      [(self.to_interface, .issue_money self.withdrawal_amount),
       (self.to_bank, .withdrawal_processed self.account self.withdrawal_amount)]⟩
  | .withdrawal_denied =>
    some ⟨true, { self with state := .done_processing },
      [(self.to_interface, .display_insufficient_funds)]⟩
  | .cancel_pressed =>
    some ⟨true, { self with state := .done_processing },
      [(self.to_bank, .cancel_withdrawal self.account self.withdrawal_amount),
       (self.to_interface, .display_withdrawal_cancelled)]⟩
  | _ => none

/-- The two lambdas of `atm::process_balance` (lines 275-283). -/
def process_balance_handlers : Handlers := fun self msg =>
  match msg with
  | .balance_received amount =>
    some ⟨true, { self with state := .wait_for_action },
      [(self.to_interface, .display_balance amount)]⟩
  | .cancel_pressed =>
    some ⟨true, { self with state := .done_processing }, []⟩
  | _ => none

/-- The three lambdas of `atm::wait_for_action` (lines 290-306). -/
def wait_for_action_handlers : Handlers := fun self msg =>
  match msg with
  | .withdraw_pressed amount =>
    some ⟨true, { self with withdrawal_amount := amount, state := .process_withdrawal },
      [(self.to_bank, .withdraw self.account amount self.get_sender)]⟩
  | .balance_pressed =>
    some ⟨true, { self with state := .process_balance },
      [(self.to_bank, .get_balance self.account self.get_sender)]⟩
  | .cancel_pressed =>
    some ⟨true, { self with state := .done_processing }, []⟩
  | _ => none

/-- The three lambdas of `atm::verifying_pin` (lines 312-324). -/
def verifying_pin_handlers : Handlers := fun self msg =>
  match msg with
  | .pin_verified =>
    some ⟨true, { self with state := .wait_for_action }, []⟩
  | .pin_incorrect =>
    some ⟨true, { self with state := .done_processing },
      [(self.to_interface, .display_pin_incorrect_message)]⟩
  | .cancel_pressed =>
    some ⟨true, { self with state := .done_processing }, []⟩
  | _ => none

/-- The three lambdas of `atm::getting_pin` (lines 330-347). -/
def getting_pin_handlers : Handlers := fun self msg =>
  match msg with
  | .digit_pressed digit =>
    let pin := self.pin ++ [digit]
    if pin.length = 4 then
      some ⟨true, { self with pin := pin, state := .verifying_pin },
        [(self.to_bank, .verify_pin self.account pin self.get_sender)]⟩
    else
      some ⟨false, { self with pin := pin }, []⟩
  | .clear_last_pressed =>
    some ⟨false, { self with pin := if self.pin ≠ [] then self.pin.dropLast else self.pin }, []⟩
  | .cancel_pressed =>
    some ⟨true, { self with state := .done_processing }, []⟩
  | _ => none

/-- The lambda of `atm::waiting_for_card` (lines 354-360). -/
def waiting_for_card_handlers : Handlers := fun self msg =>
  match msg with
  | .card_inserted account =>
    some ⟨true, { self with account := account, pin := [], state := .getting_pin },
      [(self.to_interface, .display_enter_pin)]⟩
  | _ => none

/-- Member `atm::process_withdrawal`. -/
def process_withdrawal (self : atm) (inbox : List Message) : Outcome :=
  process_messages process_withdrawal_handlers self inbox

/-- Member `atm::process_balance`. -/
def process_balance (self : atm) (inbox : List Message) : Outcome :=
  process_messages process_balance_handlers self inbox

/-- Member `atm::wait_for_action`: the menu is displayed, then the receive. -/
def wait_for_action (self : atm) (inbox : List Message) : Outcome :=
  (process_messages wait_for_action_handlers self inbox).after
    [(self.to_interface, .display_withdrawal_options)]

/-- Member `atm::verifying_pin`. -/
def verifying_pin (self : atm) (inbox : List Message) : Outcome :=
  process_messages verifying_pin_handlers self inbox

/-- Member `atm::getting_pin`. -/
def getting_pin (self : atm) (inbox : List Message) : Outcome :=
  process_messages getting_pin_handlers self inbox

/-- Member `atm::waiting_for_card`: the prompt is displayed, then the receive. -/
def waiting_for_card (self : atm) (inbox : List Message) : Outcome :=
  (process_messages waiting_for_card_handlers self inbox).after
    [(self.to_interface, .display_enter_card)]

/-- Member `atm::done_processing`: no receive; the card is ejected and the next
state is the initial one. -/
def done_processing (self : atm) (inbox : List Message) : Outcome :=
  ⟨.returned, { self with state := .waiting_for_card },
    [(self.to_interface, .eject_card)], inbox⟩

/-- The call through the member pointer, `(this->*state)()`. -/
def invoke (self : atm) (inbox : List Message) : Outcome :=
  match self.state with
  | .waiting_for_card => self.waiting_for_card inbox
  | .getting_pin => self.getting_pin inbox
  | .verifying_pin => self.verifying_pin inbox
  | .wait_for_action => self.wait_for_action inbox
  | .process_withdrawal => self.process_withdrawal inbox
  | .process_balance => self.process_balance inbox
  | .done_processing => self.done_processing inbox

/-- The handler pack that the state function `s` passes to `process_messages`;
`done_processing` makes no such call and gets the empty pack. -/
def state_handlers : atm_state → Handlers
  | .waiting_for_card => waiting_for_card_handlers
  | .getting_pin => getting_pin_handlers
  | .verifying_pin => verifying_pin_handlers
  | .wait_for_action => wait_for_action_handlers
  | .process_withdrawal => process_withdrawal_handlers
  | .process_balance => process_balance_handlers
  | .done_processing => fun _ _ => none

/-- The message alternatives for which the state function `s` passes a lambda
to `process_messages`, in the order of the lambdas. -/
def declared : atm_state → List Nat
  | .waiting_for_card => [(Message.card_inserted []).index]
  | .getting_pin =>
    [(Message.digit_pressed 'x').index, Message.clear_last_pressed.index,
     Message.cancel_pressed.index]
  | .verifying_pin =>
    [Message.pin_verified.index, Message.pin_incorrect.index, Message.cancel_pressed.index]
  | .wait_for_action =>
    [(Message.withdraw_pressed 0).index, Message.balance_pressed.index,
     Message.cancel_pressed.index]
  | .process_withdrawal =>
    [Message.withdrawal_approved.index, Message.withdrawal_denied.index,
     Message.cancel_pressed.index]
  | .process_balance => [(Message.balance_received 0).index, Message.cancel_pressed.index]
  | .done_processing => []

end atm

/-- How far a thread got on the messages given to it: it ended on `close_queue`
or it consumed them all and is blocked in `inbox.wait()`. -/
inductive Status where
  | closed
  | blocked
deriving DecidableEq, Repr

/-- The result of running a thread with data `σ` on the messages of its inbox:
the status, the data, the messages sent and the messages left in the inbox. -/
structure Run (σ : Type) where
  status : Status
  self : σ
  sent : List Sent
  inbox : List Message
deriving DecidableEq, Repr

/-- The same run, preceded by the sends `pre` made before it. -/
def Run.after {σ : Type} (pre : List Sent) (r : Run σ) : Run σ :=
  { r with sent := pre ++ r.sent }

namespace atm

/-- The loop of `atm::run` (lines 374-379), at most `fuel` calls of a state
function: `close_queue` is caught and ends the run, a blocked call leaves the
thread waiting; `none` when `fuel` calls did not get that far. -/
def run_loop : Nat → atm → List Message → Option (Run atm)
  | 0, _, _ => none
  | fuel + 1, self, inbox =>
    let o := self.invoke inbox
    match o.ctl with
    | .thrown => some ⟨.closed, o.self, o.sent, o.inbox⟩
    | .blocked => some ⟨.blocked, o.self, o.sent, []⟩
    | .returned => (run_loop fuel o.self o.inbox).map (Run.after o.sent)

/-- Member `atm::run` on the messages `inbox`: the state is set to
`waiting_for_card` and the loop runs.  Two calls per message and two more
always suffice (`atm_run_loop_total`). -/
def run (self : atm) (inbox : List Message) : Option (Run atm) :=
  run_loop (2 * inbox.length + 2) { self with state := .waiting_for_card } inbox

/-- The thread that is blocked in the `inbox.wait()` of state function
`self.state` gets the messages `inbox`: the pending `process_messages` call
goes on, then the loop of `run`.  A thread whose state is `done_processing` is
not blocked but about to call it. -/
def resume_loop (fuel : Nat) (self : atm) (inbox : List Message) : Option (Run atm) :=
  match self.state with
  | .done_processing => run_loop fuel self inbox
  | s =>
    let o := process_messages (state_handlers s) self inbox
    match o.ctl with
    | .thrown => some ⟨.closed, o.self, o.sent, o.inbox⟩
    | .blocked => some ⟨.blocked, o.self, o.sent, []⟩
    | .returned => (run_loop fuel o.self o.inbox).map (Run.after o.sent)

/-- The function `resume_loop` with the number of calls that always suffices. -/
def resume (self : atm) (inbox : List Message) : Option (Run atm) :=
  resume_loop (2 * inbox.length + 2) self inbox

end atm

/-- The subtraction of two `unsigned` values: the result is reduced modulo
`2 ^ 32`, so that a subtrahend larger than the minuend wraps around. -/
def unsigned_sub (x y : Nat) : Nat :=
  (x + 4294967296 - y % 4294967296) % 4294967296

/-- The data members of class `bank_machine`; `inbox` is the identity of the
queue owned by the receiver member. -/
structure bank_machine where
  inbox : QueueId
  balance : Nat
deriving DecidableEq, Repr

namespace bank_machine

/-- Member `bank_machine::get_sender`. -/
def get_sender (self : bank_machine) : sender := ⟨some self.inbox⟩

/-- The `std::visit` call in the loop of `bank_machine::run` (lines 399-428) on
one message: the data members after it and the messages sent, or `none` when
the lambda for `close_queue` throws. -/
def visit (self : bank_machine) (msg : Message) : Option (bank_machine × List Sent) :=
  match msg with
  | .verify_pin _ pin atm_queue =>
    if pin = ['1', '9', '3', '7'] then some (self, [(atm_queue, .pin_verified)])
    else some (self, [(atm_queue, .pin_incorrect)])
  | .withdraw _ amount atm_queue =>
    if self.balance ≥ amount then
      some ({ self with balance := unsigned_sub self.balance amount },
        [(atm_queue, .withdrawal_approved)])
    else some (self, [(atm_queue, .withdrawal_denied)])
  | .get_balance _ atm_queue => some (self, [(atm_queue, .balance_received self.balance)])
  | .withdrawal_processed _ _ => some (self, [])
  | .cancel_withdrawal _ _ => some (self, [])
  | .close_queue => none
  | _ => some (self, [])

/-- Member `bank_machine::run` on the messages `inbox`: one `visit` per message
until `close_queue` is caught or the inbox is empty. -/
def run : bank_machine → List Message → Run bank_machine
  | self, [] => ⟨.blocked, self, [], []⟩
  | self, msg :: inbox =>
    match self.visit msg with
    | none => ⟨.closed, self, [], inbox⟩
    | some (self1, sent) => (run self1 inbox).after sent

/-- The balance after each message of `inbox`, oldest first: the values the
member `balance` takes while `run` works through the inbox. -/
def balances : bank_machine → List Message → List Nat
  | _, [] => []
  | self, msg :: inbox =>
    match self.visit msg with
    | none => []
    | some (self1, _) => self1.balance :: balances self1 inbox

end bank_machine

/-- One `std::println` call: the format string and the values of its arguments. -/
abbrev Println := String × List Nat

/-- The class `interface_machine`: `inbox` is the identity of the queue owned by
the receiver member, `stdout` the lines the thread has printed. -/
structure interface_machine where
  inbox : QueueId
  stdout : List Println
deriving DecidableEq, Repr

namespace interface_machine

/-- Member `interface_machine::get_sender`. -/
def get_sender (self : interface_machine) : sender := ⟨some self.inbox⟩

/-- The `std::visit` call in the loop of `interface_machine::run` (lines 450-480)
on one message: the lines it prints, or `none` when the lambda for
`close_queue` throws. -/
def visit (msg : Message) : Option (List Println) :=
  match msg with
  | .issue_money amount => some [("Hardware: Issuing \x7b\x7d", [amount])]
  | .display_insufficient_funds => some [("Screen: Insufficient funds", [])]
  | .display_enter_pin => some [("Screen: Please enter your PIN (0-9)", [])]
  | .display_enter_card => some [("Screen: Please enter your card (Press I)", [])]
  | .display_balance amount => some [("Screen: Balance is \x7b\x7d", [amount])]
  | .display_withdrawal_options =>
    some [("Screen: Withdraw 50 (w) | Balance (b) | Cancel (c)", [])]
  | .display_withdrawal_cancelled => some [("Screen: Transaction Cancelled", [])]
  | .display_pin_incorrect_message => some [("Screen: PIN Incorrect", [])]
  | .eject_card => some [("Hardware: Ejecting card", [])]
  | .close_queue => none
  | _ => some []

/-- Member `interface_machine::run` on the messages `inbox`. -/
def run : interface_machine → List Message → Run interface_machine
  | self, [] => ⟨.blocked, self, [], []⟩
  | self, msg :: inbox =>
    match visit msg with
    | none => ⟨.closed, self, [], inbox⟩
    | some lines => run { self with stdout := self.stdout ++ lines } inbox

end interface_machine

namespace messaging

/-- The contents of the three queues constructed by `main`. -/
structure Queues where
  bank : queue
  ui_hardware : queue
  machine : queue
deriving DecidableEq, Repr

/-- The queue object at an address. -/
def Queues.get (qs : Queues) : QueueId → queue
  | .bank => qs.bank
  | .ui_hardware => qs.ui_hardware
  | .machine => qs.machine

/-- The store of queues after the object at one address has changed. -/
def Queues.set (qs : Queues) (id : QueueId) (v : queue) : Queues :=
  match id with
  | .bank => { qs with bank := v }
  | .ui_hardware => { qs with ui_hardware := v }
  | .machine => { qs with machine := v }

/-- Member `sender::send` (lines 212-214): `if (q) q->push(msg);`. -/
def sender.send (self : sender) (msg : Message) (qs : Queues) : Queues :=
  match self.q with
  | none => qs
  | some id => qs.set id ((qs.get id).push msg)

/-- The `send` calls of a thread, carried out in program order. -/
def deliver (sent : List Sent) (qs : Queues) : Queues :=
  sent.foldl (fun acc s => s.1.send s.2 acc) qs

end messaging

/-- Where a thread of `main` stands: its `std::thread` object exists but `run`
has not begun, it is blocked in `inbox.wait()`, or `run` has returned. -/
inductive Thread where
  | created
  | waiting
  | closed
deriving DecidableEq, Repr

/-- Where a thread stands after a run that ended with the given status. -/
def Status.thread : Status → Thread
  | .closed => .closed
  | .blocked => .waiting

/-- The three actors of `main`, their threads and their queues.
`ui_received` records the messages the interface thread has dequeued. -/
structure World where
  bank : bank_machine
  bank_thread : Thread
  ui_hardware : interface_machine
  ui_thread : Thread
  ui_received : List Message
  machine : atm
  atm_thread : Thread
  queues : Queues
deriving DecidableEq, Repr

namespace World

/-- The state of `main` after line 504: the three actors constructed and wired
(`machine(bank.get_sender(), ui_hardware.get_sender())`), the three threads
created, the queues empty.  The members `state` and `withdrawal_amount` of the
atm have no initialiser; `run` assigns the first, `amount0` stands for the
second. -/
def start (amount0 : Nat) : World :=
  { bank := ⟨.bank, 199⟩
    bank_thread := .created
    ui_hardware := ⟨.ui_hardware, []⟩
    ui_thread := .created
    ui_received := []
    machine :=
      { inbox := .machine
        to_bank := ⟨some .bank⟩
        to_interface := ⟨some .ui_hardware⟩
        state := .waiting_for_card
        account := []
        withdrawal_amount := amount0
        pin := [] }
    atm_thread := .created
    queues := ⟨queue.empty, queue.empty, queue.empty⟩ }

/-- The world after the atm thread got as far as `r` says. -/
def after_machine (w : World) (r : Run atm) (q : queue) : World :=
  { w with
    machine := r.self
    atm_thread := r.status.thread
    queues := deliver r.sent { w.queues with machine := q } }

/-- One move of the atm thread: a created thread runs up to its first
`inbox.wait()`, a waiting thread dequeues one message and runs up to the next
`inbox.wait()`; `none` when the thread cannot move. -/
def step_machine (w : World) : Option World :=
  match w.atm_thread with
  | .closed => none
  | .created => (w.machine.run []).map (fun r => w.after_machine r w.queues.machine)
  | .waiting =>
    match w.queues.machine.wait_and_pop with
    | none => none
    | some (msg, q) => (w.machine.resume [msg]).map (fun r => w.after_machine r q)

/-- One move of the bank thread: a created thread enters `run` and blocks in
its first `inbox.wait()`, a waiting thread dequeues one message and visits it. -/
def step_bank (w : World) : Option World :=
  match w.bank_thread with
  | .closed => none
  | .created => some { w with bank_thread := .waiting }
  | .waiting =>
    match w.queues.bank.wait_and_pop with
    | none => none
    | some (msg, q) =>
      let r := w.bank.run [msg]
      some { w with
        bank := r.self
        bank_thread := r.status.thread
        queues := deliver r.sent { w.queues with bank := q } }

/-- One move of the interface thread: a created thread enters `run` and blocks
in its first `inbox.wait()`, a waiting thread dequeues one message and visits
it. -/
def step_ui (w : World) : Option World :=
  match w.ui_thread with
  | .closed => none
  | .created => some { w with ui_thread := .waiting }
  | .waiting =>
    match w.queues.ui_hardware.wait_and_pop with
    | none => none
    | some (msg, q) =>
      let r := w.ui_hardware.run [msg]
      some { w with
        ui_hardware := r.self
        ui_thread := r.status.thread
        ui_received := w.ui_received ++ [msg]
        queues := deliver r.sent { w.queues with ui_hardware := q } }

/-- One move of the system: the first of atm, bank and interface that can move. -/
def step (w : World) : Option World :=
  match w.step_machine with
  | some w1 => some w1
  | none =>
    match w.step_bank with
    | some w1 => some w1
    | none => w.step_ui

/-- Moves until no thread can move, at most `fuel` of them; `none` when a thread
can still move after `fuel` moves. -/
def quiesce : Nat → World → Option World
  | 0, w =>
    match w.step with
    | none => some w
    | some _ => none
  | fuel + 1, w =>
    match w.step with
    | none => some w
    | some w1 => quiesce fuel w1

/-- The orchestrator posts one message to the atm (`atm_inbox.send`, lines
510-527) and every message that follows from it is delivered and processed
before the orchestrator goes on. -/
def stimulus (w : World) (msg : Message) : Option World :=
  quiesce 16 { w with queues := w.machine.get_sender.send msg w.queues }

/-- A sequence of stimuli, each processed to quiescence before the next. -/
def stimuli : World → List Message → Option World
  | w, [] => some w
  | w, msg :: rest =>
    match w.stimulus msg with
    | none => none
    | some w1 => stimuli w1 rest

/-- The threads of `main` started and blocked on their empty inboxes: the
configuration in which the orchestrator reads its first character. -/
def boot (amount0 : Nat) : Option World :=
  quiesce 16 (start amount0)

end World

/-- The quiescent configuration of the system of `main`: the atm wired to the
bank and the interface and holding the given data, the bank holding `balance`,
the interface having printed `stdout` and dequeued `received`, every thread
blocked in `inbox.wait()` and every queue empty. -/
def World.idle (state : atm_state) (account : List Char) (amount : Nat) (pin : List Char)
    (balance : Nat) (stdout : List Println) (received : List Message) : World :=
  { bank := ⟨.bank, balance⟩
    bank_thread := .waiting
    ui_hardware := ⟨.ui_hardware, stdout⟩
    ui_thread := .waiting
    ui_received := received
    machine :=
      { inbox := .machine
        to_bank := ⟨some .bank⟩
        to_interface := ⟨some .ui_hardware⟩
        state := state
        account := account
        withdrawal_amount := amount
        pin := pin }
    atm_thread := .waiting
    queues := ⟨queue.empty, queue.empty, queue.empty⟩ }

/-- The stimuli of one withdrawal session as the orchestrator posts them: the
card, the four digits of the pin the bank accepts, and the withdraw key. -/
def World.session (account : List Char) (amount : Nat) : List Message :=
  [.card_inserted account, .digit_pressed '1', .digit_pressed '9', .digit_pressed '3',
   .digit_pressed '7', .withdraw_pressed amount]

/-- The three threads that `main` creates, named after the objects they run. -/
inductive Actor where
  | machine
  | bank
  | ui_hardware
deriving DecidableEq, Repr

/-- One move of the thread of the given actor; `none` when it cannot move. -/
def World.step_of (w : World) : Actor → Option World
  | .machine => w.step_machine
  | .bank => w.step_bank
  | .ui_hardware => w.step_ui

/-- The threads take turns in the order of the list `sched`; the turn of a
thread that cannot move passes.  Every interleaving of the three threads is
the run of some list. -/
def World.run_schedule : World → List Actor → World
  | w, [] => w
  | w, a :: sched =>
    match w.step_of a with
    | none => run_schedule w sched
    | some w1 => run_schedule w1 sched

/-- No thread can move: each is closed or blocked on its empty inbox. -/
def World.quiescent (w : World) : Bool :=
  w.step.isNone

/-- The stimuli of the orchestrator, each followed by an interleaving of the
three threads chosen by the caller: a message is posted to the atm, the
threads take turns as the list says, and the orchestrator goes on when no
thread can move; `none` when a list ends with a thread still able to move. -/
def World.stimuli_by : World → List (Message × List Actor) → Option World
  | w, [] => some w
  | w, (msg, sched) :: rest =>
    let w1 := World.run_schedule { w with queues := w.machine.get_sender.send msg w.queues } sched
    if w1.quiescent then stimuli_by w1 rest else none

/-- The message carries no reply destination, or the one it carries is the
sender on the queue `id`. -/
def Message.replies_to (id : QueueId) : Message → Bool
  | .withdraw _ _ atm_queue => atm_queue = ⟨some id⟩
  | .verify_pin _ _ atm_queue => atm_queue = ⟨some id⟩
  | .get_balance _ atm_queue => atm_queue = ⟨some id⟩
  | _ => true

/-- The wiring that `main` sets up and the threads keep: the atm owns the queue
`machine` and holds the senders of the bank and of the interface, and every
request waiting in the queue of the bank asks for its reply on the queue of
the atm. -/
def World.wired (w : World) : Bool :=
  w.machine.inbox = .machine ∧ w.machine.to_bank = ⟨some .bank⟩
    ∧ w.machine.to_interface = ⟨some .ui_hardware⟩
    ∧ w.queues.bank.q.all (Message.replies_to .machine)

/-- The messages of `sent` that were sent on a sender of the queue `id`. -/
def messaging.sent_to (id : QueueId) (sent : List Sent) : List Message :=
  (sent.filter (fun s => s.1.q = some id)).map Prod.snd

/-- The data `a1` and the sends `sent` that some code of the atm produced from
the data `a` respect the wiring: the three channel members are those of `a`,
every send went to the bank or to the interface, and every request sent asks
for its reply on the own inbox. -/
def atm.keeps_wiring (a a1 : atm) (sent : List Sent) : Prop :=
  a1.inbox = a.inbox ∧ a1.to_bank = a.to_bank ∧ a1.to_interface = a.to_interface
    ∧ sent.all (fun x => (x.1 = a.to_bank ∨ x.1 = a.to_interface) ∧ x.2.replies_to a.inbox)
      = true

/-- The body of the input loop of `main` (lines 508-528) for the character `c`
that `getchar` returned: the `send` calls made on `atm_inbox` and the value of
`quit` after the `switch`. -/
def main_switch (atm_inbox : sender) (c : Char) : List Sent × Bool :=
  match c with
  | '0' | '1' | '2' | '3' | '4' | '5' | '6' | '7' | '8' | '9' =>
    ([(atm_inbox, .digit_pressed c)], false)
  | 'b' => ([(atm_inbox, .balance_pressed)], false)
  | 'w' => ([(atm_inbox, .withdraw_pressed 50)], false)
  | 'c' => ([(atm_inbox, .cancel_pressed)], false)
  | 'q' => ([], true)
  | 'i' => ([(atm_inbox, .card_inserted ['a', 'c', 'c', '1', '2', '3', '4'])], false)
  | _ => ([], false)

/-- The loop `while (!quit)` of `main` on the characters that `getchar` returns,
in order: the `send` calls made, whether the loop ended (`quit` became true)
and the characters not read.  With the input used up and `quit` still false
the loop is waiting in `getchar`. -/
def main_loop (atm_inbox : sender) : List Char → List Sent × Bool × List Char
  | [] => ([], false, [])
  | c :: rest =>
    match main_switch atm_inbox c with
    | (sent, true) => (sent, true, rest)
    | (sent, false) =>
      match main_loop atm_inbox rest with
      | (sent1, quit, left) => (sent ++ sent1, quit, left)

/-- The class `bucket_type` of `threadsafe_lookup_table` (file
`6/11_threadsafe_lookup_table.cpp`): the member `data`, a `std::list` of
`(key, value)` pairs.  The `shared_mutex` only serialises the member functions
and is not modelled. -/
structure bucket_type (Key Value : Type) where
  data : List (Key × Value)
deriving DecidableEq, Repr

namespace bucket_type

variable {Key Value : Type} [DecidableEq Key]

/-- Member `find_entry_for`: `std::find_if` over `data` for the first item whose
key is `key`.  The iterator is its position; `data.length` is `data.end()`. -/
def find_entry_for (self : bucket_type Key Value) (key : Key) : Nat :=
  self.data.findIdx (fun item => item.1 = key)

/-- Member `bucket_type::value_for` (lines 29-33).  No item at the position
found means `found_entry == data.end()`. -/
def value_for (self : bucket_type Key Value) (key : Key) (default_value : Value) : Value :=
  match self.data[self.find_entry_for key]? with
  | none => default_value
  | some found_entry => found_entry.2

/-- Member `bucket_type::add_or_update_mapping` (lines 35-44): `push_back` when the
key is not found, otherwise the value of the found item is overwritten. -/
def add_or_update_mapping (self : bucket_type Key Value) (key : Key) (value : Value) :
    bucket_type Key Value :=
  match self.data[self.find_entry_for key]? with
  | none => ⟨self.data ++ [(key, value)]⟩
  | some found_entry => ⟨self.data.set (self.find_entry_for key) (found_entry.1, value)⟩

/-- Member `bucket_type::remove_mapping` (lines 46-52): the found item is erased. -/
def remove_mapping (self : bucket_type Key Value) (key : Key) : bucket_type Key Value :=
  match self.data[self.find_entry_for key]? with
  | none => self
  | some _ => ⟨self.data.eraseIdx (self.find_entry_for key)⟩

end bucket_type

/-- The class `threadsafe_lookup_table`: the vector of buckets and the hash
function, whose `std::size_t` result is a natural number. -/
structure threadsafe_lookup_table (Key Value : Type) where
  buckets : List (bucket_type Key Value)
  hasher : Key → Nat

namespace threadsafe_lookup_table

variable {Key Value : Type} [DecidableEq Key]

/-- The constructor (lines 82-87): `num_buckets` new, empty buckets. -/
def new (num_buckets : Nat) (hasher : Key → Nat) : threadsafe_lookup_table Key Value :=
  ⟨List.replicate num_buckets ⟨[]⟩, hasher⟩

/-- Member `get_bucket` (lines 72-75): the index `hasher(key) % buckets.size()` and
the bucket there.  With no bucket the remainder is undefined, which is `none`. -/
def get_bucket (self : threadsafe_lookup_table Key Value) (key : Key) :
    Option (Nat × bucket_type Key Value) :=
  if self.buckets.length = 0 then none
  else
    match self.buckets[self.hasher key % self.buckets.length]? with
    | none => none
    | some bucket => some (self.hasher key % self.buckets.length, bucket)

/-- Member `threadsafe_lookup_table::value_for` (lines 92-94). -/
def value_for (self : threadsafe_lookup_table Key Value) (key : Key) (default_value : Value) :
    Option Value :=
  match self.get_bucket key with
  | none => none
  | some (_, bucket) => some (bucket.value_for key default_value)

/-- Member `threadsafe_lookup_table::add_or_update_mapping` (lines 96-98): the
bucket of the key is changed in place. -/
def add_or_update_mapping (self : threadsafe_lookup_table Key Value) (key : Key)
    (value : Value) : Option (threadsafe_lookup_table Key Value) :=
  match self.get_bucket key with
  | none => none
  | some (bucket_index, bucket) =>
    some { self with
      buckets := self.buckets.set bucket_index (bucket.add_or_update_mapping key value) }

/-- Member `threadsafe_lookup_table::remove_mapping` (lines 100-102). -/
def remove_mapping (self : threadsafe_lookup_table Key Value) (key : Key) :
    Option (threadsafe_lookup_table Key Value) :=
  match self.get_bucket key with
  | none => none
  | some (bucket_index, bucket) =>
    some { self with buckets := self.buckets.set bucket_index (bucket.remove_mapping key) }

end threadsafe_lookup_table

/-- A call that changes a lookup table. -/
inductive table_call (Key Value : Type) where
  | add_or_update_mapping (key : Key) (value : Value)
  | remove_mapping (key : Key)

/-- A sequence of calls on a lookup table, in the order the bucket mutexes admit
them; `none` when one of them is undefined. -/
def threadsafe_lookup_table.calls {Key Value : Type} [DecidableEq Key] :
    threadsafe_lookup_table Key Value → List (table_call Key Value) →
      Option (threadsafe_lookup_table Key Value)
  | self, [] => some self
  | self, .add_or_update_mapping key value :: rest =>
    match self.add_or_update_mapping key value with
    | none => none
    | some self1 => calls self1 rest
  | self, .remove_mapping key :: rest =>
    match self.remove_mapping key with
    | none => none
    | some self1 => calls self1 rest

/-- The exception `empty_stack` of `6/1_threadsafe_stack_mutex.cpp`. -/
structure empty_stack where
deriving DecidableEq, Repr

/-- Member `empty_stack::what`. -/
def empty_stack.what (_ : empty_stack) : String := "empty stack"

/-- The class `threadsafe_stack` (file `6/1_threadsafe_stack_mutex.cpp`): the
member `std::stack<T> data`, top first.  The mutex only serialises the member
functions and is not modelled. -/
structure threadsafe_stack (T : Type) where
  data : List T
deriving DecidableEq, Repr

namespace threadsafe_stack

variable {T : Type}

/-- Member `push` (lines 32-35). -/
def push (self : threadsafe_stack T) (new_value : T) : threadsafe_stack T :=
  ⟨new_value :: self.data⟩

/-- Member `std::shared_ptr<T> pop()` (lines 37-43): the value returned or the
exception thrown, and the stack afterwards. -/
def pop (self : threadsafe_stack T) : Except empty_stack T × threadsafe_stack T :=
  match self.data with
  | [] => (.error ⟨⟩, self)
  | top :: rest => (.ok top, ⟨rest⟩)

/-- Member `void pop(T& value)` (lines 45-50): whether it returned or threw, the
referenced variable afterwards, and the stack afterwards. -/
def pop_into (self : threadsafe_stack T) (value : T) :
    Except empty_stack Unit × T × threadsafe_stack T :=
  match self.data with
  | [] => (.error ⟨⟩, value, self)
  | top :: rest => (.ok (), top, ⟨rest⟩)

/-- Member `empty` (lines 52-55). -/
def empty (self : threadsafe_stack T) : Bool :=
  self.data.isEmpty

end threadsafe_stack

/-- A call on a `threadsafe_stack`: `push`, `pop()` or `pop(value)`. -/
inductive stack_call (T : Type) where
  | push (new_value : T)
  | pop
  | pop_into (value : T)

/-- A sequence of calls on a stack, in the order the mutex admits them: the
stack afterwards, the number of `push` calls and the number of pops that
returned without throwing. -/
def threadsafe_stack.calls {T : Type} :
    threadsafe_stack T → List (stack_call T) → threadsafe_stack T × Nat × Nat
  | self, [] => (self, 0, 0)
  | self, .push new_value :: rest =>
    match calls (self.push new_value) rest with
    | (s, pushed, popped) => (s, pushed + 1, popped)
  | self, .pop :: rest =>
    match self.pop with
    | (.ok _, self1) =>
      match calls self1 rest with
      | (s, pushed, popped) => (s, pushed, popped + 1)
    | (.error _, self1) => calls self1 rest
  | self, .pop_into value :: rest =>
    match self.pop_into value with
    | (.ok _, _, self1) =>
      match calls self1 rest with
      | (s, pushed, popped) => (s, pushed, popped + 1)
    | (.error _, _, self1) => calls self1 rest

/-- The struct `node` of the linked-list `threadsafe_queue` (file
`6/5_threadsafe_queue_1_mutex.cpp`): the member `data`, null or a value.  The
member `next` is the node that follows in the list of nodes of the queue. -/
structure queue_node (T : Type) where
  data : Option T
deriving DecidableEq, Repr

/-- The class `threadsafe_queue` of `6/5_threadsafe_queue_1_mutex.cpp`: `nodes`
are the node owned by `head` and the nodes owned through the `next` members, in
order; `tail` is the position in that chain of the node the raw pointer `tail`
refers to.  The mutex is not modelled. -/
structure threadsafe_queue (T : Type) where
  nodes : List (queue_node T)
  tail : Nat
deriving DecidableEq, Repr

namespace threadsafe_queue

variable {T : Type}

/-- The constructor (line 22): `head(new node), tail(head.get())`. -/
def new : threadsafe_queue T := ⟨[⟨none⟩], 0⟩

/-- Member `try_pop` (lines 26-35): the pointer returned and the queue
afterwards.  `head.get() == tail` is `tail` at position 0; otherwise the data of
the head node is returned and `head` becomes its `next`, which moves every
node one position forward. -/
def try_pop (self : threadsafe_queue T) : Option T × threadsafe_queue T :=
  if self.tail = 0 then (none, self)
  else
    match self.nodes with
    | [] => (none, self)
    | old_head :: next => (old_head.data, ⟨next, self.tail - 1⟩)

/-- Member `push` (lines 37-45): `tail->data = new_data` writes the node at
`tail`, `tail->next = std::move(p)` makes the new empty node its only
successor, and `tail` moves to that node. -/
def push (self : threadsafe_queue T) (new_value : T) : threadsafe_queue T :=
  ⟨(self.nodes.set self.tail ⟨some new_value⟩).take (self.tail + 1) ++ [⟨none⟩], self.tail + 1⟩

/-- A sequence of `push` calls, in order. -/
def push_all (self : threadsafe_queue T) (values : List T) : threadsafe_queue T :=
  values.foldl push self

/-- The results of `n` successive `try_pop` calls and the queue they leave. -/
def try_pop_n : Nat → threadsafe_queue T → List (Option T) × threadsafe_queue T
  | 0, self => ([], self)
  | n + 1, self =>
    match try_pop_n n (self.try_pop).2 with
    | (out, self1) => ((self.try_pop).1 :: out, self1)

end threadsafe_queue

/-- A call on a linked-list `threadsafe_queue`. -/
inductive queue_call (T : Type) where
  | push (new_value : T)
  | try_pop

/-- A sequence of calls on a queue, in the order the mutex admits them: the
queue afterwards, the number of `push` calls and the number of `try_pop` calls
that returned a value. -/
def threadsafe_queue.calls {T : Type} :
    threadsafe_queue T → List (queue_call T) → threadsafe_queue T × Nat × Nat
  | self, [] => (self, 0, 0)
  | self, .push new_value :: rest =>
    match calls (self.push new_value) rest with
    | (q, pushed, popped) => (q, pushed + 1, popped)
  | self, .try_pop :: rest =>
    match calls (self.try_pop).2 rest with
    | (q, pushed, popped) => (q, pushed, if (self.try_pop).1.isSome then popped + 1 else popped)

/-- The class `threadsafe_list` (file `6/13_threadsafe_list.cpp`): the values
held by the nodes that follow the dummy node `head`, in order.  The node
mutexes are not modelled. -/
structure threadsafe_list (T : Type) where
  nodes : List T
deriving DecidableEq, Repr

namespace threadsafe_list

variable {T : Type}

/-- Member `push_front` (lines 33-38). -/
def push_front (self : threadsafe_list T) (value : T) : threadsafe_list T :=
  ⟨value :: self.nodes⟩

/-- The loop of `for_each` (lines 44-51) from a node on: `f` is called on the
value of each next node in turn; it may change the value and its own state. -/
def for_each_loop {σ : Type} (f : T → σ → T × σ) : List T → σ → List T × σ
  | [], st => ([], st)
  | next :: rest, st =>
    match f next st with
    | (value, st1) =>
      match for_each_loop f rest st1 with
      | (rest1, st2) => (value :: rest1, st2)

/-- Member `for_each` (lines 40-52), `f` carrying its captured state. -/
def for_each {σ : Type} (self : threadsafe_list T) (f : T → σ → T × σ) (st : σ) :
    threadsafe_list T × σ :=
  match for_each_loop f self.nodes st with
  | (nodes, st1) => (⟨nodes⟩, st1)

/-- The loop of `remove_if` (lines 74-86) from a node on: a next node whose
value satisfies `p` is unlinked and `current` stays, otherwise `current` moves
to it. -/
def remove_if_loop (p : T → Bool) : List T → List T
  | [] => []
  | next :: rest => if p next then remove_if_loop p rest else next :: remove_if_loop p rest

/-- Member `remove_if` (lines 70-87). -/
def remove_if (self : threadsafe_list T) (p : T → Bool) : threadsafe_list T :=
  ⟨remove_if_loop p self.nodes⟩

end threadsafe_list

/-- The function `data_producer` (lines 90-94): `push_front(i)` for `i` from 0 to 99. -/
def data_producer (list : threadsafe_list Int) : threadsafe_list Int :=
  (List.range 100).foldl (fun l i => l.push_front (Int.ofNat i)) list

/-- The function `data_cleaner` (lines 96-101): the even numbers are removed. -/
def data_cleaner (list : threadsafe_list Int) : threadsafe_list Int :=
  list.remove_if (fun val => Int.tmod val 2 == 0)

/-- The counting `for_each` of `data_printer` and of `main` (lines 104-107,
123-126): the value of `count` afterwards. -/
def data_printer (list : threadsafe_list Int) : Nat :=
  (list.for_each (fun val count => (val, count + 1)) 0).2

/-- The queue holds the values `pending`, oldest first: its nodes are one node
for each value and then the empty dummy node, to which `tail` refers. -/
def threadsafe_queue.holds {T : Type} (q : threadsafe_queue T) (pending : List T) : Prop :=
  q.nodes = pending.map (fun v => ⟨some v⟩) ++ [⟨none⟩] ∧ q.tail = pending.length

/-- The amount of money that a message tells the interface to issue. -/
def Message.issued_amount : Message → Nat
  | .issue_money amount => amount
  | _ => 0

/-- The sum of the amounts of the `issue_money` commands among `received`. -/
def issued (received : List Message) : Nat :=
  (received.map Message.issued_amount).sum

/-- The alternatives listed as interface events in `Message` (line 177-178):
what card reader and keypad send to the atm.  The orchestrator posts all of
them but `clear_last_pressed`. -/
def Message.interface_event : Message → Bool
  | .card_inserted _ => true
  | .digit_pressed _ => true
  | .clear_last_pressed => true
  | .cancel_pressed => true
  | .withdraw_pressed _ => true
  | .balance_pressed => true
  | _ => false

/-- The pin after one more message, in the words of the specification: a digit
pressed is kept at the end, `clear_last_pressed` removes the most recently kept
digit, or nothing when no digit is kept, and any other message changes nothing.
Written from the specification, to be compared with the member `pin`. -/
def kept_digit_spec (pin : List Char) : Message → List Char
  | .digit_pressed d => pin ++ [d]
  | .clear_last_pressed => pin.dropLast
  | _ => pin

/-- The digits kept after the messages `ms`, starting from the digits `pin`, in
the words of the specification. -/
def kept_digits_spec (pin : List Char) (ms : List Message) : List Char :=
  ms.foldl kept_digit_spec pin

/-- The messages that follow the last `card_inserted` of the list, in the words
of the specification: reading from the front, each `card_inserted` starts
afresh. -/
def since_last_card_inserted_spec (ms : List Message) : List Message :=
  ms.foldl
    (fun kept m =>
      match m with
      | .card_inserted _ => []
      | _ => kept ++ [m])
    []

namespace messaging

/-- The class `messaging::receiver` (lines 217-222): it owns its queue as the
member `q`, which is identified here by its address. -/
structure receiver where
  q : QueueId
deriving DecidableEq, Repr

/-- Member `receiver::get_sender`: `sender(&q)`, a pointer to the member queue. -/
def receiver.get_sender (self : receiver) : sender := ⟨some self.q⟩

/-- The queue objects of the program with their lifetimes: the contents of the
queues and the addresses of the queues whose lifetime has ended. -/
structure Objects where
  queues : Queues
  destroyed : List QueueId
deriving DecidableEq, Repr

/-- The destructor of `receiver`, which the class leaves implicit: the lifetime
of the member queue ends.  A `sender` is a plain `queue*` that the receiver does
not know of, so every sender keeps the address it holds. -/
def receiver.destroy (self : receiver) (mem : Objects) : Objects :=
  { mem with destroyed := self.q :: mem.destroyed }

/-- Member `sender::send` (lines 212-214) on objects with lifetimes:
`if (q) q->push(msg);`.  A null pointer skips the push.  Any other pointer
passes the test, and `push` is called on the queue it points to; when the
lifetime of that queue has ended the call is undefined behaviour, the result
`none`. -/
def sender.send_in (self : sender) (msg : Message) (mem : Objects) : Option Objects :=
  match self.q with
  | none => some mem
  | some id =>
    if id ∈ mem.destroyed then none
    else some { mem with queues := mem.queues.set id ((mem.queues.get id).push msg) }

end messaging

/-! ## The channel -/

theorem queue_push_all_q (self : queue) (msgs : List Message) :
    (self.push_all msgs).q = self.q ++ msgs := by
  induction msgs generalizing self with
  | nil => simp [queue.push_all]
  | cons m ms ih =>
    have h := ih (self.push m)
    simp only [queue.push_all, List.foldl_cons] at h ⊢
    rw [h]
    simp [queue.push]

theorem queue_pop_n_append (xs ys : List Message) :
    queue.pop_n xs.length ⟨xs ++ ys⟩ = some (xs, ⟨ys⟩) := by
  induction xs with
  | nil => simp [queue.pop_n]
  | cons x xs ih => simp [queue.pop_n, queue.wait_and_pop, ih]

theorem received_from_map_snd (s : Nat) (pushes : List (Nat × Message)) :
    received_from s pushes (pushes.map Prod.snd) = sent_by s pushes := by
  unfold received_from sent_by
  congr 2
  induction pushes with
  | nil => rfl
  | cons p ps ih => simp [ih]

/-- C1. Messages pushed onto an empty queue come out of successive
`wait_and_pop` calls in push order: after the pushes of a serialised history,
as many pops return exactly the pushed messages, oldest first, and leave the
queue empty; a pop returns the oldest message and removes only it; and the
messages received from any one producer are the messages it pushed, in its
order, whatever other producers pushed in between. -/
theorem queue_fifo_order (pushes : List (Nat × Message)) (m : Message) (ms : List Message) :
    queue.pop_n pushes.length (queue.empty.push_all (pushes.map Prod.snd))
        = some (pushes.map Prod.snd, queue.empty)
      ∧ (queue.empty.push_all (m :: ms)).wait_and_pop = some (m, queue.empty.push_all ms)
      ∧ ∀ s : Nat, received_from s pushes (pushes.map Prod.snd) = sent_by s pushes := by
  refine ⟨?_, ?_, fun s => received_from_map_snd s pushes⟩
  · have h := queue_pop_n_append (pushes.map Prod.snd) []
    have e : queue.empty.push_all (pushes.map Prod.snd) = ⟨pushes.map Prod.snd ++ []⟩ := by
      have := queue_push_all_q queue.empty (pushes.map Prod.snd)
      cases hq : queue.empty.push_all (pushes.map Prod.snd) with
      | mk q => rw [hq] at this; simp [queue.empty] at this; simp [this]
    rw [e]
    simpa [queue.empty] using h
  · have h1 := queue_push_all_q queue.empty (m :: ms)
    have h2 := queue_push_all_q queue.empty ms
    cases hq1 : queue.empty.push_all (m :: ms) with
    | mk q1 =>
      cases hq2 : queue.empty.push_all ms with
      | mk q2 =>
        rw [hq1] at h1; rw [hq2] at h2
        simp [queue.empty] at h1 h2
        subst h1; subst h2
        simp [queue.wait_and_pop]

/-! ## The selective receive and the loop of `atm::run` -/

theorem process_messages_nil (H : Handlers) (a : atm) :
    atm.process_messages H a [] = ⟨.blocked, a, [], []⟩ := by
  simp [atm.process_messages]

theorem process_messages_close (H : Handlers) (a : atm) (rest : List Message) :
    atm.process_messages H a (.close_queue :: rest) = ⟨.thrown, a, [], rest⟩ := by
  simp [atm.process_messages]

theorem process_messages_cons (H : Handlers) (a : atm) (m : Message) (rest : List Message)
    (hc : m ≠ .close_queue) :
    atm.process_messages H a (m :: rest) =
      match H a m with
      | none => atm.process_messages H a rest
      | some h =>
        if h.handled then ⟨.returned, h.self, h.sent, rest⟩
        else (atm.process_messages H h.self rest).after h.sent := by
  cases m <;> first | exact absurd rfl hc | simp [atm.process_messages]

theorem process_messages_inbox_lt (H : Handlers) (a : atm) (inbox : List Message)
    (h : (atm.process_messages H a inbox).ctl = .returned) :
    (atm.process_messages H a inbox).inbox.length < inbox.length := by
  induction inbox generalizing a with
  | nil => simp [process_messages_nil] at h
  | cons m rest ih =>
    by_cases hc : m = .close_queue
    · subst hc; simp [process_messages_close] at h
    · rw [process_messages_cons H a m rest hc] at h ⊢
      cases hH : H a m with
      | none =>
        simp only [hH] at h ⊢
        have := ih a h
        simp only [List.length_cons]; omega
      | some hd =>
        simp only [hH] at h ⊢
        by_cases hb : hd.handled = true
        · simp [hb]
        · simp only [hb, Outcome.after] at h ⊢
          have := ih hd.self h
          simp only [List.length_cons]
          simp only [Bool.false_eq_true, ↓reduceIte] at this ⊢
          omega

/-- A state function that returns has made progress: it consumed a message, or
it was `done_processing` and the next state is not. -/
theorem atm_invoke_measure (a : atm) (inbox : List Message)
    (h : (a.invoke inbox).ctl = .returned) :
    2 * (a.invoke inbox).inbox.length
        + (if (a.invoke inbox).self.state = .done_processing then 1 else 0)
      < 2 * inbox.length + (if a.state = .done_processing then 1 else 0) := by
  unfold atm.invoke at h ⊢
  cases hs : a.state <;> simp only [hs] at h ⊢
  case done_processing => simp [atm.done_processing]
  all_goals
    simp only [atm.waiting_for_card, atm.getting_pin, atm.verifying_pin, atm.wait_for_action,
      atm.process_withdrawal, atm.process_balance, Outcome.after] at h ⊢
    have := process_messages_inbox_lt _ a inbox h
    split <;> simp <;> omega

theorem atm_run_loop_succ (fuel : Nat) (a : atm) (inbox : List Message) (r : Run atm)
    (h : atm.run_loop fuel a inbox = some r) : atm.run_loop (fuel + 1) a inbox = some r := by
  induction fuel generalizing a inbox r with
  | zero => simp [atm.run_loop] at h
  | succ n ih =>
    rw [atm.run_loop] at h ⊢
    cases hc : (a.invoke inbox).ctl <;> simp only [hc] at h ⊢
    · cases hr : atm.run_loop n (a.invoke inbox).self (a.invoke inbox).inbox with
      | none => simp [hr] at h
      | some r1 =>
        rw [ih _ _ _ hr]
        rw [hr] at h
        exact h
    · exact h
    · exact h

theorem atm_run_loop_mono (fuel more : Nat) (a : atm) (inbox : List Message) (r : Run atm)
    (h : atm.run_loop fuel a inbox = some r) (hle : fuel ≤ more) :
    atm.run_loop more a inbox = some r := by
  induction more with
  | zero =>
    have : fuel = 0 := by omega
    subst this; exact h
  | succ n ih =>
    by_cases hn : fuel ≤ n
    · exact atm_run_loop_succ n a inbox r (ih hn)
    · have : fuel = n + 1 := by omega
      subst this; exact h

/-- The loop of `atm::run` never needs more than two calls per message and
two more: with that many it ends closed or blocked. -/
theorem atm_run_loop_total (fuel : Nat) (a : atm) (inbox : List Message)
    (h : 2 * inbox.length + (if a.state = .done_processing then 1 else 0) < fuel) :
    ∃ r, atm.run_loop fuel a inbox = some r := by
  induction fuel generalizing a inbox with
  | zero => omega
  | succ n ih =>
    rw [atm.run_loop]
    cases hc : (a.invoke inbox).ctl <;> simp only [hc]
    · have hm := atm_invoke_measure a inbox hc
      obtain ⟨r1, hr1⟩ := ih (a.invoke inbox).self (a.invoke inbox).inbox (by omega)
      exact ⟨_, by rw [hr1]; rfl⟩
    · exact ⟨_, rfl⟩
    · exact ⟨_, rfl⟩

theorem atm_run_total (a : atm) (inbox : List Message) : ∃ r, a.run inbox = some r := by
  unfold atm.run
  apply atm_run_loop_total
  simp

theorem atm_resume_loop_eq (fuel : Nat) (a : atm) (inbox : List Message)
    (hs : a.state ≠ .done_processing) :
    atm.resume_loop fuel a inbox =
      match (atm.process_messages (atm.state_handlers a.state) a inbox).ctl with
      | .thrown => some ⟨.closed, (atm.process_messages (atm.state_handlers a.state) a inbox).self,
          (atm.process_messages (atm.state_handlers a.state) a inbox).sent,
          (atm.process_messages (atm.state_handlers a.state) a inbox).inbox⟩
      | .blocked => some ⟨.blocked,
          (atm.process_messages (atm.state_handlers a.state) a inbox).self,
          (atm.process_messages (atm.state_handlers a.state) a inbox).sent, []⟩
      | .returned =>
        (atm.run_loop fuel (atm.process_messages (atm.state_handlers a.state) a inbox).self
          (atm.process_messages (atm.state_handlers a.state) a inbox).inbox).map
          (Run.after (atm.process_messages (atm.state_handlers a.state) a inbox).sent) := by
  unfold atm.resume_loop
  cases hst : a.state <;> first | exact absurd hst hs | rfl

theorem atm_resume_loop_mono (fuel more : Nat) (a : atm) (inbox : List Message) (r : Run atm)
    (h : atm.resume_loop fuel a inbox = some r) (hle : fuel ≤ more) :
    atm.resume_loop more a inbox = some r := by
  by_cases hs : a.state = .done_processing
  · unfold atm.resume_loop at h ⊢
    simp only [hs] at h ⊢
    exact atm_run_loop_mono fuel more a inbox r h hle
  · rw [atm_resume_loop_eq _ _ _ hs] at h ⊢
    cases hc : (atm.process_messages (atm.state_handlers a.state) a inbox).ctl <;>
      simp only [hc] at h ⊢
    · cases hr : atm.run_loop fuel
          (atm.process_messages (atm.state_handlers a.state) a inbox).self
          (atm.process_messages (atm.state_handlers a.state) a inbox).inbox with
      | none => simp [hr] at h
      | some r1 =>
        rw [atm_run_loop_mono fuel more _ _ r1 hr hle]
        rw [hr] at h
        exact h
    · exact h
    · exact h

theorem atm_resume_loop_total (fuel : Nat) (a : atm) (inbox : List Message)
    (h : 2 * inbox.length + 1 < fuel) : ∃ r, atm.resume_loop fuel a inbox = some r := by
  by_cases hs : a.state = .done_processing
  · unfold atm.resume_loop
    simp only [hs]
    apply atm_run_loop_total
    split <;> omega
  · rw [atm_resume_loop_eq _ _ _ hs]
    cases hc : (atm.process_messages (atm.state_handlers a.state) a inbox).ctl <;> simp only
    · have hl := process_messages_inbox_lt _ a inbox hc
      obtain ⟨r1, hr1⟩ := atm_run_loop_total fuel
        (atm.process_messages (atm.state_handlers a.state) a inbox).self
        (atm.process_messages (atm.state_handlers a.state) a inbox).inbox (by split <;> omega)
      exact ⟨_, by rw [hr1]; rfl⟩
    · exact ⟨_, rfl⟩
    · exact ⟨_, rfl⟩

theorem atm_resume_total (a : atm) (inbox : List Message) : ∃ r, a.resume inbox = some r := by
  unfold atm.resume
  apply atm_resume_loop_total
  omega

theorem state_handlers_undeclared (a : atm) (m : Message)
    (hd : m.index ∉ atm.declared a.state) : atm.state_handlers a.state a m = none := by
  cases hs : a.state <;> rw [hs] at hd <;> cases m <;>
    first
      | rfl
      | (exfalso; revert hd; simp [atm.declared, Message.index])

/-- The list `declared` is exact: a state has a lambda for every alternative it
lists. -/
theorem state_handlers_declared (s : atm_state) (a : atm) (m : Message)
    (hd : m.index ∈ atm.declared s) : (atm.state_handlers s a m).isSome = true := by
  cases s <;> cases m <;>
    first
      | (exfalso; revert hd; simp [atm.declared, Message.index]; done)
      | rfl
      | (simp only [atm.state_handlers, atm.getting_pin_handlers]; split <;> rfl)

/-- C2. In every state in which an actor waits for a message, a dequeued
`close_queue` ends its run loop at once: the atm (blocked in the receive of any
of its six receiving states, whatever handlers that state declares), the bank
and the interface end closed with their data members unchanged, nothing sent,
nothing printed, and the messages behind `close_queue` left in the inbox. -/
theorem close_queue_ends_run (a : atm) (b : bank_machine) (u : interface_machine)
    (H : Handlers) (rest : List Message) (hs : a.state ≠ .done_processing) :
    atm.process_messages H a (.close_queue :: rest) = ⟨.thrown, a, [], rest⟩
      ∧ a.resume (.close_queue :: rest) = some ⟨.closed, a, [], rest⟩
      ∧ b.run (.close_queue :: rest) = ⟨.closed, b, [], rest⟩
      ∧ u.run (.close_queue :: rest) = ⟨.closed, u, [], rest⟩ := by
  refine ⟨process_messages_close H a rest, ?_, ?_, ?_⟩
  · unfold atm.resume
    rw [atm_resume_loop_eq _ _ _ hs]
    simp [process_messages_close]
  · simp [bank_machine.run, bank_machine.visit]
  · simp [interface_machine.run, interface_machine.visit]

theorem close_queue_ends_run_witness :
    (⟨.machine, ⟨some .bank⟩, ⟨some .ui_hardware⟩, .getting_pin, ['a'], 50, ['1', '2']⟩ : atm).state
        ≠ .done_processing
      ∧ (⟨.machine, ⟨some .bank⟩, ⟨some .ui_hardware⟩, .getting_pin, ['a'], 50, ['1', '2']⟩ : atm).resume
          [.close_queue, .digit_pressed '3']
        = some ⟨.closed, ⟨.machine, ⟨some .bank⟩, ⟨some .ui_hardware⟩, .getting_pin, ['a'], 50,
            ['1', '2']⟩, [], [.digit_pressed '3']⟩ :=
  ⟨by decide, (close_queue_ends_run
    ⟨.machine, ⟨some .bank⟩, ⟨some .ui_hardware⟩, .getting_pin, ['a'], 50, ['1', '2']⟩
    ⟨.bank, 199⟩ ⟨.ui_hardware, []⟩ (atm.state_handlers .getting_pin)
    [.digit_pressed '3'] (by decide)).2.1⟩

/-- C3. A message that is not `close_queue` and whose alternative is not among
the handlers declared by the receiving state in which the atm waits is
discarded: the atm is still blocked in the same receive, with state, account,
pin and withdrawal amount unchanged and nothing sent, and whatever messages
follow are processed exactly as if the discarded message had never arrived. -/
theorem undeclared_message_discarded (a : atm) (m : Message) (rest : List Message)
    (hs : a.state ≠ .done_processing) (hc : m ≠ .close_queue)
    (hd : m.index ∉ atm.declared a.state) :
    a.resume [m] = some ⟨.blocked, a, [], []⟩ ∧ a.resume (m :: rest) = a.resume rest := by
  have hn := state_handlers_undeclared a m hd
  have hskip : ∀ tail, atm.process_messages (atm.state_handlers a.state) a (m :: tail)
      = atm.process_messages (atm.state_handlers a.state) a tail := by
    intro tail
    rw [process_messages_cons _ _ _ _ hc, hn]
  constructor
  · unfold atm.resume
    rw [atm_resume_loop_eq _ _ _ hs, hskip, process_messages_nil]
  · obtain ⟨r, hr⟩ := atm_resume_total a rest
    rw [hr]
    unfold atm.resume at hr ⊢
    have h2 : atm.resume_loop (2 * (m :: rest).length + 2) a rest = some r :=
      atm_resume_loop_mono _ _ a rest r hr (by simp)
    rw [atm_resume_loop_eq _ _ _ hs] at h2 ⊢
    rw [hskip]
    exact h2

theorem undeclared_message_discarded_witness :
    (⟨.machine, ⟨some .bank⟩, ⟨some .ui_hardware⟩, .getting_pin, ['a'], 50, ['1', '2']⟩ : atm).state
        ≠ .done_processing
      ∧ Message.balance_pressed ≠ .close_queue
      ∧ Message.balance_pressed.index ∉ atm.declared .getting_pin
      ∧ (⟨.machine, ⟨some .bank⟩, ⟨some .ui_hardware⟩, .getting_pin, ['a'], 50, ['1', '2']⟩ : atm).resume
          [.balance_pressed]
        = some ⟨.blocked, ⟨.machine, ⟨some .bank⟩, ⟨some .ui_hardware⟩, .getting_pin, ['a'], 50,
            ['1', '2']⟩, [], []⟩ :=
  ⟨by decide, by decide, by decide, (undeclared_message_discarded
    ⟨.machine, ⟨some .bank⟩, ⟨some .ui_hardware⟩, .getting_pin, ['a'], 50, ['1', '2']⟩
    .balance_pressed [] (by decide) (by decide) (by decide)).1⟩

theorem atm_resume_returned (a : atm) (m : Message) (h : Handled)
    (hs : a.state ≠ .done_processing) (hc : m ≠ .close_queue)
    (hh : atm.state_handlers a.state a m = some h) (ht : h.handled = true) :
    a.resume [m] = (atm.run_loop 4 h.self []).map (Run.after h.sent) := by
  unfold atm.resume
  rw [atm_resume_loop_eq _ _ _ hs, process_messages_cons _ _ _ _ hc, hh]
  simp [ht]

/-- C5 (as stated, refuted). An atm in `process_withdrawal` with withdrawal
amount 50 that receives `withdrawal_approved` does not return to the menu state:
the handler sets the state `done_processing`, the atm next waits in
`waiting_for_card`, and it does not display the menu. -/
theorem withdrawal_approved_not_to_menu :
    ((⟨.machine, ⟨some .bank⟩, ⟨some .ui_hardware⟩, .process_withdrawal, ['a'], 50, []⟩ : atm).process_withdrawal
        [.withdrawal_approved]).self.state = .done_processing
      ∧ ¬ ∃ r, (⟨.machine, ⟨some .bank⟩, ⟨some .ui_hardware⟩, .process_withdrawal, ['a'], 50, []⟩ : atm).resume
            [.withdrawal_approved] = some r
          ∧ r.self.state = .wait_for_action := by
  refine ⟨by decide, ?_⟩
  rintro ⟨r, hr, hst⟩
  have e : (⟨.machine, ⟨some .bank⟩, ⟨some .ui_hardware⟩, .process_withdrawal, ['a'], 50, []⟩ : atm).resume
      [.withdrawal_approved]
      = some ⟨.blocked, ⟨.machine, ⟨some .bank⟩, ⟨some .ui_hardware⟩, .waiting_for_card, ['a'], 50, []⟩,
          [(⟨some .ui_hardware⟩, .issue_money 50), (⟨some .bank⟩, .withdrawal_processed ['a'] 50),
           (⟨some .ui_hardware⟩, .eject_card), (⟨some .ui_hardware⟩, .display_enter_card)], []⟩ := by
    decide
  rw [e] at hr
  cases hr
  simp at hst

/-- C5 (amended). An atm in `process_withdrawal` with withdrawal amount `a` that
receives `withdrawal_approved` sends `issue_money(a)` to the interface and
`withdrawal_processed(account, a)` to the bank and sets the state
`done_processing`; run on, it ejects the card, displays the insert-card prompt
and waits in `waiting_for_card` with its data otherwise unchanged. -/
theorem withdrawal_approved_issues_money (a : atm) (rest : List Message)
    (hs : a.state = .process_withdrawal) :
    a.process_withdrawal (.withdrawal_approved :: rest)
        = ⟨.returned, { a with state := .done_processing },
            [(a.to_interface, .issue_money a.withdrawal_amount),
             (a.to_bank, .withdrawal_processed a.account a.withdrawal_amount)], rest⟩
      ∧ a.resume [.withdrawal_approved]
        = some ⟨.blocked, { a with state := .waiting_for_card },
            [(a.to_interface, .issue_money a.withdrawal_amount),
             (a.to_bank, .withdrawal_processed a.account a.withdrawal_amount),
             (a.to_interface, .eject_card), (a.to_interface, .display_enter_card)], []⟩ := by
  constructor
  · simp [atm.process_withdrawal, atm.process_messages, atm.process_withdrawal_handlers]
  · rw [atm_resume_returned a .withdrawal_approved
      ⟨true, { a with state := .done_processing },
        [(a.to_interface, .issue_money a.withdrawal_amount),
         (a.to_bank, .withdrawal_processed a.account a.withdrawal_amount)]⟩
      (by rw [hs]; decide) (by decide) (by rw [hs]; rfl) rfl]
    simp [atm.run_loop, atm.invoke, atm.done_processing, atm.waiting_for_card,
      atm.process_messages, Outcome.after, Run.after]

theorem withdrawal_approved_issues_money_witness :
    (⟨.machine, ⟨some .bank⟩, ⟨some .ui_hardware⟩, .process_withdrawal, ['a'], 50, []⟩ : atm).state
        = .process_withdrawal
      ∧ (⟨.machine, ⟨some .bank⟩, ⟨some .ui_hardware⟩, .process_withdrawal, ['a'], 50, []⟩ : atm).resume
          [.withdrawal_approved]
        = some ⟨.blocked,
            ⟨.machine, ⟨some .bank⟩, ⟨some .ui_hardware⟩, .waiting_for_card, ['a'], 50, []⟩,
            [(⟨some .ui_hardware⟩, .issue_money 50), (⟨some .bank⟩, .withdrawal_processed ['a'] 50),
             (⟨some .ui_hardware⟩, .eject_card), (⟨some .ui_hardware⟩, .display_enter_card)], []⟩ :=
  ⟨rfl, (withdrawal_approved_issues_money
    ⟨.machine, ⟨some .bank⟩, ⟨some .ui_hardware⟩, .process_withdrawal, ['a'], 50, []⟩ [] rfl).2⟩

/-! ## The bank -/

theorem unsigned_sub_exact (x y : Nat) (hx : x < 4294967296) (hy : y ≤ x) :
    unsigned_sub x y = x - y := by
  unfold unsigned_sub
  rw [Nat.mod_eq_of_lt (by omega : y < 4294967296)]
  have : x + 4294967296 - y = (x - y) + 4294967296 := by omega
  rw [this, Nat.add_mod_right, Nat.mod_eq_of_lt (by omega)]

/-- C6. For a balance `b` (an `unsigned` value) and a withdraw request of amount
`a`, the bank sends exactly one reply, to the reply destination of the
request: it is `withdrawal_approved` if and only if `b >= a`; on approval the
new balance is exactly `b - a` (nothing wraps: the new balance plus `a` is
`b`); otherwise the reply is `withdrawal_denied` and the bank is unchanged. -/
theorem bank_withdraw_reply (b : bank_machine) (account : List Char) (a : Nat) (q : sender)
    (hb : b.balance < 4294967296) :
    ∃ b1 reply, b.visit (.withdraw account a q) = some (b1, [(q, reply)])
      ∧ b.run [.withdraw account a q] = ⟨.blocked, b1, [(q, reply)], []⟩
      ∧ (reply = .withdrawal_approved ↔ b.balance ≥ a)
      ∧ (reply = .withdrawal_approved ∨ reply = .withdrawal_denied)
      ∧ (reply = .withdrawal_approved →
          b1.balance = b.balance - a ∧ b1.balance + a = b.balance ∧ b1.inbox = b.inbox)
      ∧ (reply = .withdrawal_denied → b1 = b) := by
  by_cases h : b.balance ≥ a
  · refine ⟨{ b with balance := b.balance - a }, .withdrawal_approved, ?_, ?_, ?_, ?_, ?_, ?_⟩
    · simp [bank_machine.visit, h, unsigned_sub_exact b.balance a hb h]
    · simp [bank_machine.run, bank_machine.visit, h, unsigned_sub_exact b.balance a hb h,
        Run.after]
    · simp [h]
    · simp
    · intro _
      refine ⟨rfl, ?_, rfl⟩
      show b.balance - a + a = b.balance
      omega
    · intro hr; cases hr
  · refine ⟨b, .withdrawal_denied, ?_, ?_, ?_, ?_, ?_, ?_⟩
    · simp [bank_machine.visit, h]
    · simp [bank_machine.run, bank_machine.visit, h, Run.after]
    · simp [h]
    · simp
    · intro hr; cases hr
    · intro _; rfl

theorem bank_withdraw_reply_witness :
    (⟨.bank, 199⟩ : bank_machine).balance < 4294967296
      ∧ ∃ b1 reply, (⟨.bank, 199⟩ : bank_machine).visit (.withdraw ['a'] 50 ⟨some .machine⟩)
          = some (b1, [(⟨some .machine⟩, reply)])
        ∧ (⟨.bank, 199⟩ : bank_machine).run [.withdraw ['a'] 50 ⟨some .machine⟩]
          = ⟨.blocked, b1, [(⟨some .machine⟩, reply)], []⟩
        ∧ (reply = .withdrawal_approved ↔ (⟨.bank, 199⟩ : bank_machine).balance ≥ 50)
        ∧ (reply = .withdrawal_approved ∨ reply = .withdrawal_denied)
        ∧ (reply = .withdrawal_approved →
            b1.balance = (⟨.bank, 199⟩ : bank_machine).balance - 50
              ∧ b1.balance + 50 = (⟨.bank, 199⟩ : bank_machine).balance
              ∧ b1.inbox = (⟨.bank, 199⟩ : bank_machine).inbox)
        ∧ (reply = .withdrawal_denied → b1 = ⟨.bank, 199⟩) :=
  ⟨by decide, bank_withdraw_reply ⟨.bank, 199⟩ ['a'] 50 ⟨some .machine⟩ (by decide)⟩

theorem bank_visit_step (b b1 : bank_machine) (m : Message) (sent : List Sent)
    (hb : b.balance < 4294967296) (h : b.visit m = some (b1, sent)) :
    b1.inbox = b.inbox ∧ b1.balance ≤ b.balance
      ∧ (b1.balance = b.balance
          ∨ ∃ account a q, m = .withdraw account a q ∧ a ≤ b.balance
              ∧ b1.balance + a = b.balance) := by
  cases m <;> simp only [bank_machine.visit, Option.some.injEq, Prod.mk.injEq] at h
  case withdraw account a q =>
    by_cases hge : b.balance ≥ a
    · simp only [hge, ↓reduceIte, Option.some.injEq, Prod.mk.injEq] at h
      obtain ⟨rfl, -⟩ := h
      have e := unsigned_sub_exact b.balance a hb hge
      refine ⟨rfl, ?_, Or.inr ⟨account, a, q, rfl, hge, ?_⟩⟩
      · show unsigned_sub b.balance a ≤ b.balance
        omega
      · show unsigned_sub b.balance a + a = b.balance
        omega
    · simp only [hge, ↓reduceIte, Option.some.injEq, Prod.mk.injEq] at h
      obtain ⟨rfl, -⟩ := h
      exact ⟨rfl, le_refl _, Or.inl rfl⟩
  case verify_pin account pin q =>
    split at h <;> simp only [Option.some.injEq, Prod.mk.injEq] at h <;>
      (obtain ⟨rfl, -⟩ := h; exact ⟨rfl, le_refl _, Or.inl rfl⟩)
  all_goals
    first
      | (obtain ⟨rfl, -⟩ := h; exact ⟨rfl, le_refl _, Or.inl rfl⟩)
      | exact absurd h (by simp)

theorem bank_balances_chain (b : bank_machine) (inbox : List Message) (bound : Nat)
    (hb : b.balance ≤ bound) (hbound : bound < 4294967296) :
    List.Chain (fun x y => y ≤ x) b.balance (b.balances inbox)
      ∧ (∀ x ∈ b.balances inbox, x ≤ bound)
      ∧ (b.run inbox).self.balance ≤ bound := by
  induction inbox generalizing b with
  | nil => simp [bank_machine.balances, bank_machine.run, hb]
  | cons m rest ih =>
    cases hv : b.visit m with
    | none => simp [bank_machine.balances, bank_machine.run, hv, hb]
    | some p =>
      obtain ⟨b1, sent⟩ := p
      have hstep := bank_visit_step b b1 m sent (by omega) hv
      obtain ⟨h1, h2, h3⟩ := ih b1 (by omega)
      simp only [bank_machine.balances, bank_machine.run, hv, Run.after]
      refine ⟨List.Chain.cons hstep.2.1 h1, ?_, h3⟩
      intro x hx
      rcases List.mem_cons.mp hx with rfl | hx
      · omega
      · exact h2 x hx

/-- C8. Whatever messages the bank processes from the initial balance 199, the
balance never increases from one message to the next and is at most 199 at
every point; and in the state reached after any messages `pre`, the next
message either ends the loop or leaves a balance that is the old one or, for
an approved withdrawal of `a <= balance`, exactly the old one less `a`: the
unsigned subtraction does not wrap around. -/
theorem bank_balance_never_wraps (id : QueueId) (inbox pre : List Message) (m : Message) :
    List.Chain (fun x y => y ≤ x) 199 ((⟨id, 199⟩ : bank_machine).balances inbox)
      ∧ (∀ x ∈ (⟨id, 199⟩ : bank_machine).balances inbox, x ≤ 199)
      ∧ ((⟨id, 199⟩ : bank_machine).run inbox).self.balance ≤ 199
      ∧ (((⟨id, 199⟩ : bank_machine).run pre).self.visit m = none
          ∨ ∃ b1 sent, ((⟨id, 199⟩ : bank_machine).run pre).self.visit m = some (b1, sent)
              ∧ b1.balance ≤ ((⟨id, 199⟩ : bank_machine).run pre).self.balance
              ∧ (b1.balance = ((⟨id, 199⟩ : bank_machine).run pre).self.balance
                  ∨ ∃ account a q, m = .withdraw account a q
                      ∧ a ≤ ((⟨id, 199⟩ : bank_machine).run pre).self.balance
                      ∧ b1.balance + a = ((⟨id, 199⟩ : bank_machine).run pre).self.balance)) := by
  obtain ⟨h1, h2, h3⟩ := bank_balances_chain ⟨id, 199⟩ inbox 199 (le_refl _) (by decide)
  refine ⟨h1, h2, h3, ?_⟩
  have hpre := (bank_balances_chain ⟨id, 199⟩ pre 199 (le_refl _) (by decide)).2.2
  cases hv : ((⟨id, 199⟩ : bank_machine).run pre).self.visit m with
  | none => exact Or.inl rfl
  | some p =>
    obtain ⟨b1, sent⟩ := p
    have hstep := bank_visit_step _ b1 m sent (by omega) hv
    exact Or.inr ⟨b1, sent, rfl, hstep.2.1, hstep.2.2⟩

/-! ## Collecting the pin -/

/-- C10. From `getting_pin` with an empty pin, four `digit_pressed` messages
with any characters `d1 .. d4`: after one, two and three of them the atm is
still blocked in `getting_pin`, holds the digits so far and has sent nothing;
after the fourth it is blocked in `verifying_pin` and has sent exactly one
message, to the bank: `verify_pin` with the stored account, the pin
`d1 d2 d3 d4` in press order and the sender of its own inbox. -/
theorem four_digits_send_verify_pin (a : atm) (d1 d2 d3 d4 : Char)
    (hs : a.state = .getting_pin) (hp : a.pin = []) :
    a.resume [.digit_pressed d1] = some ⟨.blocked, { a with pin := [d1] }, [], []⟩
      ∧ a.resume [.digit_pressed d1, .digit_pressed d2]
        = some ⟨.blocked, { a with pin := [d1, d2] }, [], []⟩
      ∧ a.resume [.digit_pressed d1, .digit_pressed d2, .digit_pressed d3]
        = some ⟨.blocked, { a with pin := [d1, d2, d3] }, [], []⟩
      ∧ a.resume [.digit_pressed d1, .digit_pressed d2, .digit_pressed d3, .digit_pressed d4]
        = some ⟨.blocked, { a with pin := [d1, d2, d3, d4], state := .verifying_pin },
            [(a.to_bank, .verify_pin a.account [d1, d2, d3, d4] ⟨some a.inbox⟩)], []⟩ := by
  obtain ⟨inbox, to_bank, to_interface, state, account, amount, pin⟩ := a
  simp only at hs hp
  subst hs hp
  refine ⟨?_, ?_, ?_, ?_⟩ <;>
    simp [atm.resume, atm.resume_loop, atm.state_handlers, atm.process_messages,
      atm.getting_pin_handlers, atm.run_loop, atm.invoke, atm.verifying_pin, Outcome.after,
      Run.after, atm.get_sender]

theorem four_digits_send_verify_pin_witness :
    (⟨.machine, ⟨some .bank⟩, ⟨some .ui_hardware⟩, .getting_pin, ['a'], 7, []⟩ : atm).state
        = .getting_pin
      ∧ (⟨.machine, ⟨some .bank⟩, ⟨some .ui_hardware⟩, .getting_pin, ['a'], 7, []⟩ : atm).pin = []
      ∧ (⟨.machine, ⟨some .bank⟩, ⟨some .ui_hardware⟩, .getting_pin, ['a'], 7, []⟩ : atm).resume
          [.digit_pressed '1', .digit_pressed '9', .digit_pressed '3', .digit_pressed '7']
        = some ⟨.blocked,
            ⟨.machine, ⟨some .bank⟩, ⟨some .ui_hardware⟩, .verifying_pin, ['a'], 7,
              ['1', '9', '3', '7']⟩,
            [(⟨some .bank⟩, .verify_pin ['a'] ['1', '9', '3', '7'] ⟨some .machine⟩)], []⟩ :=
  ⟨rfl, rfl, (four_digits_send_verify_pin
    ⟨.machine, ⟨some .bank⟩, ⟨some .ui_hardware⟩, .getting_pin, ['a'], 7, []⟩
    '1' '9' '3' '7' rfl rfl).2.2.2⟩

/-! ## Shutdown behind pending messages -/

theorem process_messages_append_close (H : Handlers) (a : atm) (ms rest : List Message)
    (h : Message.close_queue ∉ ms) :
    ((atm.process_messages H a ms).ctl = .blocked
        ∧ atm.process_messages H a (ms ++ .close_queue :: rest)
          = ⟨.thrown, (atm.process_messages H a ms).self, (atm.process_messages H a ms).sent, rest⟩)
      ∨ ((atm.process_messages H a ms).ctl = .returned
        ∧ Message.close_queue ∉ (atm.process_messages H a ms).inbox
        ∧ atm.process_messages H a (ms ++ .close_queue :: rest)
          = ⟨.returned, (atm.process_messages H a ms).self, (atm.process_messages H a ms).sent,
              (atm.process_messages H a ms).inbox ++ .close_queue :: rest⟩) := by
  induction ms generalizing a with
  | nil => left; simp [process_messages_nil, process_messages_close]
  | cons m tail ih =>
    have hm : m ≠ .close_queue := fun e => h (by simp [e])
    have ht : Message.close_queue ∉ tail := fun e => h (by simp [e])
    rw [List.cons_append, process_messages_cons H a m _ hm, process_messages_cons H a m _ hm]
    cases hH : H a m with
    | none => simpa using ih a ht
    | some hd =>
      by_cases hb : hd.handled = true
      · right; simp [hb, ht]
      · simp only [hb, Bool.false_eq_true, ↓reduceIte, Outcome.after]
        rcases ih hd.self ht with ⟨h1, h2⟩ | ⟨h1, h2, h3⟩
        · left; exact ⟨h1, by rw [h2]⟩
        · right; exact ⟨h1, h2, by rw [h3]⟩

theorem atm_invoke_append_close (a : atm) (ms rest : List Message)
    (h : Message.close_queue ∉ ms) :
    ((a.invoke ms).ctl = .blocked
        ∧ a.invoke (ms ++ .close_queue :: rest)
          = ⟨.thrown, (a.invoke ms).self, (a.invoke ms).sent, rest⟩)
      ∨ ((a.invoke ms).ctl = .returned
        ∧ Message.close_queue ∉ (a.invoke ms).inbox
        ∧ a.invoke (ms ++ .close_queue :: rest)
          = ⟨.returned, (a.invoke ms).self, (a.invoke ms).sent,
              (a.invoke ms).inbox ++ .close_queue :: rest⟩) := by
  unfold atm.invoke
  cases hs : a.state <;> simp only
  case done_processing => right; simp [atm.done_processing, h]
  all_goals
    simp only [atm.waiting_for_card, atm.getting_pin, atm.verifying_pin, atm.wait_for_action,
      atm.process_withdrawal, atm.process_balance, Outcome.after]
    rcases process_messages_append_close _ a ms rest h with ⟨h1, h2⟩ | ⟨h1, h2, h3⟩
    · left; exact ⟨h1, by rw [h2]⟩
    · right; exact ⟨h1, h2, by rw [h3]⟩

theorem atm_run_loop_append_close (fuel : Nat) (a : atm) (ms rest : List Message) (r : Run atm)
    (h : Message.close_queue ∉ ms) (hr : atm.run_loop fuel a ms = some r) :
    r.status = .blocked ∧ r.inbox = []
      ∧ atm.run_loop fuel a (ms ++ .close_queue :: rest) = some ⟨.closed, r.self, r.sent, rest⟩ := by
  induction fuel generalizing a ms r with
  | zero => simp [atm.run_loop] at hr
  | succ n ih =>
    rw [atm.run_loop] at hr ⊢
    rcases atm_invoke_append_close a ms rest h with ⟨h1, h2⟩ | ⟨h1, h2, h3⟩
    · simp only [h1, Option.some.injEq] at hr
      subst hr
      simp [h2]
    · simp only [h1] at hr
      cases hq : atm.run_loop n (a.invoke ms).self (a.invoke ms).inbox with
      | none => simp [hq] at hr
      | some r1 =>
        rw [hq] at hr
        simp only [Option.map_some', Option.some.injEq] at hr
        subst hr
        obtain ⟨e1, e2, e3⟩ := ih _ _ r1 h2 hq
        simp [h3, e3, Run.after, e1, e2]

theorem atm_resume_loop_append_close (fuel : Nat) (a : atm) (ms rest : List Message)
    (r : Run atm) (h : Message.close_queue ∉ ms) (hr : atm.resume_loop fuel a ms = some r) :
    r.status = .blocked ∧ r.inbox = []
      ∧ atm.resume_loop fuel a (ms ++ .close_queue :: rest)
        = some ⟨.closed, r.self, r.sent, rest⟩ := by
  by_cases hs : a.state = .done_processing
  · unfold atm.resume_loop at hr ⊢
    simp only [hs] at hr ⊢
    exact atm_run_loop_append_close fuel a ms rest r h hr
  · rw [atm_resume_loop_eq _ _ _ hs] at hr ⊢
    rcases process_messages_append_close (atm.state_handlers a.state) a ms rest h with
      ⟨h1, h2⟩ | ⟨h1, h2, h3⟩
    · simp only [h1, Option.some.injEq] at hr
      subst hr
      simp [h2]
    · simp only [h1] at hr
      cases hq : atm.run_loop fuel (atm.process_messages (atm.state_handlers a.state) a ms).self
          (atm.process_messages (atm.state_handlers a.state) a ms).inbox with
      | none => simp [hq] at hr
      | some r1 =>
        rw [hq] at hr
        simp only [Option.map_some', Option.some.injEq] at hr
        subst hr
        obtain ⟨e1, e2, e3⟩ := atm_run_loop_append_close fuel _ _ rest r1 h2 hq
        simp [h3, e3, Run.after, e1, e2]

/-- C9. When the inbox holds `ms`, then `close_queue`, then `rest`, and `ms`
holds no `close_queue`, the atm processes `ms` exactly as it would process `ms`
alone (same data members, same messages sent in the same order, ending
blocked with `ms` consumed), then ends on `close_queue` and leaves `rest`
untouched in the inbox; this holds for `run` from its start and for an atm
resumed where it waits.  With `close_queue` at the head, `run` ends having
done no more than its entry prompt. -/
theorem run_ends_at_close_queue (a : atm) (ms rest : List Message)
    (h : Message.close_queue ∉ ms) :
    (∃ r, a.run ms = some r ∧ r.status = .blocked ∧ r.inbox = []
        ∧ a.run (ms ++ [.close_queue] ++ rest) = some ⟨.closed, r.self, r.sent, rest⟩)
      ∧ (∃ r, a.resume ms = some r ∧ r.status = .blocked ∧ r.inbox = []
        ∧ a.resume (ms ++ [.close_queue] ++ rest) = some ⟨.closed, r.self, r.sent, rest⟩)
      ∧ a.run (.close_queue :: rest)
        = some ⟨.closed, { a with state := .waiting_for_card },
            [(a.to_interface, .display_enter_card)], rest⟩ := by
  have hl : (ms ++ [Message.close_queue] ++ rest) = ms ++ .close_queue :: rest := by simp
  refine ⟨?_, ?_, ?_⟩
  · obtain ⟨r, hr⟩ := atm_run_total a ms
    refine ⟨r, hr, ?_⟩
    unfold atm.run at hr ⊢
    obtain ⟨e1, e2, e3⟩ := atm_run_loop_append_close _ _ ms rest r h hr
    refine ⟨e1, e2, ?_⟩
    rw [hl]
    exact atm_run_loop_mono _ _ _ _ _ e3 (by simp)
  · obtain ⟨r, hr⟩ := atm_resume_total a ms
    refine ⟨r, hr, ?_⟩
    unfold atm.resume at hr ⊢
    obtain ⟨e1, e2, e3⟩ := atm_resume_loop_append_close _ _ ms rest r h hr
    refine ⟨e1, e2, ?_⟩
    rw [hl]
    exact atm_resume_loop_mono _ _ _ _ _ e3 (by simp)
  · simp [atm.run, atm.run_loop, atm.invoke, atm.waiting_for_card, atm.process_messages,
      Outcome.after]

theorem run_ends_at_close_queue_witness :
    Message.close_queue ∉ [Message.card_inserted ['a'], Message.digit_pressed '1']
      ∧ (∃ r, (⟨.machine, ⟨some .bank⟩, ⟨some .ui_hardware⟩, .getting_pin, [], 7, []⟩ : atm).run
            [.card_inserted ['a'], .digit_pressed '1'] = some r
          ∧ r.status = .blocked ∧ r.inbox = []
          ∧ (⟨.machine, ⟨some .bank⟩, ⟨some .ui_hardware⟩, .getting_pin, [], 7, []⟩ : atm).run
              ([.card_inserted ['a'], .digit_pressed '1'] ++ [.close_queue]
                ++ [.digit_pressed '2'])
            = some ⟨.closed, r.self, r.sent, [.digit_pressed '2']⟩) :=
  ⟨by decide, (run_ends_at_close_queue
    ⟨.machine, ⟨some .bank⟩, ⟨some .ui_hardware⟩, .getting_pin, [], 7, []⟩
    [.card_inserted ['a'], .digit_pressed '1'] [.digit_pressed '2'] (by decide)).1⟩

/-! ## The three actors together -/

theorem world_boot (amount0 : Nat) :
    World.boot amount0 = some (World.idle .waiting_for_card [] amount0 [] 199
      [("Screen: Please enter your card (Press I)", [])] [.display_enter_card]) := by
  simp [World.boot, World.start, World.idle, World.quiesce, World.step, World.step_machine,
    World.step_bank, World.step_ui, World.after_machine, Status.thread, atm.run, atm.run_loop, atm.invoke,
    atm.waiting_for_card, atm.process_messages, Outcome.after, Run.after, messaging.deliver,
    messaging.sender.send, messaging.Queues.get, messaging.Queues.set, messaging.queue.push,
    messaging.queue.wait_and_pop, messaging.queue.empty, interface_machine.run,
    interface_machine.visit]

theorem world_card_inserted (acc0 acc pin : List Char) (amt b : Nat) (out : List Println)
    (recv : List Message) :
    (World.idle .waiting_for_card acc0 amt pin b out recv).stimulus (.card_inserted acc)
      = some (World.idle .getting_pin acc amt [] b
          (out ++ [("Screen: Please enter your PIN (0-9)", [])])
          (recv ++ [.display_enter_pin])) := by
  simp [World.idle, World.stimulus, World.quiesce, World.step, World.step_machine,
    World.step_bank, World.step_ui, World.after_machine, Status.thread, atm.resume, atm.resume_loop,
    atm.run_loop, atm.invoke, atm.state_handlers, atm.process_messages,
    atm.waiting_for_card_handlers, atm.getting_pin, Outcome.after, Run.after, messaging.deliver,
    messaging.sender.send, messaging.Queues.get, messaging.Queues.set, messaging.queue.push,
    messaging.queue.wait_and_pop, messaging.queue.empty, atm.get_sender, interface_machine.run,
    interface_machine.visit]

theorem world_digit_pressed (acc pin : List Char) (d : Char) (amt b : Nat)
    (out : List Println) (recv : List Message) (h : pin.length + 1 ≠ 4) :
    (World.idle .getting_pin acc amt pin b out recv).stimulus (.digit_pressed d)
      = some (World.idle .getting_pin acc amt (pin ++ [d]) b out recv) := by
  simp [World.idle, World.stimulus, World.quiesce, World.step, World.step_machine,
    World.step_bank, World.step_ui, World.after_machine, Status.thread, atm.resume, atm.resume_loop,
    atm.state_handlers, atm.process_messages, atm.getting_pin_handlers, Outcome.after,
    messaging.deliver, messaging.sender.send, messaging.Queues.get, messaging.Queues.set,
    messaging.queue.push, messaging.queue.wait_and_pop, messaging.queue.empty, atm.get_sender, h]

theorem world_last_digit_verified (acc pin : List Char) (d : Char) (amt b : Nat)
    (out : List Println) (recv : List Message) (h : pin ++ [d] = ['1', '9', '3', '7']) :
    (World.idle .getting_pin acc amt pin b out recv).stimulus (.digit_pressed d)
      = some (World.idle .wait_for_action acc amt ['1', '9', '3', '7'] b
          (out ++ [("Screen: Withdraw 50 (w) | Balance (b) | Cancel (c)", [])])
          (recv ++ [.display_withdrawal_options])) := by
  have hl : pin.length + 1 = 4 := by
    have := congrArg List.length h
    simpa using this
  simp [World.idle, World.stimulus, World.quiesce, World.step, World.step_machine,
    World.step_bank, World.step_ui, World.after_machine, Status.thread, atm.resume, atm.resume_loop,
    atm.run_loop, atm.invoke, atm.state_handlers, atm.process_messages,
    atm.getting_pin_handlers, atm.verifying_pin, atm.verifying_pin_handlers,
    atm.wait_for_action, Outcome.after, Run.after,
    messaging.deliver, messaging.sender.send, messaging.Queues.get, messaging.Queues.set,
    messaging.queue.push, messaging.queue.wait_and_pop, messaging.queue.empty, atm.get_sender,
    bank_machine.run, bank_machine.visit, interface_machine.run, interface_machine.visit, h, hl]

theorem world_withdraw_approved (acc pin : List Char) (amt a b : Nat)
    (out : List Println) (recv : List Message) (h : a ≤ b) :
    (World.idle .wait_for_action acc amt pin b out recv).stimulus (.withdraw_pressed a)
      = some (World.idle .waiting_for_card acc a pin (unsigned_sub b a)
          (out ++ [("Hardware: Issuing \x7b\x7d", [a]), ("Hardware: Ejecting card", []),
            ("Screen: Please enter your card (Press I)", [])])
          (recv ++ [.issue_money a, .eject_card, .display_enter_card])) := by
  simp [World.idle, World.stimulus, World.quiesce, World.step, World.step_machine,
    World.step_bank, World.step_ui, World.after_machine, Status.thread, atm.resume, atm.resume_loop,
    atm.run_loop, atm.invoke, atm.state_handlers, atm.process_messages,
    atm.wait_for_action_handlers, atm.process_withdrawal, atm.process_withdrawal_handlers,
    atm.done_processing, atm.waiting_for_card, Outcome.after, Run.after,
    messaging.deliver, messaging.sender.send, messaging.Queues.get, messaging.Queues.set,
    messaging.queue.push, messaging.queue.wait_and_pop, messaging.queue.empty, atm.get_sender,
    bank_machine.run, bank_machine.visit, interface_machine.run, interface_machine.visit, h]

theorem world_withdraw_denied (acc pin : List Char) (amt a b : Nat)
    (out : List Println) (recv : List Message) (h : b < a) :
    (World.idle .wait_for_action acc amt pin b out recv).stimulus (.withdraw_pressed a)
      = some (World.idle .waiting_for_card acc a pin b
          (out ++ [("Screen: Insufficient funds", []), ("Hardware: Ejecting card", []),
            ("Screen: Please enter your card (Press I)", [])])
          (recv ++ [.display_insufficient_funds, .eject_card, .display_enter_card])) := by
  have h2 : ¬ a ≤ b := by omega
  simp [World.idle, World.stimulus, World.quiesce, World.step, World.step_machine,
    World.step_bank, World.step_ui, World.after_machine, Status.thread, atm.resume, atm.resume_loop,
    atm.run_loop, atm.invoke, atm.state_handlers, atm.process_messages,
    atm.wait_for_action_handlers, atm.process_withdrawal, atm.process_withdrawal_handlers,
    atm.done_processing, atm.waiting_for_card, Outcome.after, Run.after,
    messaging.deliver, messaging.sender.send, messaging.Queues.get, messaging.Queues.set,
    messaging.queue.push, messaging.queue.wait_and_pop, messaging.queue.empty, atm.get_sender,
    bank_machine.run, bank_machine.visit, interface_machine.run, interface_machine.visit, h, h2]

theorem world_stimuli_append (w : World) (l1 l2 : List Message) :
    w.stimuli (l1 ++ l2) = (w.stimuli l1).bind (fun w1 => w1.stimuli l2) := by
  induction l1 generalizing w with
  | nil => simp [World.stimuli]
  | cons m rest ih =>
    simp only [List.cons_append, World.stimuli]
    cases w.stimulus m with
    | none => rfl
    | some w1 => exact ih w1

theorem world_session_to_menu (acc0 pin0 account : List Char) (amt b : Nat)
    (out : List Println) (recv : List Message) :
    (World.idle .waiting_for_card acc0 amt pin0 b out recv).stimuli
        [.card_inserted account, .digit_pressed '1', .digit_pressed '9', .digit_pressed '3',
          .digit_pressed '7']
      = some (World.idle .wait_for_action account amt ['1', '9', '3', '7'] b
          (out ++ [("Screen: Please enter your PIN (0-9)", []),
            ("Screen: Withdraw 50 (w) | Balance (b) | Cancel (c)", [])])
          (recv ++ [.display_enter_pin, .display_withdrawal_options])) := by
  simp only [World.stimuli, world_card_inserted]
  rw [world_digit_pressed _ _ _ _ _ _ _ (by decide)]
  simp only []
  rw [world_digit_pressed _ _ _ _ _ _ _ (by decide)]
  simp only []
  rw [world_digit_pressed _ _ _ _ _ _ _ (by decide)]
  simp only []
  rw [world_last_digit_verified _ _ _ _ _ _ _ (by rfl)]
  simp

theorem world_session_approved (acc0 pin0 account : List Char) (amt a b : Nat)
    (out : List Println) (recv : List Message) (h : a ≤ b) :
    (World.idle .waiting_for_card acc0 amt pin0 b out recv).stimuli (World.session account a)
      = some (World.idle .waiting_for_card account a ['1', '9', '3', '7'] (unsigned_sub b a)
          (out ++ [("Screen: Please enter your PIN (0-9)", []),
            ("Screen: Withdraw 50 (w) | Balance (b) | Cancel (c)", []),
            ("Hardware: Issuing \x7b\x7d", [a]), ("Hardware: Ejecting card", []),
            ("Screen: Please enter your card (Press I)", [])])
          (recv ++ [.display_enter_pin, .display_withdrawal_options, .issue_money a,
            .eject_card, .display_enter_card])) := by
  have e : World.session account a
      = [.card_inserted account, .digit_pressed '1', .digit_pressed '9', .digit_pressed '3',
          .digit_pressed '7'] ++ [.withdraw_pressed a] := rfl
  rw [e, world_stimuli_append, world_session_to_menu]
  simp [World.stimuli, world_withdraw_approved _ _ _ _ _ _ _ h]

theorem world_session_denied (acc0 pin0 account : List Char) (amt a b : Nat)
    (out : List Println) (recv : List Message) (h : b < a) :
    (World.idle .waiting_for_card acc0 amt pin0 b out recv).stimuli (World.session account a)
      = some (World.idle .waiting_for_card account a ['1', '9', '3', '7'] b
          (out ++ [("Screen: Please enter your PIN (0-9)", []),
            ("Screen: Withdraw 50 (w) | Balance (b) | Cancel (c)", []),
            ("Screen: Insufficient funds", []), ("Hardware: Ejecting card", []),
            ("Screen: Please enter your card (Press I)", [])])
          (recv ++ [.display_enter_pin, .display_withdrawal_options,
            .display_insufficient_funds, .eject_card, .display_enter_card])) := by
  have e : World.session account a
      = [.card_inserted account, .digit_pressed '1', .digit_pressed '9', .digit_pressed '3',
          .digit_pressed '7'] ++ [.withdraw_pressed a] := rfl
  rw [e, world_stimuli_append, world_session_to_menu]
  simp [World.stimuli, world_withdraw_denied _ _ _ _ _ _ _ h]

theorem world_stimuli_trans (w w1 w2 : World) (l1 l2 : List Message)
    (h1 : w.stimuli l1 = some w1) (h2 : w1.stimuli l2 = some w2) :
    w.stimuli (l1 ++ l2) = some w2 := by
  rw [world_stimuli_append, h1]
  exact h2

/-! ## Every interleaving of the threads gives the same result -/

theorem deliver_eq (sent : List Sent) (qs : Queues) :
    deliver sent qs
      = ⟨⟨qs.bank.q ++ sent_to .bank sent⟩, ⟨qs.ui_hardware.q ++ sent_to .ui_hardware sent⟩,
          ⟨qs.machine.q ++ sent_to .machine sent⟩⟩ := by
  induction sent generalizing qs with
  | nil => simp [deliver, sent_to]
  | cons s rest ih =>
    have e : deliver (s :: rest) qs = deliver rest (s.1.send s.2 qs) := rfl
    rw [e, ih]
    obtain ⟨⟨q⟩, m⟩ := s
    cases q with
    | none => simp [sender.send, sent_to]
    | some id =>
      cases id <;>
        simp [sender.send, sent_to, Queues.set, Queues.get, queue.push, List.filter_cons]

theorem keeps_wiring_refl (a : atm) : a.keeps_wiring a [] := by
  simp [atm.keeps_wiring]

theorem keeps_wiring_trans (a a1 a2 : atm) (s1 s2 : List Sent)
    (h1 : a.keeps_wiring a1 s1) (h2 : a1.keeps_wiring a2 s2) : a.keeps_wiring a2 (s1 ++ s2) := by
  obtain ⟨i1, b1, u1, k1⟩ := h1
  obtain ⟨i2, b2, u2, k2⟩ := h2
  rw [i1, b1, u1] at k2
  refine ⟨i2.trans i1, b2.trans b1, u2.trans u1, ?_⟩
  rw [List.all_append, k1, k2]
  rfl

set_option maxHeartbeats 4000000 in
theorem state_handlers_keep_wiring (s : atm_state) (a : atm) (m : Message) :
    ∀ h, atm.state_handlers s a m = some h → a.keeps_wiring h.self h.sent := by
  cases s <;> cases m <;>
    simp only [atm.state_handlers, atm.waiting_for_card_handlers, atm.getting_pin_handlers,
      atm.verifying_pin_handlers, atm.wait_for_action_handlers, atm.process_withdrawal_handlers,
      atm.process_balance_handlers] <;>
    (try split) <;>
    simp [atm.keeps_wiring, Message.replies_to, atm.get_sender] <;>
    (rintro _ _ (⟨rfl, rfl⟩ | ⟨rfl, rfl⟩) <;> simp)

theorem process_messages_keep_wiring (s : atm_state) (a : atm) (inbox : List Message) :
    a.keeps_wiring (atm.process_messages (atm.state_handlers s) a inbox).self
      (atm.process_messages (atm.state_handlers s) a inbox).sent := by
  induction inbox generalizing a with
  | nil => rw [process_messages_nil]; exact keeps_wiring_refl a
  | cons m rest ih =>
    by_cases hc : m = .close_queue
    · subst hc; rw [process_messages_close]; exact keeps_wiring_refl a
    · rw [process_messages_cons _ a m rest hc]
      cases hH : atm.state_handlers s a m with
      | none => exact ih a
      | some hd =>
        have hk := state_handlers_keep_wiring s a m hd hH
        by_cases hb : hd.handled = true
        · simp only [hb, ↓reduceIte]; exact hk
        · simp only [hb, Bool.false_eq_true, ↓reduceIte, Outcome.after]
          exact keeps_wiring_trans a hd.self _ _ _ hk (ih hd.self)

theorem atm_invoke_keeps_wiring (a : atm) (inbox : List Message) :
    a.keeps_wiring (a.invoke inbox).self (a.invoke inbox).sent := by
  unfold atm.invoke
  cases hs : a.state <;> simp only
  · exact keeps_wiring_trans a a _ [(a.to_interface, .display_enter_card)] _
      (by simp [atm.keeps_wiring, Message.replies_to])
      (process_messages_keep_wiring .waiting_for_card a inbox)
  · exact process_messages_keep_wiring .getting_pin a inbox
  · exact process_messages_keep_wiring .verifying_pin a inbox
  · exact keeps_wiring_trans a a _ [(a.to_interface, .display_withdrawal_options)] _
      (by simp [atm.keeps_wiring, Message.replies_to])
      (process_messages_keep_wiring .wait_for_action a inbox)
  · exact process_messages_keep_wiring .process_withdrawal a inbox
  · exact process_messages_keep_wiring .process_balance a inbox
  · simp [atm.done_processing, atm.keeps_wiring, Message.replies_to]

theorem atm_run_loop_keeps_wiring (fuel : Nat) (a : atm) (inbox : List Message) (r : Run atm)
    (h : atm.run_loop fuel a inbox = some r) : a.keeps_wiring r.self r.sent := by
  induction fuel generalizing a inbox r with
  | zero => simp [atm.run_loop] at h
  | succ n ih =>
    rw [atm.run_loop] at h
    have hk := atm_invoke_keeps_wiring a inbox
    cases hc : (a.invoke inbox).ctl <;> simp only [hc] at h
    · cases hr : atm.run_loop n (a.invoke inbox).self (a.invoke inbox).inbox with
      | none => simp [hr] at h
      | some r1 =>
        rw [hr] at h
        simp only [Option.map_some', Option.some.injEq] at h
        subst h
        exact keeps_wiring_trans a _ _ _ _ hk (ih _ _ r1 hr)
    · simp only [Option.some.injEq] at h; subst h; exact hk
    · simp only [Option.some.injEq] at h; subst h; exact hk

theorem atm_resume_loop_keeps_wiring (fuel : Nat) (a : atm) (inbox : List Message) (r : Run atm)
    (h : atm.resume_loop fuel a inbox = some r) : a.keeps_wiring r.self r.sent := by
  by_cases hs : a.state = .done_processing
  · unfold atm.resume_loop at h
    simp only [hs] at h
    exact atm_run_loop_keeps_wiring fuel a inbox r h
  · rw [atm_resume_loop_eq _ _ _ hs] at h
    have hk := process_messages_keep_wiring a.state a inbox
    cases hc : (atm.process_messages (atm.state_handlers a.state) a inbox).ctl <;>
      simp only [hc] at h
    · cases hr : atm.run_loop fuel
          (atm.process_messages (atm.state_handlers a.state) a inbox).self
          (atm.process_messages (atm.state_handlers a.state) a inbox).inbox with
      | none => simp [hr] at h
      | some r1 =>
        rw [hr] at h
        simp only [Option.map_some', Option.some.injEq] at h
        subst h
        exact keeps_wiring_trans a _ _ _ _ hk (atm_run_loop_keeps_wiring _ _ _ r1 hr)
    · simp only [Option.some.injEq] at h; subst h; exact hk
    · simp only [Option.some.injEq] at h; subst h; exact hk

theorem keeps_wiring_sent_to (a a1 : atm) (sent : List Sent) (h : a.keeps_wiring a1 sent)
    (hi : a.inbox = .machine) (hb : a.to_bank = ⟨some .bank⟩)
    (hu : a.to_interface = ⟨some .ui_hardware⟩) :
    a1.inbox = .machine ∧ a1.to_bank = ⟨some .bank⟩ ∧ a1.to_interface = ⟨some .ui_hardware⟩
      ∧ sent_to .machine sent = []
      ∧ (sent_to .bank sent).all (Message.replies_to .machine) = true := by
  obtain ⟨i1, b1, u1, k⟩ := h
  rw [hi, hb, hu] at k
  refine ⟨i1.trans hi, b1.trans hb, u1.trans hu, ?_, ?_⟩
  · induction sent with
    | nil => rfl
    | cons x rest ih =>
      rw [List.all_cons, Bool.and_eq_true] at k
      have := ih k.2
      have hx := k.1
      simp only [Bool.decide_and, Bool.decide_or, Bool.and_eq_true, Bool.or_eq_true,
        decide_eq_true_eq] at hx
      unfold sent_to at this ⊢
      rcases hx.1 with e | e <;> simp [List.filter_cons, e, this]
  · induction sent with
    | nil => rfl
    | cons x rest ih =>
      rw [List.all_cons, Bool.and_eq_true] at k
      have := ih k.2
      have hx := k.1
      simp only [Bool.decide_and, Bool.decide_or, Bool.and_eq_true, Bool.or_eq_true,
        decide_eq_true_eq] at hx
      unfold sent_to at this ⊢
      rcases hx.1 with e | e <;> simp [List.filter_cons, e, this, hx.2]

theorem bank_run_one_sent (b : bank_machine) (m : Message)
    (hm : m.replies_to .machine = true) :
    sent_to .bank (b.run [m]).sent = [] ∧ sent_to .ui_hardware (b.run [m]).sent = [] := by
  cases m
  case withdraw account amount q =>
    simp only [Message.replies_to, decide_eq_true_eq] at hm
    subst hm
    by_cases h : b.balance ≥ amount <;>
      simp [bank_machine.run, bank_machine.visit, Run.after, sent_to, h]
  case verify_pin account pin q =>
    simp only [Message.replies_to, decide_eq_true_eq] at hm
    subst hm
    by_cases h : pin = ['1', '9', '3', '7'] <;>
      simp [bank_machine.run, bank_machine.visit, Run.after, sent_to, h]
  case get_balance account q =>
    simp only [Message.replies_to, decide_eq_true_eq] at hm
    subst hm
    simp [bank_machine.run, bank_machine.visit, Run.after, sent_to]
  all_goals simp [bank_machine.run, bank_machine.visit, Run.after, sent_to]

theorem interface_run_one_sent (u : interface_machine) (m : Message) :
    (u.run [m]).sent = [] := by
  cases m <;> simp [interface_machine.run, interface_machine.visit]

theorem atm_run_nil (a : atm) :
    a.run [] = some ⟨.blocked, { a with state := .waiting_for_card },
      [(a.to_interface, .display_enter_card)], []⟩ := by
  simp [atm.run, atm.run_loop, atm.invoke, atm.waiting_for_card, atm.process_messages,
    Outcome.after]

theorem step_machine_wired (w : World) (hw : w.wired = true) :
    w.step_machine =
      match w.atm_thread with
      | .closed => none
      | .created =>
        some { w with
          machine := { w.machine with state := .waiting_for_card }
          atm_thread := .waiting
          queues := ⟨w.queues.bank, ⟨w.queues.ui_hardware.q ++ [.display_enter_card]⟩,
            w.queues.machine⟩ }
      | .waiting =>
        match w.queues.machine.q with
        | [] => none
        | m :: tail =>
          (w.machine.resume [m]).map (fun r =>
            { w with
              machine := r.self
              atm_thread := r.status.thread
              queues := ⟨⟨w.queues.bank.q ++ sent_to .bank r.sent⟩,
                ⟨w.queues.ui_hardware.q ++ sent_to .ui_hardware r.sent⟩, ⟨tail⟩⟩ }) := by
  simp only [World.wired, Bool.decide_and, Bool.and_eq_true, decide_eq_true_eq] at hw
  obtain ⟨hi, hb, hu, -⟩ := hw
  unfold World.step_machine
  cases w.atm_thread <;> simp only
  · rw [atm_run_nil]
    simp [World.after_machine, deliver_eq, sent_to, hu, Status.thread]
  · cases hq : w.queues.machine.q with
    | nil => simp [queue.wait_and_pop, hq]
    | cons m tail =>
      simp only [queue.wait_and_pop, hq]
      cases hr : w.machine.resume [m] with
      | none => rfl
      | some r =>
        have hk := atm_resume_loop_keeps_wiring _ _ _ r hr
        obtain ⟨-, -, -, hm, -⟩ := keeps_wiring_sent_to _ _ _ hk hi hb hu
        simp [World.after_machine, deliver_eq, hm]

theorem step_bank_wired (w : World) (hw : w.wired = true) :
    w.step_bank =
      match w.bank_thread with
      | .closed => none
      | .created => some { w with bank_thread := .waiting }
      | .waiting =>
        match w.queues.bank.q with
        | [] => none
        | m :: tail =>
          some { w with
            bank := (w.bank.run [m]).self
            bank_thread := (w.bank.run [m]).status.thread
            queues := ⟨⟨tail⟩, w.queues.ui_hardware,
              ⟨w.queues.machine.q ++ sent_to .machine (w.bank.run [m]).sent⟩⟩ } := by
  simp only [World.wired, Bool.decide_and, Bool.and_eq_true, decide_eq_true_eq] at hw
  obtain ⟨-, -, -, hq⟩ := hw
  unfold World.step_bank
  cases w.bank_thread <;> simp only
  cases hb : w.queues.bank.q with
  | nil => simp [queue.wait_and_pop, hb]
  | cons m tail =>
    rw [hb, List.all_cons, Bool.and_eq_true] at hq
    obtain ⟨h1, h2⟩ := bank_run_one_sent w.bank m hq.1
    simp [queue.wait_and_pop, hb, deliver_eq, h1, h2]

theorem step_ui_eq (w : World) :
    w.step_ui =
      match w.ui_thread with
      | .closed => none
      | .created => some { w with ui_thread := .waiting }
      | .waiting =>
        match w.queues.ui_hardware.q with
        | [] => none
        | m :: tail =>
          some { w with
            ui_hardware := (w.ui_hardware.run [m]).self
            ui_thread := (w.ui_hardware.run [m]).status.thread
            ui_received := w.ui_received ++ [m]
            queues := ⟨w.queues.bank, ⟨tail⟩, w.queues.machine⟩ } := by
  unfold World.step_ui
  cases w.ui_thread <;> simp only
  cases hb : w.queues.ui_hardware.q with
  | nil => simp [queue.wait_and_pop, hb]
  | cons m tail =>
    simp [queue.wait_and_pop, hb, deliver_eq, interface_run_one_sent, sent_to]

theorem step_of_wired (w w1 : World) (a : Actor) (hw : w.wired = true)
    (h : w.step_of a = some w1) : w1.wired = true := by
  have hw0 := hw
  simp only [World.wired, Bool.decide_and, Bool.and_eq_true, decide_eq_true_eq] at hw
  obtain ⟨hi, hb, hu, hq⟩ := hw
  cases a
  · simp only [World.step_of] at h
    rw [step_machine_wired w hw0] at h
    cases ht : w.atm_thread <;> simp only [ht] at h
    · cases h
      simp [World.wired, hi, hb, hu, hq]
    · cases hm : w.queues.machine.q with
      | nil => simp [hm] at h
      | cons m tail =>
        simp only [hm] at h
        cases hr : w.machine.resume [m] with
        | none => simp [hr] at h
        | some r =>
          simp only [hr, Option.map_some', Option.some.injEq] at h
          subst h
          have hk := atm_resume_loop_keeps_wiring _ _ _ r hr
          obtain ⟨i1, b1, u1, -, hbk⟩ := keeps_wiring_sent_to _ _ _ hk hi hb hu
          simp [World.wired, i1, b1, u1, List.all_append, hq, hbk]
    · simp at h
  · simp only [World.step_of] at h
    rw [step_bank_wired w hw0] at h
    cases ht : w.bank_thread <;> simp only [ht] at h
    · cases h
      simp [World.wired, hi, hb, hu, hq]
    · cases hm : w.queues.bank.q with
      | nil => simp [hm] at h
      | cons m tail =>
        simp only [hm, Option.some.injEq] at h
        subst h
        rw [hm, List.all_cons, Bool.and_eq_true] at hq
        simp [World.wired, hi, hb, hu, hq.2]
    · simp at h
  · simp only [World.step_of] at h
    rw [step_ui_eq w] at h
    cases ht : w.ui_thread <;> simp only [ht] at h
    · cases h
      simp [World.wired, hi, hb, hu, hq]
    · cases hm : w.queues.ui_hardware.q with
      | nil => simp [hm] at h
      | cons m tail =>
        simp only [hm, Option.some.injEq] at h
        subst h
        simp [World.wired, hi, hb, hu, hq]
    · simp at h

theorem diamond_machine_bank (w wA wB : World) (hw : w.wired = true)
    (hA : w.step_machine = some wA) (hB : w.step_bank = some wB) :
    ∃ w3, wA.step_bank = some w3 ∧ wB.step_machine = some w3 := by
  have hwA : wA.wired = true := step_of_wired w wA .machine hw hA
  have hwB : wB.wired = true := step_of_wired w wB .bank hw hB
  rw [step_bank_wired wA hwA, step_machine_wired wB hwB]
  rw [step_machine_wired w hw] at hA
  rw [step_bank_wired w hw] at hB
  obtain ⟨bank, bt, ui, ut, recv, a, at_, ⟨⟨B⟩, ⟨U⟩, ⟨M⟩⟩⟩ := w
  simp only at hA hB
  cases at_ <;> cases bt <;> simp only [reduceCtorEq] at hA hB
  · cases hA; cases hB; exact ⟨_, rfl, rfl⟩
  · cases B with
    | nil => simp at hB
    | cons mb tb =>
      simp only [Option.some.injEq] at hA hB
      subst hA hB
      exact ⟨_, rfl, rfl⟩
  · cases M with
    | nil => simp at hA
    | cons mm tm =>
      simp only at hA
      cases hr : a.resume [mm] with
      | none => simp [hr] at hA
      | some r =>
        simp only [hr, Option.map_some', Option.some.injEq] at hA hB
        subst hA hB
        simp [hr]
  · cases M with
    | nil => simp at hA
    | cons mm tm =>
      cases B with
      | nil => simp at hB
      | cons mb tb =>
        simp only at hA hB
        cases hr : a.resume [mm] with
        | none => simp [hr] at hA
        | some r =>
          simp only [hr, Option.map_some', Option.some.injEq] at hA hB
          subst hA hB
          simp [hr]

theorem diamond_machine_ui (w wA wB : World) (hw : w.wired = true)
    (hA : w.step_machine = some wA) (hB : w.step_ui = some wB) :
    ∃ w3, wA.step_ui = some w3 ∧ wB.step_machine = some w3 := by
  have hwB : wB.wired = true := step_of_wired w wB .ui_hardware hw hB
  rw [step_ui_eq wA, step_machine_wired wB hwB]
  rw [step_machine_wired w hw] at hA
  rw [step_ui_eq w] at hB
  obtain ⟨bank, bt, ui, ut, recv, a, at_, ⟨⟨B⟩, ⟨U⟩, ⟨M⟩⟩⟩ := w
  simp only at hA hB
  cases at_ <;> cases ut <;> simp only [reduceCtorEq] at hA hB
  · cases hA; cases hB; exact ⟨_, rfl, rfl⟩
  · cases U with
    | nil => simp at hB
    | cons mu tu =>
      simp only [Option.some.injEq] at hA hB
      subst hA hB
      exact ⟨_, rfl, rfl⟩
  · cases M with
    | nil => simp at hA
    | cons mm tm =>
      simp only at hA
      cases hr : a.resume [mm] with
      | none => simp [hr] at hA
      | some r =>
        simp only [hr, Option.map_some', Option.some.injEq] at hA hB
        subst hA hB
        simp [hr]
  · cases M with
    | nil => simp at hA
    | cons mm tm =>
      cases U with
      | nil => simp at hB
      | cons mu tu =>
        simp only at hA hB
        cases hr : a.resume [mm] with
        | none => simp [hr] at hA
        | some r =>
          simp only [hr, Option.map_some', Option.some.injEq] at hA hB
          subst hA hB
          simp [hr]

theorem diamond_bank_ui (w wA wB : World) (hw : w.wired = true)
    (hA : w.step_bank = some wA) (hB : w.step_ui = some wB) :
    ∃ w3, wA.step_ui = some w3 ∧ wB.step_bank = some w3 := by
  have hwB : wB.wired = true := step_of_wired w wB .ui_hardware hw hB
  rw [step_ui_eq wA, step_bank_wired wB hwB]
  rw [step_bank_wired w hw] at hA
  rw [step_ui_eq w] at hB
  obtain ⟨bank, bt, ui, ut, recv, a, at_, ⟨⟨B⟩, ⟨U⟩, ⟨M⟩⟩⟩ := w
  simp only at hA hB
  cases bt <;> cases ut <;> simp only [reduceCtorEq] at hA hB
  · cases hA; cases hB; exact ⟨_, rfl, rfl⟩
  · cases U with
    | nil => simp at hB
    | cons mu tu =>
      simp only [Option.some.injEq] at hA hB
      subst hA hB
      exact ⟨_, rfl, rfl⟩
  · cases B with
    | nil => simp at hA
    | cons mb tb =>
      simp only [Option.some.injEq] at hA hB
      subst hA hB
      exact ⟨_, rfl, rfl⟩
  · cases B with
    | nil => simp at hA
    | cons mb tb =>
      cases U with
      | nil => simp at hB
      | cons mu tu =>
        simp only [Option.some.injEq] at hA hB
        subst hA hB
        exact ⟨_, rfl, rfl⟩

/-- Two different threads that can both move can move in either order, with the
same result. -/
theorem step_of_diamond (w wA wB : World) (a b : Actor) (hab : a ≠ b) (hw : w.wired = true)
    (hA : w.step_of a = some wA) (hB : w.step_of b = some wB) :
    ∃ w3, wA.step_of b = some w3 ∧ wB.step_of a = some w3 := by
  cases a <;> cases b <;> simp only [World.step_of] at hA hB ⊢
  · exact absurd rfl hab
  · exact diamond_machine_bank w wA wB hw hA hB
  · exact diamond_machine_ui w wA wB hw hA hB
  · obtain ⟨w3, h1, h2⟩ := diamond_machine_bank w wB wA hw hB hA
    exact ⟨w3, h2, h1⟩
  · exact absurd rfl hab
  · exact diamond_bank_ui w wA wB hw hA hB
  · obtain ⟨w3, h1, h2⟩ := diamond_machine_ui w wB wA hw hB hA
    exact ⟨w3, h2, h1⟩
  · obtain ⟨w3, h1, h2⟩ := diamond_bank_ui w wB wA hw hB hA
    exact ⟨w3, h2, h1⟩
  · exact absurd rfl hab

theorem step_some_actor (w w1 : World) (h : w.step = some w1) :
    ∃ c, w.step_of c = some w1 := by
  unfold World.step at h
  cases hm : w.step_machine with
  | some x => rw [hm] at h; exact ⟨.machine, by rw [World.step_of, hm, ← h]⟩
  | none =>
    rw [hm] at h
    cases hb : w.step_bank with
    | some x => rw [hb] at h; exact ⟨.bank, by rw [World.step_of, hb, ← h]⟩
    | none => rw [hb] at h; exact ⟨.ui_hardware, h⟩

theorem step_none_actor (w : World) (h : w.step = none) (a : Actor) : w.step_of a = none := by
  unfold World.step at h
  cases hm : w.step_machine with
  | some x => simp [hm] at h
  | none =>
    rw [hm] at h
    cases hb : w.step_bank with
    | some x => simp [hb] at h
    | none =>
      rw [hb] at h
      cases a
      · exact hm
      · exact hb
      · exact h

theorem step_of_some_step (w w1 : World) (a : Actor) (h : w.step_of a = some w1) :
    ∃ w2, w.step = some w2 := by
  cases hs : w.step with
  | some w2 => exact ⟨w2, rfl⟩
  | none => rw [step_none_actor w hs a] at h; cases h

theorem quiesce_succ_eq (n : Nat) (w : World) :
    World.quiesce (n + 1) w =
      match w.step with
      | none => some w
      | some w1 => World.quiesce n w1 := by
  cases hs : w.step <;> simp [World.quiesce, hs]

theorem quiesce_zero_eq (w : World) :
    World.quiesce 0 w =
      match w.step with
      | none => some w
      | some _ => none := by
  cases hs : w.step <;> simp [World.quiesce, hs]

theorem quiesce_zero_some (w q : World) (h : World.quiesce 0 w = some q) : w.step = none := by
  rw [quiesce_zero_eq] at h
  cases hs : w.step with
  | none => rfl
  | some x => simp [hs] at h

/-- A move of any thread neither loses nor changes the quiescent configuration
that the fixed order of moves reaches. -/
theorem quiesce_confluent (n : Nat) :
    (∀ w a w1 q, World.wired w = true → World.step_of w a = some w1 →
        World.quiesce (n + 1) w = some q → World.quiesce n w1 = some q)
      ∧ (∀ w a w1 q, World.wired w = true → World.step_of w a = some w1 →
        World.quiesce n w1 = some q → World.quiesce (n + 1) w = some q) := by
  induction n with
  | zero =>
    constructor
    · intro w a w1 q hw ha hq
      obtain ⟨w2, hs⟩ := step_of_some_step w w1 a ha
      obtain ⟨c, hc⟩ := step_some_actor w w2 hs
      rw [quiesce_succ_eq, hs] at hq
      by_cases hac : a = c
      · subst hac
        rw [ha] at hc
        cases hc
        exact hq
      · obtain ⟨w3, -, h2⟩ := step_of_diamond w w1 w2 a c hac hw ha hc
        rw [step_none_actor w2 (quiesce_zero_some w2 q hq) a] at h2
        cases h2
    · intro w a w1 q hw ha hq
      obtain ⟨w2, hs⟩ := step_of_some_step w w1 a ha
      obtain ⟨c, hc⟩ := step_some_actor w w2 hs
      rw [quiesce_succ_eq, hs]
      by_cases hac : a = c
      · subst hac
        rw [ha] at hc
        cases hc
        exact hq
      · obtain ⟨w3, h1, -⟩ := step_of_diamond w w1 w2 a c hac hw ha hc
        rw [step_none_actor w1 (quiesce_zero_some w1 q hq) c] at h1
        cases h1
  | succ m ih =>
    obtain ⟨ihF, ihR⟩ := ih
    constructor
    · intro w a w1 q hw ha hq
      obtain ⟨w2, hs⟩ := step_of_some_step w w1 a ha
      obtain ⟨c, hc⟩ := step_some_actor w w2 hs
      rw [quiesce_succ_eq, hs] at hq
      by_cases hac : a = c
      · subst hac
        rw [ha] at hc
        cases hc
        exact hq
      · obtain ⟨w3, h1, h2⟩ := step_of_diamond w w1 w2 a c hac hw ha hc
        have hw1 := step_of_wired w w1 a hw ha
        have hw2 := step_of_wired w w2 c hw hc
        exact ihR w1 c w3 q hw1 h1 (ihF w2 a w3 q hw2 h2 hq)
    · intro w a w1 q hw ha hq
      obtain ⟨w2, hs⟩ := step_of_some_step w w1 a ha
      obtain ⟨c, hc⟩ := step_some_actor w w2 hs
      rw [quiesce_succ_eq, hs]
      by_cases hac : a = c
      · subst hac
        rw [ha] at hc
        cases hc
        exact hq
      · obtain ⟨w3, h1, h2⟩ := step_of_diamond w w1 w2 a c hac hw ha hc
        have hw1 := step_of_wired w w1 a hw ha
        have hw2 := step_of_wired w w2 c hw hc
        exact ihR w2 a w3 q hw2 h2 (ihF w1 c w3 q hw1 h1 hq)

theorem run_schedule_wired (sched : List Actor) (w : World) (hw : w.wired = true) :
    (w.run_schedule sched).wired = true := by
  induction sched generalizing w with
  | nil => exact hw
  | cons a rest ih =>
    rw [World.run_schedule]
    cases ha : w.step_of a with
    | none => exact ih w hw
    | some w1 => exact ih w1 (step_of_wired w w1 a hw ha)

/-- Whatever order the threads move in, if they come to rest they come to rest
in the configuration that the fixed order of moves reaches. -/
theorem run_schedule_quiesce (sched : List Actor) (w q : World) (n : Nat)
    (hw : w.wired = true) (hq : World.quiesce n w = some q)
    (hs : (w.run_schedule sched).quiescent = true) : w.run_schedule sched = q := by
  induction sched generalizing w n with
  | nil =>
    simp only [World.run_schedule, World.quiescent, Option.isNone_iff_eq_none] at hs ⊢
    cases n with
    | zero => rw [quiesce_zero_eq, hs] at hq; cases hq; rfl
    | succ m => rw [quiesce_succ_eq, hs] at hq; cases hq; rfl
  | cons a rest ih =>
    rw [World.run_schedule] at hs ⊢
    cases ha : w.step_of a with
    | none =>
      simp only [ha] at hs ⊢
      exact ih w n hw hq hs
    | some w1 =>
      simp only [ha] at hs ⊢
      cases n with
      | zero =>
        rw [step_none_actor w (quiesce_zero_some w q hq) a] at ha
        cases ha
      | succ m =>
        exact ih w1 m (step_of_wired w w1 a hw ha)
          ((quiesce_confluent m).1 w a w1 q hw ha hq) hs

theorem quiesce_wired (n : Nat) (w q : World) (hw : w.wired = true)
    (hq : World.quiesce n w = some q) : q.wired = true := by
  induction n generalizing w with
  | zero =>
    rw [quiesce_zero_eq] at hq
    cases hs : w.step with
    | none => rw [hs] at hq; cases hq; exact hw
    | some w1 => simp [hs] at hq
  | succ m ih =>
    rw [quiesce_succ_eq] at hq
    cases hs : w.step with
    | none => rw [hs] at hq; cases hq; exact hw
    | some w1 =>
      rw [hs] at hq
      obtain ⟨c, hc⟩ := step_some_actor w w1 hs
      exact ih w1 (step_of_wired w w1 c hw hc) hq

/-- The fixed order of moves is one of the interleavings, and it ends at rest. -/
theorem quiesce_is_schedule (n : Nat) (w q : World) (hq : World.quiesce n w = some q) :
    ∃ sched, w.run_schedule sched = q ∧ q.quiescent = true := by
  induction n generalizing w with
  | zero =>
    rw [quiesce_zero_eq] at hq
    cases hs : w.step with
    | none =>
      rw [hs] at hq; cases hq
      exact ⟨[], rfl, by simp [World.quiescent, hs]⟩
    | some w1 => simp [hs] at hq
  | succ m ih =>
    rw [quiesce_succ_eq] at hq
    cases hs : w.step with
    | none =>
      rw [hs] at hq; cases hq
      exact ⟨[], rfl, by simp [World.quiescent, hs]⟩
    | some w1 =>
      rw [hs] at hq
      obtain ⟨c, hc⟩ := step_some_actor w w1 hs
      obtain ⟨sched, h1, h2⟩ := ih w1 hq
      exact ⟨c :: sched, by rw [World.run_schedule, hc]; exact h1, h2⟩

theorem post_wired (w : World) (msg : Message) (hw : w.wired = true) :
    World.wired { w with queues := w.machine.get_sender.send msg w.queues } = true := by
  simp only [World.wired, Bool.decide_and, Bool.and_eq_true, decide_eq_true_eq] at hw ⊢
  obtain ⟨hi, hb, hu, hq⟩ := hw
  refine ⟨hi, hb, hu, ?_⟩
  simp [atm.get_sender, hi, sender.send, Queues.set, hq]

/-- Whatever interleavings follow the stimuli, if the threads come to rest after
each stimulus the result is that of the fixed order of moves. -/
theorem stimuli_by_unique (l : List (Message × List Actor)) (w w1 w2 : World)
    (hw : w.wired = true) (h1 : w.stimuli_by l = some w1)
    (h2 : w.stimuli (l.map Prod.fst) = some w2) : w1 = w2 := by
  induction l generalizing w with
  | nil =>
    simp only [World.stimuli_by, List.map_nil, World.stimuli, Option.some.injEq] at h1 h2
    rw [← h1, ← h2]
  | cons p rest ih =>
    obtain ⟨msg, sched⟩ := p
    simp only [World.stimuli_by, List.map_cons, World.stimuli] at h1 h2
    cases hs : w.stimulus msg with
    | none => simp [hs] at h2
    | some w3 =>
      rw [hs] at h2
      simp only at h2
      by_cases hq : (World.run_schedule
          { w with queues := w.machine.get_sender.send msg w.queues } sched).quiescent = true
      · rw [if_pos hq] at h1
        have e := run_schedule_quiesce sched _ w3 16 (post_wired w msg hw) hs hq
        rw [e] at h1
        exact ih w3 (quiesce_wired 16 _ w3 (post_wired w msg hw) hs) h1 h2
      · rw [if_neg hq] at h1
        cases h1

/-- The stimuli processed in the fixed order of moves are the stimuli followed
by some interleavings that come to rest. -/
theorem stimuli_by_exists (msgs : List Message) (w w1 : World)
    (h : w.stimuli msgs = some w1) :
    ∃ l, l.map Prod.fst = msgs ∧ w.stimuli_by l = some w1 := by
  induction msgs generalizing w with
  | nil =>
    simp only [World.stimuli, Option.some.injEq] at h
    exact ⟨[], rfl, by rw [World.stimuli_by, h]⟩
  | cons msg rest ih =>
    simp only [World.stimuli] at h
    cases hs : w.stimulus msg with
    | none => simp [hs] at h
    | some w3 =>
      rw [hs] at h
      simp only at h
      obtain ⟨sched, e1, e2⟩ := quiesce_is_schedule 16 _ w3 hs
      obtain ⟨l, hl1, hl2⟩ := ih w3 h
      refine ⟨(msg, sched) :: l, by simp [hl1], ?_⟩
      simp only [World.stimuli_by]
      rw [e1, if_pos e2]
      exact hl2

theorem idle_wired (state : atm_state) (account : List Char) (amount : Nat) (pin : List Char)
    (balance : Nat) (stdout : List Println) (received : List Message) :
    (World.idle state account amount pin balance stdout received).wired = true := by
  simp [World.idle, World.wired, queue.empty]

theorem start_wired (amount0 : Nat) : (World.start amount0).wired = true := by
  simp [World.start, World.wired, queue.empty]

/-! ## The end-to-end scenarios -/

/-- C4. From the configuration in which the orchestrator reads its first input
(atm waiting in `waiting_for_card`, bank balance 199), the stimuli
`card_inserted`, `digit_pressed` 1, 9, 3, 7 and `withdraw_pressed(50)`, each
processed to quiescence, make the interface receive exactly one `issue_money`,
with amount 50, and leave the bank with balance 149, which is 50 less.  The
threads may move in any order: every interleaving that comes to rest after each
stimulus ends in the same configuration. -/
theorem end_to_end_withdrawal (amount0 : Nat) (account : List Char) :
    ∃ w0 w, World.boot amount0 = some w0
      ∧ (∀ sched, ((World.start amount0).run_schedule sched).quiescent = true →
          (World.start amount0).run_schedule sched = w0)
      ∧ w0.atm_thread = .waiting ∧ w0.machine.state = .waiting_for_card
      ∧ w0.bank.balance = 199
      ∧ w0.stimuli [.card_inserted account, .digit_pressed '1', .digit_pressed '9',
          .digit_pressed '3', .digit_pressed '7', .withdraw_pressed 50] = some w
      ∧ (∃ l, l.map Prod.fst = [.card_inserted account, .digit_pressed '1', .digit_pressed '9',
            .digit_pressed '3', .digit_pressed '7', .withdraw_pressed 50]
          ∧ w0.stimuli_by l = some w)
      ∧ (∀ l w1, l.map Prod.fst = [.card_inserted account, .digit_pressed '1',
            .digit_pressed '9', .digit_pressed '3', .digit_pressed '7', .withdraw_pressed 50] →
          w0.stimuli_by l = some w1 → w1 = w)
      ∧ w.ui_received = w0.ui_received ++ [.display_enter_pin, .display_withdrawal_options,
          .issue_money 50, .eject_card, .display_enter_card]
      ∧ w.ui_received.filter (fun m => m.index = (Message.issue_money 0).index)
          = [.issue_money 50]
      ∧ w.bank.balance = 149 ∧ w.bank.balance + 50 = w0.bank.balance
      ∧ w.queues = ⟨queue.empty, queue.empty, queue.empty⟩ := by
  have hs := world_session_approved [] [] account amount0 50 199
    [("Screen: Please enter your card (Press I)", [])] [.display_enter_card] (by decide)
  refine ⟨_, _, world_boot amount0, ?_, rfl, rfl, rfl, hs, stimuli_by_exists _ _ _ hs, ?_,
    ?_, ?_, ?_, ?_, ?_⟩
  · intro sched hq
    exact run_schedule_quiesce sched _ _ 16 (start_wired amount0) (world_boot amount0) hq
  · intro l w1 hl h1
    exact stimuli_by_unique l _ w1 _ (idle_wired _ _ _ _ _ _ _) h1 (by rw [hl]; exact hs)
  · simp [World.idle]
  · simp [World.idle, Message.index]
  · simp [World.idle, unsigned_sub]
  · simp [World.idle, unsigned_sub]
  · simp [World.idle]

/-- C7. In a session (card inserted, the pin 1937 entered, withdraw requested,
each stimulus processed to quiescence, the threads moving in any order) that
asks for more than the balance of the bank, the interface receives
`display_insufficient_funds` and no `issue_money`, and the balance is
unchanged.  In particular the fourth of four consecutive sessions withdrawing
50 from the initial balance 199 finds the balance 49 and is denied. -/
theorem insufficient_funds_denied (acc0 pin0 account : List Char) (amt a b amount0 : Nat)
    (out : List Println) (recv : List Message) (h : b < a) :
    (∃ w, (World.idle .waiting_for_card acc0 amt pin0 b out recv).stimuli
          (World.session account a) = some w
        ∧ (∃ l, l.map Prod.fst = World.session account a
            ∧ (World.idle .waiting_for_card acc0 amt pin0 b out recv).stimuli_by l = some w)
        ∧ (∀ l w1, l.map Prod.fst = World.session account a →
            (World.idle .waiting_for_card acc0 amt pin0 b out recv).stimuli_by l = some w1 →
            w1 = w)
        ∧ w.ui_received = recv ++ [.display_enter_pin, .display_withdrawal_options,
            .display_insufficient_funds, .eject_card, .display_enter_card]
        ∧ w.bank.balance = b
        ∧ w.queues = ⟨queue.empty, queue.empty, queue.empty⟩)
      ∧ ∃ w0 w3 w4, World.boot amount0 = some w0
        ∧ w0.stimuli (World.session account 50 ++ World.session account 50
            ++ World.session account 50) = some w3
        ∧ w3.bank.balance = 49
        ∧ w3.stimuli (World.session account 50) = some w4
        ∧ (∀ l w1, l.map Prod.fst = World.session account 50 →
            w3.stimuli_by l = some w1 → w1 = w4)
        ∧ w4.ui_received = w3.ui_received ++ [.display_enter_pin, .display_withdrawal_options,
            .display_insufficient_funds, .eject_card, .display_enter_card]
        ∧ w4.bank.balance = 49 := by
  constructor
  · have hs := world_session_denied acc0 pin0 account amt a b out recv h
    refine ⟨_, hs, stimuli_by_exists _ _ _ hs, ?_, rfl, rfl, rfl⟩
    intro l w1 hl h1
    exact stimuli_by_unique l _ w1 _ (idle_wired _ _ _ _ _ _ _) h1 (by rw [hl]; exact hs)
  · have h3 : ∃ out3 recv3,
        (World.idle .waiting_for_card [] amount0 [] 199
            [("Screen: Please enter your card (Press I)", [])] [.display_enter_card]).stimuli
          (World.session account 50 ++ World.session account 50 ++ World.session account 50)
        = some (World.idle .waiting_for_card account 50 ['1', '9', '3', '7'] 49 out3 recv3) := by
      have h1 := world_session_approved [] [] account amount0 50 199
        [("Screen: Please enter your card (Press I)", [])] [.display_enter_card] (by decide)
      have h2 := fun (o : List Println) (r : List Message) =>
        world_session_approved account ['1', '9', '3', '7'] account 50 50
          (unsigned_sub 199 50) o r (by decide)
      have h3 := fun (o : List Println) (r : List Message) =>
        world_session_approved account ['1', '9', '3', '7'] account 50 50
          (unsigned_sub (unsigned_sub 199 50) 50) o r (by decide)
      have e : unsigned_sub (unsigned_sub (unsigned_sub 199 50) 50) 50 = 49 := by decide
      simp only [e] at h3
      exact ⟨_, _, world_stimuli_trans _ _ _ _ _ (world_stimuli_trans _ _ _ _ _ h1 (h2 _ _)) (h3 _ _)⟩
    obtain ⟨out3, recv3, h3⟩ := h3
    have h4 := world_session_denied account ['1', '9', '3', '7'] account 50 50 49 out3 recv3
      (by decide)
    refine ⟨_, _, _, world_boot amount0, h3, rfl, h4, ?_, rfl, rfl⟩
    intro l w1 hl h1
    exact stimuli_by_unique l _ w1 _ (idle_wired _ _ _ _ _ _ _) h1 (by rw [hl]; exact h4)

theorem insufficient_funds_denied_witness :
    (49 : Nat) < 50
      ∧ ∃ w, (World.idle .waiting_for_card [] 0 [] 49 [] []).stimuli
          (World.session ['a'] 50) = some w
        ∧ (∃ l, l.map Prod.fst = World.session ['a'] 50
            ∧ (World.idle .waiting_for_card [] 0 [] 49 [] []).stimuli_by l = some w)
        ∧ (∀ l w1, l.map Prod.fst = World.session ['a'] 50 →
            (World.idle .waiting_for_card [] 0 [] 49 [] []).stimuli_by l = some w1 → w1 = w)
        ∧ w.ui_received = [] ++ [.display_enter_pin, .display_withdrawal_options,
            .display_insufficient_funds, .eject_card, .display_enter_card]
        ∧ w.bank.balance = 49
        ∧ w.queues = ⟨queue.empty, queue.empty, queue.empty⟩ :=
  ⟨by decide, (insufficient_funds_denied [] [] ['a'] 0 50 49 0 [] [] (by decide)).1⟩

/-! ## The transitions of a session -/

/-- C11. An atm waiting in `waiting_for_card` that receives `card_inserted(acc)`
is next blocked in `getting_pin` with the account `acc` and the empty pin,
whatever account and pin it held, its other data unchanged, and has sent
exactly one message, `display_enter_pin` to the interface.  From the start of
`run` the same holds after the entry prompt. -/
theorem card_inserted_starts_pin_entry (a : atm) (acc : List Char) (rest : List Message)
    (hs : a.state = .waiting_for_card) :
    atm.process_messages atm.waiting_for_card_handlers a (.card_inserted acc :: rest)
        = ⟨.returned, { a with account := acc, pin := [], state := .getting_pin },
            [(a.to_interface, .display_enter_pin)], rest⟩
      ∧ a.resume [.card_inserted acc]
        = some ⟨.blocked, { a with account := acc, pin := [], state := .getting_pin },
            [(a.to_interface, .display_enter_pin)], []⟩
      ∧ a.run [.card_inserted acc]
        = some ⟨.blocked, { a with account := acc, pin := [], state := .getting_pin },
            [(a.to_interface, .display_enter_card), (a.to_interface, .display_enter_pin)],
            []⟩ := by
  obtain ⟨inbox, to_bank, to_interface, state, account, amount, pin⟩ := a
  simp only at hs
  subst hs
  refine ⟨?_, ?_, ?_⟩ <;>
    simp [atm.resume, atm.resume_loop, atm.run, atm.state_handlers, atm.process_messages,
      atm.waiting_for_card_handlers, atm.run_loop, atm.invoke, atm.getting_pin,
      atm.waiting_for_card, Outcome.after, Run.after]

theorem card_inserted_starts_pin_entry_witness :
    (⟨.machine, ⟨some .bank⟩, ⟨some .ui_hardware⟩, .waiting_for_card, ['o', 'l', 'd'], 7,
        ['1', '2']⟩ : atm).state = .waiting_for_card
      ∧ (⟨.machine, ⟨some .bank⟩, ⟨some .ui_hardware⟩, .waiting_for_card, ['o', 'l', 'd'], 7,
          ['1', '2']⟩ : atm).resume [.card_inserted ['n', 'e', 'w']]
        = some ⟨.blocked,
            ⟨.machine, ⟨some .bank⟩, ⟨some .ui_hardware⟩, .getting_pin, ['n', 'e', 'w'], 7, []⟩,
            [(⟨some .ui_hardware⟩, .display_enter_pin)], []⟩ :=
  ⟨rfl, (card_inserted_starts_pin_entry
    ⟨.machine, ⟨some .bank⟩, ⟨some .ui_hardware⟩, .waiting_for_card, ['o', 'l', 'd'], 7,
      ['1', '2']⟩ ['n', 'e', 'w'] [] rfl).2.1⟩

/-- C12. For a `verify_pin` request the bank sends exactly one reply, to the
reply destination of the request: `pin_verified` if and only if the submitted
pin is the string 1937, `pin_incorrect` otherwise; the bank, and so its
balance, is unchanged. -/
theorem bank_verify_pin_reply (b : bank_machine) (account pin : List Char) (q : sender) :
    ∃ reply, b.visit (.verify_pin account pin q) = some (b, [(q, reply)])
      ∧ b.run [.verify_pin account pin q] = ⟨.blocked, b, [(q, reply)], []⟩
      ∧ (reply = .pin_verified ↔ pin = "1937".toList)
      ∧ (reply = .pin_incorrect ↔ pin ≠ "1937".toList) := by
  have e : "1937".toList = ['1', '9', '3', '7'] := rfl
  rw [e]
  by_cases h : pin = ['1', '9', '3', '7']
  · exact ⟨.pin_verified, by simp [bank_machine.visit, h],
      by simp [bank_machine.run, bank_machine.visit, h, Run.after], by simp [h], by simp [h]⟩
  · exact ⟨.pin_incorrect, by simp [bank_machine.visit, h],
      by simp [bank_machine.run, bank_machine.visit, h, Run.after], by simp [h], by simp [h]⟩

/-- C13. An atm waiting in `verifying_pin` that receives `pin_verified` is next
blocked in `wait_for_action`, whose entry has sent `display_withdrawal_options`
to the interface, with account and other data unchanged.  If it receives
`pin_incorrect` instead, the handler sends `display_pin_incorrect_message` and
sets `done_processing`, from which the atm ejects the card and is next blocked
in `waiting_for_card`: it passes through no other state and the menu is not
displayed. -/
theorem pin_reply_transitions (a : atm) (rest : List Message) (hs : a.state = .verifying_pin) :
    a.resume [.pin_verified]
        = some ⟨.blocked, { a with state := .wait_for_action },
            [(a.to_interface, .display_withdrawal_options)], []⟩
      ∧ a.verifying_pin (.pin_incorrect :: rest)
        = ⟨.returned, { a with state := .done_processing },
            [(a.to_interface, .display_pin_incorrect_message)], rest⟩
      ∧ atm.invoke { a with state := .done_processing } rest
        = ⟨.returned, { a with state := .waiting_for_card },
            [(a.to_interface, .eject_card)], rest⟩
      ∧ a.resume [.pin_incorrect]
        = some ⟨.blocked, { a with state := .waiting_for_card },
            [(a.to_interface, .display_pin_incorrect_message), (a.to_interface, .eject_card),
             (a.to_interface, .display_enter_card)], []⟩ := by
  obtain ⟨inbox, to_bank, to_interface, state, account, amount, pin⟩ := a
  simp only at hs
  subst hs
  refine ⟨?_, ?_, ?_, ?_⟩ <;>
    simp [atm.resume, atm.resume_loop, atm.state_handlers, atm.process_messages,
      atm.verifying_pin_handlers, atm.verifying_pin, atm.run_loop, atm.invoke,
      atm.wait_for_action, atm.done_processing, atm.waiting_for_card, Outcome.after, Run.after]

theorem pin_reply_transitions_witness :
    (⟨.machine, ⟨some .bank⟩, ⟨some .ui_hardware⟩, .verifying_pin, ['a'], 7,
        ['1', '9', '3', '7']⟩ : atm).state = .verifying_pin
      ∧ (⟨.machine, ⟨some .bank⟩, ⟨some .ui_hardware⟩, .verifying_pin, ['a'], 7,
          ['1', '9', '3', '7']⟩ : atm).resume [.pin_verified]
        = some ⟨.blocked,
            ⟨.machine, ⟨some .bank⟩, ⟨some .ui_hardware⟩, .wait_for_action, ['a'], 7,
              ['1', '9', '3', '7']⟩,
            [(⟨some .ui_hardware⟩, .display_withdrawal_options)], []⟩ :=
  ⟨rfl, (pin_reply_transitions
    ⟨.machine, ⟨some .bank⟩, ⟨some .ui_hardware⟩, .verifying_pin, ['a'], 7,
      ['1', '9', '3', '7']⟩ [] rfl).1⟩

set_option maxHeartbeats 4000000 in
theorem state_handlers_unhandled_keep_state (s : atm_state) (a : atm) (m : Message) :
    ∀ h, atm.state_handlers s a m = some h → h.handled = false → h.self.state = a.state := by
  cases s <;> cases m <;>
    simp only [atm.state_handlers, atm.waiting_for_card_handlers, atm.getting_pin_handlers,
      atm.verifying_pin_handlers, atm.wait_for_action_handlers, atm.process_withdrawal_handlers,
      atm.process_balance_handlers] <;>
    (try split) <;>
    simp

set_option maxHeartbeats 4000000 in
theorem state_handlers_done_handled (s : atm_state) (a : atm) (m : Message)
    (hs : a.state ≠ .done_processing) :
    ∀ h, atm.state_handlers s a m = some h → h.self.state = .done_processing →
      h.handled = true := by
  cases s <;> cases m <;>
    simp only [atm.state_handlers, atm.waiting_for_card_handlers, atm.getting_pin_handlers,
      atm.verifying_pin_handlers, atm.wait_for_action_handlers, atm.process_withdrawal_handlers,
      atm.process_balance_handlers] <;>
    (try split) <;>
    simp [hs]

theorem state_handlers_close_queue (s : atm_state) (a : atm) :
    atm.state_handlers s a .close_queue = none := by
  cases s <;> rfl

theorem process_messages_blocked_state (s : atm_state) (a : atm) (inbox : List Message)
    (h : (atm.process_messages (atm.state_handlers s) a inbox).ctl = .blocked) :
    (atm.process_messages (atm.state_handlers s) a inbox).self.state = a.state := by
  induction inbox generalizing a with
  | nil => rw [process_messages_nil]
  | cons m rest ih =>
    by_cases hc : m = .close_queue
    · subst hc; rw [process_messages_close] at h; cases h
    · rw [process_messages_cons _ a m rest hc] at h ⊢
      cases hH : atm.state_handlers s a m with
      | none => simp only [hH] at h ⊢; exact ih a h
      | some hd =>
        simp only [hH] at h ⊢
        by_cases hb : hd.handled = true
        · simp [hb] at h
        · simp only [hb, Bool.false_eq_true, ↓reduceIte, Outcome.after] at h ⊢
          rw [ih hd.self h]
          exact state_handlers_unhandled_keep_state s a m hd hH (by simpa using hb)

theorem atm_invoke_blocked_state (a : atm) (inbox : List Message)
    (h : (a.invoke inbox).ctl = .blocked) :
    (a.invoke inbox).self.state = a.state ∧ a.state ≠ .done_processing := by
  have key : ∀ s, a.state = s → s ≠ .done_processing →
      (atm.process_messages (atm.state_handlers s) a inbox).ctl = .blocked →
      (atm.process_messages (atm.state_handlers s) a inbox).self.state = a.state :=
    fun s _ _ hb => process_messages_blocked_state s a inbox hb
  unfold atm.invoke at h ⊢
  cases hs : a.state <;> simp only [hs] at h ⊢
  · exact ⟨hs ▸ key .waiting_for_card hs (by decide) h, by decide⟩
  · exact ⟨hs ▸ key .getting_pin hs (by decide) h, by decide⟩
  · exact ⟨hs ▸ key .verifying_pin hs (by decide) h, by decide⟩
  · exact ⟨hs ▸ key .wait_for_action hs (by decide) h, by decide⟩
  · exact ⟨hs ▸ key .process_withdrawal hs (by decide) h, by decide⟩
  · exact ⟨hs ▸ key .process_balance hs (by decide) h, by decide⟩
  · simp [atm.done_processing] at h

theorem atm_run_loop_blocked_state (fuel : Nat) (a : atm) (inbox : List Message) (r : Run atm)
    (h : atm.run_loop fuel a inbox = some r) (hb : r.status = .blocked) :
    r.self.state ≠ .done_processing := by
  induction fuel generalizing a inbox r with
  | zero => simp [atm.run_loop] at h
  | succ n ih =>
    rw [atm.run_loop] at h
    cases hc : (a.invoke inbox).ctl <;> simp only [hc] at h
    · cases hr : atm.run_loop n (a.invoke inbox).self (a.invoke inbox).inbox with
      | none => simp [hr] at h
      | some r1 =>
        rw [hr] at h
        simp only [Option.map_some', Option.some.injEq] at h
        subst h
        exact ih _ _ r1 hr hb
    · simp only [Option.some.injEq] at h; subst h; cases hb
    · simp only [Option.some.injEq] at h
      subst h
      obtain ⟨e1, e2⟩ := atm_invoke_blocked_state a inbox hc
      show (a.invoke inbox).self.state ≠ _
      rw [e1]; exact e2

theorem atm_run_loop_from_done (a : atm) (hs : a.state = .done_processing) :
    atm.run_loop 4 a []
      = some ⟨.blocked, { a with state := .waiting_for_card },
          [(a.to_interface, .eject_card), (a.to_interface, .display_enter_card)], []⟩ := by
  obtain ⟨inbox, to_bank, to_interface, state, account, amount, pin⟩ := a
  simp only at hs
  subst hs
  simp [atm.run_loop, atm.invoke, atm.done_processing, atm.waiting_for_card,
    atm.process_messages, Outcome.after, Run.after]

/-- C14. The atm has no terminal state.  `done_processing` takes no message
from the inbox, sends exactly one message, `eject_card` to the interface, and
sets the state `waiting_for_card`.  The handlers for an approved, a denied and
a cancelled withdrawal, for an incorrect pin and for cancel in every state
that accepts it set `done_processing` and end the receive; and whenever a
handler of the state in which the atm waits sets `done_processing`, the atm
ejects the card and is next blocked in `waiting_for_card`.  Without
`close_queue` the loop of `run` never ends: it is left blocked in a receive,
never in `done_processing`. -/
theorem done_processing_returns_to_start (a : atm) (inbox ms : List Message) (m : Message)
    (h : Handled) :
    a.done_processing inbox
        = ⟨.returned, { a with state := .waiting_for_card }, [(a.to_interface, .eject_card)],
            inbox⟩
      ∧ (∀ p ∈ [(atm_state.process_withdrawal, Message.withdrawal_approved),
            (.process_withdrawal, .withdrawal_denied), (.process_withdrawal, .cancel_pressed),
            (.verifying_pin, .pin_incorrect), (.verifying_pin, .cancel_pressed),
            (.getting_pin, .cancel_pressed), (.wait_for_action, .cancel_pressed),
            (.process_balance, .cancel_pressed)],
          (atm.state_handlers p.1 a p.2).map (fun x => (x.handled, x.self.state))
            = some (true, .done_processing))
      ∧ (a.state ≠ .done_processing → atm.state_handlers a.state a m = some h →
          h.self.state = .done_processing →
          h.handled = true
            ∧ a.resume [m]
              = some ⟨.blocked, { h.self with state := .waiting_for_card },
                  h.sent ++ [(h.self.to_interface, .eject_card),
                    (h.self.to_interface, .display_enter_card)], []⟩)
      ∧ (Message.close_queue ∉ ms →
          ∃ r, a.run ms = some r ∧ r.status = .blocked ∧ r.self.state ≠ .done_processing) := by
  refine ⟨rfl, ?_, ?_, ?_⟩
  · intro p hp
    simp only [List.mem_cons, List.mem_singleton, List.not_mem_nil, or_false] at hp
    rcases hp with rfl | rfl | rfl | rfl | rfl | rfl | rfl | rfl <;> rfl
  · intro hs hh hd
    have ht := state_handlers_done_handled a.state a m hs h hh hd
    have hc : m ≠ .close_queue := by
      intro e
      rw [e, state_handlers_close_queue] at hh
      cases hh
    refine ⟨ht, ?_⟩
    rw [atm_resume_returned a m h hs hc hh ht, atm_run_loop_from_done h.self hd]
    rfl
  · intro hc
    obtain ⟨r, hr⟩ := atm_run_total a ms
    have hb := (atm_run_loop_append_close _ _ ms [] r hc hr).1
    exact ⟨r, hr, hb, atm_run_loop_blocked_state _ _ _ r hr hb⟩

theorem done_processing_returns_to_start_witness :
    (⟨.machine, ⟨some .bank⟩, ⟨some .ui_hardware⟩, .wait_for_action, ['a'], 7,
        ['1', '9', '3', '7']⟩ : atm).resume [.cancel_pressed]
      = some ⟨.blocked,
          ⟨.machine, ⟨some .bank⟩, ⟨some .ui_hardware⟩, .waiting_for_card, ['a'], 7,
            ['1', '9', '3', '7']⟩,
          [(⟨some .ui_hardware⟩, .eject_card), (⟨some .ui_hardware⟩, .display_enter_card)],
          []⟩ :=
  ((done_processing_returns_to_start
    ⟨.machine, ⟨some .bank⟩, ⟨some .ui_hardware⟩, .wait_for_action, ['a'], 7,
      ['1', '9', '3', '7']⟩ [] [] .cancel_pressed
    ⟨true, ⟨.machine, ⟨some .bank⟩, ⟨some .ui_hardware⟩, .done_processing, ['a'], 7,
      ['1', '9', '3', '7']⟩, []⟩).2.2.1 (by decide) rfl rfl).2

/-! ## Senders, the orchestrator and the bank's cancel handler -/

/-- C15 (as stated, refuted). A sender does not become inert when its receiver
is destroyed.  The sender that the receiver `machine` gives out is not the null
sender; on the living queue a send appends the message, and after the receiver
is destroyed the same sender still passes the test `if (q)` and the send is a
`push` on a destroyed queue, which is undefined, not a no-op. -/
theorem send_after_receiver_destroyed :
    (⟨.machine⟩ : receiver).get_sender ≠ ⟨none⟩
      ∧ (⟨.machine⟩ : receiver).get_sender.send_in .cancel_pressed
          ⟨⟨queue.empty, queue.empty, queue.empty⟩, []⟩
        = some ⟨⟨queue.empty, queue.empty, ⟨[.cancel_pressed]⟩⟩, []⟩
      ∧ (⟨.machine⟩ : receiver).get_sender.send_in .cancel_pressed
          ((⟨.machine⟩ : receiver).destroy ⟨⟨queue.empty, queue.empty, queue.empty⟩, []⟩)
        = none
      ∧ (⟨.machine⟩ : receiver).get_sender.send_in .cancel_pressed
          ((⟨.machine⟩ : receiver).destroy ⟨⟨queue.empty, queue.empty, queue.empty⟩, []⟩)
        ≠ some ((⟨.machine⟩ : receiver).destroy
            ⟨⟨queue.empty, queue.empty, queue.empty⟩, []⟩) := by
  decide

/-- C15 (amended). Sending on a sender that refers to no queue is a silent
no-op: `send` returns with every queue exactly as it was, whatever the message
and whichever receivers have been destroyed, and so does any sequence of such
sends.  The sender that a receiver gives out is never such a sender, also after
the receiver is destroyed: while the queue lives a send on it returns with the
message appended to that queue, and once the receiver is destroyed a send on it
is undefined. -/
theorem send_on_inert_sender (msg : Message) (msgs : List Message) (qs : Queues)
    (mem : Objects) (r : receiver) :
    (⟨none⟩ : sender).send msg qs = qs
      ∧ deliver (msgs.map (fun m => ((⟨none⟩ : sender), m))) qs = qs
      ∧ (⟨none⟩ : sender).send_in msg mem = some mem
      ∧ r.get_sender ≠ ⟨none⟩
      ∧ (r.q ∉ mem.destroyed →
          r.get_sender.send_in msg mem
            = some ⟨r.get_sender.send msg mem.queues, mem.destroyed⟩)
      ∧ (r.q ∈ mem.destroyed → r.get_sender.send_in msg mem = none)
      ∧ r.get_sender.send_in msg (r.destroy mem) = none := by
  refine ⟨rfl, ?_, rfl, ?_, ?_, ?_, ?_⟩
  · induction msgs with
    | nil => rfl
    | cons m rest ih =>
      simp only [List.map_cons, deliver, List.foldl_cons] at ih ⊢
      exact ih
  · simp [receiver.get_sender]
  · intro h
    simp [receiver.get_sender, sender.send_in, sender.send, h]
  · intro h
    simp [receiver.get_sender, sender.send_in, h]
  · simp [receiver.get_sender, sender.send_in, receiver.destroy]

theorem main_switch_other (s : sender) (c : Char)
    (h : c ∉ ['0', '1', '2', '3', '4', '5', '6', '7', '8', '9', 'b', 'w', 'c', 'q', 'i']) :
    main_switch s c = ([], false) := by
  simp only [List.mem_cons, List.mem_singleton, List.not_mem_nil, or_false, not_or] at h
  obtain ⟨h0, h1, h2, h3, h4, h5, h6, h7, h8, h9, hb, hw, hc, hq, hi⟩ := h
  unfold main_switch
  split <;> first | rfl | contradiction

/-- C16. The stimulus mapping of the orchestrator is a function of the character
read: a digit `c` posts `digit_pressed(c)`, `b` posts `balance_pressed`, `w`
posts `withdraw_pressed(50)`, `c` posts `cancel_pressed`, `i` posts
`card_inserted("acc1234")`, each as exactly one send on `atm_inbox` with the
loop going on; `q` posts nothing and ends the loop, leaving the rest of the
input unread; any other character posts nothing and the loop goes on.  A send
on `atm_inbox` appends the message to the inbox of the atm and changes no
other queue. -/
theorem main_switch_mapping (atm_inbox : sender) (c : Char) (rest : List Char)
    (msg : Message) (qs : Queues) :
    (c ∈ ['0', '1', '2', '3', '4', '5', '6', '7', '8', '9'] →
        main_switch atm_inbox c = ([(atm_inbox, .digit_pressed c)], false))
      ∧ main_switch atm_inbox 'b' = ([(atm_inbox, .balance_pressed)], false)
      ∧ main_switch atm_inbox 'w' = ([(atm_inbox, .withdraw_pressed 50)], false)
      ∧ main_switch atm_inbox 'c' = ([(atm_inbox, .cancel_pressed)], false)
      ∧ main_switch atm_inbox 'i' = ([(atm_inbox, .card_inserted "acc1234".toList)], false)
      ∧ main_switch atm_inbox 'q' = ([], true)
      ∧ main_loop atm_inbox ('q' :: rest) = ([], true, rest)
      ∧ (c ∉ ['0', '1', '2', '3', '4', '5', '6', '7', '8', '9', 'b', 'w', 'c', 'q', 'i'] →
          main_switch atm_inbox c = ([], false))
      ∧ ((main_switch atm_inbox c).2 = false →
          main_loop atm_inbox (c :: rest)
            = ((main_switch atm_inbox c).1 ++ (main_loop atm_inbox rest).1,
                (main_loop atm_inbox rest).2.1, (main_loop atm_inbox rest).2.2))
      ∧ deliver [((World.start 0).machine.get_sender, msg)] qs
          = { qs with machine := qs.machine.push msg } := by
  refine ⟨?_, rfl, rfl, rfl, rfl, rfl, rfl, main_switch_other atm_inbox c, ?_, rfl⟩
  · intro h
    simp only [List.mem_cons, List.mem_singleton, List.not_mem_nil, or_false] at h
    rcases h with rfl | rfl | rfl | rfl | rfl | rfl | rfl | rfl | rfl | rfl <;> rfl
  · intro h
    rw [main_loop]
    cases hm : main_switch atm_inbox c with
    | mk sent quit =>
      rw [hm] at h
      simp only at h
      subst h
      rfl

theorem main_switch_mapping_witness :
    '5' ∈ ['0', '1', '2', '3', '4', '5', '6', '7', '8', '9']
      ∧ main_switch ⟨some .machine⟩ '5' = ([(⟨some .machine⟩, .digit_pressed '5')], false)
      ∧ '\n' ∉ ['0', '1', '2', '3', '4', '5', '6', '7', '8', '9', 'b', 'w', 'c', 'q', 'i']
      ∧ main_switch ⟨some .machine⟩ '\n' = ([], false) :=
  ⟨by decide,
    (main_switch_mapping ⟨some .machine⟩ '5' [] .close_queue
      ⟨queue.empty, queue.empty, queue.empty⟩).1 (by decide),
    by decide,
    (main_switch_mapping ⟨some .machine⟩ '\n' [] .close_queue
      ⟨queue.empty, queue.empty, queue.empty⟩).2.2.2.2.2.2.2.1 (by decide)⟩

/-- C17 (the code at the failing input). From the balance 199 the bank approves
`withdraw` of 50 and then processes `cancel_withdrawal` for the same account and
amount: the balance is 149, not 199 again, and nothing is sent for the
cancellation. -/
theorem bank_cancel_withdrawal_keeps_deduction :
    ((⟨.bank, 199⟩ : bank_machine).run
        [.withdraw ['a', 'c', 'c'] 50 ⟨some .machine⟩, .cancel_withdrawal ['a', 'c', 'c'] 50])
      = ⟨.blocked, ⟨.bank, 149⟩, [(⟨some .machine⟩, .withdrawal_approved)], []⟩
      ∧ (⟨.bank, 149⟩ : bank_machine).visit (.cancel_withdrawal ['a', 'c', 'c'] 50)
        = some (⟨.bank, 149⟩, []) := by
  decide

/-- The handler of the bank for `cancel_withdrawal` changes nothing, whatever
the balance and the request. -/
theorem bank_cancel_withdrawal_noop (b : bank_machine) (account : List Char) (a : Nat) :
    b.visit (.cancel_withdrawal account a) = some (b, []) := rfl

/-- A thread that is not closed and has a message in its inbox can move: a
thread that cannot move is closed or blocked on its own empty inbox. -/
theorem step_of_enabled (w : World) :
    (w.atm_thread ≠ .closed → w.queues.machine.q ≠ [] → ∃ w1, w.step_of .machine = some w1)
      ∧ (w.bank_thread ≠ .closed → w.queues.bank.q ≠ [] → ∃ w1, w.step_of .bank = some w1)
      ∧ (w.ui_thread ≠ .closed → w.queues.ui_hardware.q ≠ [] →
          ∃ w1, w.step_of .ui_hardware = some w1) := by
  refine ⟨?_, ?_, ?_⟩
  · intro ht hq
    simp only [World.step_of, World.step_machine]
    cases h : w.atm_thread with
    | closed => exact absurd h ht
    | created =>
      obtain ⟨r, hr⟩ := atm_run_total w.machine []
      simp [hr]
    | waiting =>
      cases hm : w.queues.machine.q with
      | nil => exact absurd hm hq
      | cons m tail =>
        obtain ⟨r, hr⟩ := atm_resume_total w.machine [m]
        simp [queue.wait_and_pop, hm, hr]
  · intro ht hq
    simp only [World.step_of, World.step_bank]
    cases h : w.bank_thread with
    | closed => exact absurd h ht
    | created => simp
    | waiting =>
      cases hm : w.queues.bank.q with
      | nil => exact absurd hm hq
      | cons m tail => simp [queue.wait_and_pop, hm]
  · intro ht hq
    simp only [World.step_of, World.step_ui]
    cases h : w.ui_thread with
    | closed => exact absurd h ht
    | created => simp
    | waiting =>
      cases hm : w.queues.ui_hardware.q with
      | nil => exact absurd hm hq
      | cons m tail => simp [queue.wait_and_pop, hm]

/-! ## The lookup table -/

section lookup

variable {Key Value : Type} [DecidableEq Key]

theorem bucket_value_for_nil (key : Key) (d : Value) :
    (⟨[]⟩ : bucket_type Key Value).value_for key d = d := by
  simp [bucket_type.value_for, bucket_type.find_entry_for]

theorem bucket_value_for_cons (k1 : Key) (v1 : Value) (rest : List (Key × Value)) (key : Key)
    (d : Value) :
    (⟨(k1, v1) :: rest⟩ : bucket_type Key Value).value_for key d
      = if k1 = key then v1 else (⟨rest⟩ : bucket_type Key Value).value_for key d := by
  by_cases h : k1 = key <;>
    simp [bucket_type.value_for, bucket_type.find_entry_for, List.findIdx_cons, h]

theorem bucket_add_nil (key : Key) (v : Value) :
    (⟨[]⟩ : bucket_type Key Value).add_or_update_mapping key v = ⟨[(key, v)]⟩ := by
  simp [bucket_type.add_or_update_mapping, bucket_type.find_entry_for]

theorem bucket_add_cons (k1 : Key) (v1 : Value) (rest : List (Key × Value)) (key : Key)
    (v : Value) :
    (⟨(k1, v1) :: rest⟩ : bucket_type Key Value).add_or_update_mapping key v
      = if k1 = key then ⟨(k1, v) :: rest⟩
        else ⟨(k1, v1) :: ((⟨rest⟩ : bucket_type Key Value).add_or_update_mapping key v).data⟩ := by
  by_cases h : k1 = key
  · simp [bucket_type.add_or_update_mapping, bucket_type.find_entry_for, List.findIdx_cons, h]
  · simp only [bucket_type.add_or_update_mapping, bucket_type.find_entry_for,
      List.findIdx_cons, h, decide_False, cond_false, List.getElem?_cons_succ, if_false]
    cases rest[List.findIdx (fun item => decide (item.1 = key)) rest]? <;> simp

theorem bucket_remove_nil (key : Key) :
    (⟨[]⟩ : bucket_type Key Value).remove_mapping key = ⟨[]⟩ := by
  simp [bucket_type.remove_mapping, bucket_type.find_entry_for]

theorem bucket_remove_cons (k1 : Key) (v1 : Value) (rest : List (Key × Value)) (key : Key) :
    (⟨(k1, v1) :: rest⟩ : bucket_type Key Value).remove_mapping key
      = if k1 = key then ⟨rest⟩
        else ⟨(k1, v1) :: ((⟨rest⟩ : bucket_type Key Value).remove_mapping key).data⟩ := by
  by_cases h : k1 = key
  · simp [bucket_type.remove_mapping, bucket_type.find_entry_for, List.findIdx_cons, h]
  · simp only [bucket_type.remove_mapping, bucket_type.find_entry_for,
      List.findIdx_cons, h, decide_False, cond_false, List.getElem?_cons_succ, if_false]
    cases rest[List.findIdx (fun item => decide (item.1 = key)) rest]? <;> simp

/-- In one bucket, the value read for a key after `add_or_update_mapping` for it
is the value written. -/
theorem bucket_value_for_add (data : List (Key × Value)) (key : Key) (v d : Value) :
    ((⟨data⟩ : bucket_type Key Value).add_or_update_mapping key v).value_for key d = v := by
  induction data with
  | nil => rw [bucket_add_nil, bucket_value_for_cons]; simp
  | cons item rest ih =>
    obtain ⟨k1, v1⟩ := item
    rw [bucket_add_cons]
    by_cases h : k1 = key
    · simp only [h, if_true]
      rw [bucket_value_for_cons]; simp
    · simp only [h, if_false]
      rw [bucket_value_for_cons]
      simp only [h, if_false]
      exact ih

theorem bucket_value_for_absent (data : List (Key × Value)) (key : Key) (d : Value)
    (h : key ∉ data.map Prod.fst) : (⟨data⟩ : bucket_type Key Value).value_for key d = d := by
  induction data with
  | nil => exact bucket_value_for_nil key d
  | cons item rest ih =>
    obtain ⟨k1, v1⟩ := item
    simp only [List.map_cons, List.mem_cons, not_or] at h
    rw [bucket_value_for_cons]
    have : ¬ k1 = key := fun e => h.1 e.symm
    simp only [this, if_false]
    exact ih h.2

theorem bucket_add_keys (data : List (Key × Value)) (key : Key) (v : Value) :
    ((⟨data⟩ : bucket_type Key Value).add_or_update_mapping key v).data.map Prod.fst
      = if key ∈ data.map Prod.fst then data.map Prod.fst else data.map Prod.fst ++ [key] := by
  induction data with
  | nil => rw [bucket_add_nil]; simp
  | cons item rest ih =>
    obtain ⟨k1, v1⟩ := item
    rw [bucket_add_cons]
    by_cases h : k1 = key
    · simp [h]
    · have h2 : ¬ key = k1 := fun e => h e.symm
      simp only [h, if_false, List.map_cons, ih, List.mem_cons, h2, false_or]
      split <;> simp

theorem bucket_add_nodup (data : List (Key × Value)) (key : Key) (v : Value)
    (h : (data.map Prod.fst).Nodup) :
    (((⟨data⟩ : bucket_type Key Value).add_or_update_mapping key v).data.map Prod.fst).Nodup := by
  rw [bucket_add_keys]
  split
  · exact h
  · rename_i hk
    rw [List.nodup_append]
    refine ⟨h, List.nodup_singleton key, ?_⟩
    intro x hx hx2
    simp only [List.mem_singleton] at hx2
    subst hx2
    exact hk hx

theorem bucket_remove_keys (data : List (Key × Value)) (key : Key) :
    ((⟨data⟩ : bucket_type Key Value).remove_mapping key).data.map Prod.fst
      = (data.map Prod.fst).erase key := by
  induction data with
  | nil => rw [bucket_remove_nil]; rfl
  | cons item rest ih =>
    obtain ⟨k1, v1⟩ := item
    rw [bucket_remove_cons]
    by_cases h : k1 = key
    · simp [h]
    · simp only [h, if_false, List.map_cons, ih]
      rw [List.erase_cons_tail (by simpa using h)]

/-- In one bucket without a duplicate key, a removed key is absent afterwards,
so that the default is read for it. -/
theorem bucket_value_for_remove (data : List (Key × Value)) (key : Key) (d : Value)
    (h : (data.map Prod.fst).Nodup) :
    ((⟨data⟩ : bucket_type Key Value).remove_mapping key).value_for key d = d := by
  have hk : key ∉ ((⟨data⟩ : bucket_type Key Value).remove_mapping key).data.map Prod.fst := by
    rw [bucket_remove_keys]
    exact h.not_mem_erase
  exact bucket_value_for_absent _ key d hk

end lookup

theorem lookup_get_bucket {Key Value : Type} (t : threadsafe_lookup_table Key Value) (key : Key)
    (h : t.buckets ≠ []) :
    ∃ bucket, t.buckets[t.hasher key % t.buckets.length]? = some bucket
      ∧ t.get_bucket key = some (t.hasher key % t.buckets.length, bucket) := by
  have hl : 0 < t.buckets.length := List.length_pos.mpr h
  have hi : t.hasher key % t.buckets.length < t.buckets.length := Nat.mod_lt _ hl
  refine ⟨t.buckets[t.hasher key % t.buckets.length], List.getElem?_eq_getElem hi, ?_⟩
  unfold threadsafe_lookup_table.get_bucket
  rw [if_neg (by omega), List.getElem?_eq_getElem hi]

theorem lookup_get_bucket_set {Key Value : Type} (t : threadsafe_lookup_table Key Value)
    (key : Key) (h : t.buckets ≠ []) (b1 : bucket_type Key Value) :
    threadsafe_lookup_table.get_bucket
        ⟨t.buckets.set (t.hasher key % t.buckets.length) b1, t.hasher⟩ key
      = some (t.hasher key % t.buckets.length, b1) := by
  have hl : 0 < t.buckets.length := List.length_pos.mpr h
  have hi : t.hasher key % t.buckets.length < t.buckets.length := Nat.mod_lt _ hl
  unfold threadsafe_lookup_table.get_bucket
  simp only [List.length_set]
  rw [if_neg (by omega), List.getElem?_set_self hi]

section lookup_table

variable {Key Value : Type} [DecidableEq Key]

/-- C19. For every table with at least one bucket, key `k`, value `v` and default
`d`: `add_or_update_mapping(k, v)` is defined and leaves a table, with the same
buckets count and hash function, in which `value_for(k, d)` returns `v`,
whatever the bucket of `k` held before, `k` absent or present. -/
theorem lookup_add_then_value_for (t : threadsafe_lookup_table Key Value) (k : Key)
    (v d : Value) (h : t.buckets ≠ []) :
    ∃ t1, t.add_or_update_mapping k v = some t1
      ∧ t1.value_for k d = some v
      ∧ t1.buckets.length = t.buckets.length ∧ t1.hasher = t.hasher := by
  obtain ⟨bucket, -, hg⟩ := lookup_get_bucket t k h
  refine ⟨⟨t.buckets.set (t.hasher k % t.buckets.length) (bucket.add_or_update_mapping k v),
    t.hasher⟩, ?_, ?_, by simp, rfl⟩
  · simp [threadsafe_lookup_table.add_or_update_mapping, hg]
  · unfold threadsafe_lookup_table.value_for
    rw [lookup_get_bucket_set t k h]
    simp only [Option.some.injEq]
    exact bucket_value_for_add bucket.data k v d

theorem lookup_add_keeps_nodup (t t1 : threadsafe_lookup_table Key Value) (k : Key) (v : Value)
    (hn : ∀ b ∈ t.buckets, (b.data.map Prod.fst).Nodup)
    (h : t.add_or_update_mapping k v = some t1) :
    t1.buckets.length = t.buckets.length ∧ t1.hasher = t.hasher
      ∧ ∀ b ∈ t1.buckets, (b.data.map Prod.fst).Nodup := by
  unfold threadsafe_lookup_table.add_or_update_mapping at h
  cases hg : t.get_bucket k with
  | none => simp [hg] at h
  | some p =>
    obtain ⟨i, bucket⟩ := p
    simp only [hg, Option.some.injEq] at h
    subst h
    refine ⟨by simp, rfl, ?_⟩
    intro b hb
    rcases List.mem_or_eq_of_mem_set hb with hb | rfl
    · exact hn b hb
    · have hmem : bucket ∈ t.buckets := by
        unfold threadsafe_lookup_table.get_bucket at hg
        split at hg
        · cases hg
        · cases hq : t.buckets[t.hasher k % t.buckets.length]? with
          | none => simp [hq] at hg
          | some b0 =>
            simp only [hq, Option.some.injEq, Prod.mk.injEq] at hg
            rw [← hg.2]
            exact List.getElem?_mem hq
      exact bucket_add_nodup bucket.data k v (hn bucket hmem)

theorem lookup_remove_keeps_nodup (t t1 : threadsafe_lookup_table Key Value) (k : Key)
    (hn : ∀ b ∈ t.buckets, (b.data.map Prod.fst).Nodup)
    (h : t.remove_mapping k = some t1) :
    t1.buckets.length = t.buckets.length ∧ t1.hasher = t.hasher
      ∧ ∀ b ∈ t1.buckets, (b.data.map Prod.fst).Nodup := by
  unfold threadsafe_lookup_table.remove_mapping at h
  cases hg : t.get_bucket k with
  | none => simp [hg] at h
  | some p =>
    obtain ⟨i, bucket⟩ := p
    simp only [hg, Option.some.injEq] at h
    subst h
    refine ⟨by simp, rfl, ?_⟩
    intro b hb
    rcases List.mem_or_eq_of_mem_set hb with hb | rfl
    · exact hn b hb
    · have hmem : bucket ∈ t.buckets := by
        unfold threadsafe_lookup_table.get_bucket at hg
        split at hg
        · cases hg
        · cases hq : t.buckets[t.hasher k % t.buckets.length]? with
          | none => simp [hq] at hg
          | some b0 =>
            simp only [hq, Option.some.injEq, Prod.mk.injEq] at hg
            rw [← hg.2]
            exact List.getElem?_mem hq
      rw [bucket_remove_keys]
      exact (hn bucket hmem).erase k

/-- Every sequence of calls on a table with at least one bucket and no duplicate
key in a bucket is defined and leaves such a table. -/
theorem lookup_calls_keep_nodup (cs : List (table_call Key Value))
    (t : threadsafe_lookup_table Key Value) (h : t.buckets ≠ [])
    (hn : ∀ b ∈ t.buckets, (b.data.map Prod.fst).Nodup) :
    ∃ t1, t.calls cs = some t1 ∧ t1.buckets ≠ []
      ∧ ∀ b ∈ t1.buckets, (b.data.map Prod.fst).Nodup := by
  induction cs generalizing t with
  | nil => exact ⟨t, rfl, h, hn⟩
  | cons c rest ih =>
    cases c with
    | add_or_update_mapping k v =>
      obtain ⟨t1, h1, -, hl, -⟩ := lookup_add_then_value_for t k v v h
      obtain ⟨-, -, hn1⟩ := lookup_add_keeps_nodup t t1 k v hn h1
      have hne : t1.buckets ≠ [] := by
        intro e; rw [e] at hl; exact h (List.length_eq_zero.mp hl.symm)
      obtain ⟨t2, h2, h3, h4⟩ := ih t1 hne hn1
      exact ⟨t2, by simp [threadsafe_lookup_table.calls, h1, h2], h3, h4⟩
    | remove_mapping k =>
      obtain ⟨bucket, -, hg⟩ := lookup_get_bucket t k h
      have h1 : t.remove_mapping k = some ⟨t.buckets.set (t.hasher k % t.buckets.length)
          (bucket.remove_mapping k), t.hasher⟩ := by
        simp [threadsafe_lookup_table.remove_mapping, hg]
      obtain ⟨hl, -, hn1⟩ := lookup_remove_keeps_nodup t _ k hn h1
      have hne : t.buckets.set (t.hasher k % t.buckets.length) (bucket.remove_mapping k)
          ≠ [] := by
        intro e; rw [e] at hl; exact h (List.length_eq_zero.mp hl.symm)
      obtain ⟨t2, h2, h3, h4⟩ := ih _ hne hn1
      exact ⟨t2, by simp [threadsafe_lookup_table.calls, h1, h2], h3, h4⟩

/-- C20. For every table reached from a new table (with at least one bucket) by
any sequence of `add_or_update_mapping` and `remove_mapping` calls, and every
key `k` and default `d`: `remove_mapping(k)` is defined and leaves a table in
which `value_for(k, d)` returns `d`.  No bucket of a reached table holds a key
twice, so no second entry for `k` is left behind. -/
theorem lookup_remove_then_value_for (num_buckets : Nat) (hasher : Key → Nat)
    (cs : List (table_call Key Value)) (k : Key) (d : Value) (h : 0 < num_buckets) :
    ∃ t t1, (threadsafe_lookup_table.new num_buckets hasher).calls cs = some t
      ∧ (∀ b ∈ t.buckets, (b.data.map Prod.fst).Nodup)
      ∧ t.remove_mapping k = some t1
      ∧ t1.value_for k d = some d := by
  have h0 : (threadsafe_lookup_table.new num_buckets hasher :
      threadsafe_lookup_table Key Value).buckets ≠ [] := by
    simp only [threadsafe_lookup_table.new]
    intro e
    have := congrArg List.length e
    simp at this
    omega
  have hn0 : ∀ b ∈ (threadsafe_lookup_table.new num_buckets hasher :
      threadsafe_lookup_table Key Value).buckets, (b.data.map Prod.fst).Nodup := by
    intro b hb
    simp only [threadsafe_lookup_table.new] at hb
    rw [List.eq_of_mem_replicate hb]
    exact List.nodup_nil
  obtain ⟨t, ht, hne, hn⟩ := lookup_calls_keep_nodup cs _ h0 hn0
  obtain ⟨bucket, hb, hg⟩ := lookup_get_bucket t k hne
  refine ⟨t, _, ht, hn, by simp [threadsafe_lookup_table.remove_mapping, hg]; rfl, ?_⟩
  unfold threadsafe_lookup_table.value_for
  rw [lookup_get_bucket_set t k hne]
  simp only [Option.some.injEq]
  exact bucket_value_for_remove bucket.data k d (hn bucket (List.getElem?_mem hb))

end lookup_table

theorem lookup_add_then_value_for_witness :
    (threadsafe_lookup_table.new 19 Int.toNat : threadsafe_lookup_table Int String).buckets ≠ []
      ∧ ∃ t1, (threadsafe_lookup_table.new 19 Int.toNat :
            threadsafe_lookup_table Int String).add_or_update_mapping 50 "Value 50" = some t1
        ∧ t1.value_for 50 "default" = some "Value 50"
        ∧ t1.buckets.length
            = (threadsafe_lookup_table.new 19 Int.toNat :
                threadsafe_lookup_table Int String).buckets.length
        ∧ t1.hasher
            = (threadsafe_lookup_table.new 19 Int.toNat :
                threadsafe_lookup_table Int String).hasher :=
  ⟨by simp [threadsafe_lookup_table.new],
    lookup_add_then_value_for _ 50 "Value 50" "default" (by simp [threadsafe_lookup_table.new])⟩

theorem lookup_remove_then_value_for_witness :
    0 < 19
      ∧ ∃ t t1, (threadsafe_lookup_table.new 19 Int.toNat :
            threadsafe_lookup_table Int String).calls
              [.add_or_update_mapping 50 "Value 50", .add_or_update_mapping 150 "Value 150"]
            = some t
        ∧ (∀ b ∈ t.buckets, (b.data.map Prod.fst).Nodup)
        ∧ t.remove_mapping 50 = some t1
        ∧ t1.value_for 50 "default" = some "default" :=
  ⟨by decide, lookup_remove_then_value_for 19 Int.toNat
    [.add_or_update_mapping 50 "Value 50", .add_or_update_mapping 150 "Value 150"] 50 "default"
    (by decide)⟩

/-! ## A cancelled withdrawal in the whole system -/

/-- The input of C17 is one the bank really receives.  The atm shows the menu
and the user presses withdraw and then cancel before the atm has moved: the
atm asks the bank for 50, cancels, and the late `withdrawal_approved` is
discarded in `waiting_for_card`.  The bank has approved and deducted, no money
is issued, and the balance stays at 149. -/
theorem cancel_after_withdraw_loses_funds :
    World.quiesce 16
        { World.idle .wait_for_action ['a'] 0 ['1', '9', '3', '7'] 199 [] [] with
          queues := ⟨queue.empty, queue.empty, ⟨[.withdraw_pressed 50, .cancel_pressed]⟩⟩ }
      = some (World.idle .waiting_for_card ['a'] 50 ['1', '9', '3', '7'] 149
          [("Screen: Transaction Cancelled", []), ("Hardware: Ejecting card", []),
            ("Screen: Please enter your card (Press I)", [])]
          [.display_withdrawal_cancelled, .eject_card, .display_enter_card]) := by
  decide

/-! ## The stack -/

/-- C21. Both pop overloads of `threadsafe_stack` throw `empty_stack` if and only
if the stack is empty.  When they throw, the stack is left as it was, empty,
and `pop(value)` leaves the referenced variable as it was; when they do not,
they give the top value and leave the rest. -/
theorem stack_pop_throws_iff_empty {T : Type} (s : threadsafe_stack T) (value : T) :
    ((∃ e, (s.pop).1 = .error e) ↔ s.empty = true)
      ∧ ((∃ e, (s.pop_into value).1 = .error e) ↔ s.empty = true)
      ∧ (s.empty = true →
          (s.pop).2 = s ∧ (s.pop).2.data = [] ∧ (s.pop_into value).2 = (value, s))
      ∧ (s.empty = false →
          ∃ top rest, s.data = top :: rest ∧ s.pop = (.ok top, ⟨rest⟩)
            ∧ s.pop_into value = (.ok (), top, ⟨rest⟩)) := by
  obtain ⟨data⟩ := s
  cases data with
  | nil =>
    exact ⟨⟨fun _ => rfl, fun _ => ⟨⟨⟩, rfl⟩⟩, ⟨fun _ => rfl, fun _ => ⟨⟨⟩, rfl⟩⟩,
      fun _ => ⟨rfl, rfl, rfl⟩, fun h => by simp [threadsafe_stack.empty] at h⟩
  | cons top rest =>
    simp [threadsafe_stack.pop, threadsafe_stack.pop_into, threadsafe_stack.empty]

theorem stack_pop_throws_iff_empty_witness :
    (⟨[]⟩ : threadsafe_stack Int).empty = true
      ∧ (⟨[]⟩ : threadsafe_stack Int).pop_into 7 = (.error ⟨⟩, 7, ⟨[]⟩)
      ∧ (⟨[3, 4]⟩ : threadsafe_stack Int).empty = false
      ∧ (⟨[3, 4]⟩ : threadsafe_stack Int).pop_into 7 = (.ok (), 3, ⟨[4]⟩) :=
  ⟨rfl,
    by
      have h := ((stack_pop_throws_iff_empty (⟨[]⟩ : threadsafe_stack Int) 7).2.2.1 rfl).2.2
      exact Prod.ext rfl h,
    rfl,
    by
      obtain ⟨top, rest, h1, -, h3⟩ :=
        (stack_pop_throws_iff_empty (⟨[3, 4]⟩ : threadsafe_stack Int) 7).2.2.2 rfl
      simp only [List.cons.injEq] at h1
      obtain ⟨rfl, rfl⟩ := h1
      exact h3⟩

theorem stack_calls_count {T : Type} (cs : List (stack_call T)) (s : threadsafe_stack T) :
    (s.calls cs).1.data.length + (s.calls cs).2.2 = s.data.length + (s.calls cs).2.1 := by
  induction cs generalizing s with
  | nil => simp [threadsafe_stack.calls]
  | cons c rest ih =>
    obtain ⟨data⟩ := s
    cases c with
    | push v =>
      have := ih (threadsafe_stack.push ⟨data⟩ v)
      rcases hc : (threadsafe_stack.push ⟨data⟩ v).calls rest with ⟨s1, pushed, popped⟩
      rw [hc] at this
      simp only [threadsafe_stack.calls, hc]
      simp only [threadsafe_stack.push, List.length_cons] at this ⊢
      omega
    | pop =>
      cases data with
      | nil =>
        have := ih ⟨[]⟩
        simpa [threadsafe_stack.calls, threadsafe_stack.pop] using this
      | cons top tl =>
        have := ih ⟨tl⟩
        rcases hc : (⟨tl⟩ : threadsafe_stack T).calls rest with ⟨s1, pushed, popped⟩
        rw [hc] at this
        simp only [threadsafe_stack.calls, threadsafe_stack.pop, hc, List.length_cons] at this ⊢
        omega
    | pop_into value =>
      cases data with
      | nil =>
        have := ih ⟨[]⟩
        simpa [threadsafe_stack.calls, threadsafe_stack.pop_into] using this
      | cons top tl =>
        have := ih ⟨tl⟩
        rcases hc : (⟨tl⟩ : threadsafe_stack T).calls rest with ⟨s1, pushed, popped⟩
        rw [hc] at this
        simp only [threadsafe_stack.calls, threadsafe_stack.pop_into, hc, List.length_cons]
          at this ⊢
        omega

/-- C22. For every stack `s` and value `v`, `push(v)` followed by either pop gives
`v` and leaves the stack equal to `s`.  For every sequence of calls on a new,
empty stack, the number of values left is the number of pushes less the number
of pops that did not throw; so when these two numbers are equal `empty()`
returns true. -/
theorem stack_push_pop {T : Type} (s : threadsafe_stack T) (v value : T)
    (cs : List (stack_call T)) :
    (s.push v).pop = (.ok v, s)
      ∧ (s.push v).pop_into value = (.ok (), v, s)
      ∧ ((⟨[]⟩ : threadsafe_stack T).calls cs).1.data.length
          + ((⟨[]⟩ : threadsafe_stack T).calls cs).2.2
        = ((⟨[]⟩ : threadsafe_stack T).calls cs).2.1
      ∧ (((⟨[]⟩ : threadsafe_stack T).calls cs).2.1 = ((⟨[]⟩ : threadsafe_stack T).calls cs).2.2 →
          ((⟨[]⟩ : threadsafe_stack T).calls cs).1.empty = true) := by
  have h := stack_calls_count cs (⟨[]⟩ : threadsafe_stack T)
  simp only [List.length_nil, Nat.zero_add] at h
  refine ⟨rfl, rfl, h, ?_⟩
  intro e
  have hl : ((⟨[]⟩ : threadsafe_stack T).calls cs).1.data.length = 0 := by omega
  simp [threadsafe_stack.empty, List.length_eq_zero.mp hl]

theorem stack_push_pop_witness :
    ((⟨[]⟩ : threadsafe_stack Int).calls [.push 1, .pop, .pop, .push 2, .pop_into 0]).2.1
        = ((⟨[]⟩ : threadsafe_stack Int).calls [.push 1, .pop, .pop, .push 2, .pop_into 0]).2.2
      ∧ ((⟨[]⟩ : threadsafe_stack Int).calls
          [.push 1, .pop, .pop, .push 2, .pop_into 0]).1.empty = true :=
  ⟨rfl, (stack_push_pop (⟨[]⟩ : threadsafe_stack Int) 0 0
    [.push 1, .pop, .pop, .push 2, .pop_into 0]).2.2.2 rfl⟩

/-! ## The linked-list queue -/

theorem set_last_take {α : Type} (l : List α) (x y : α) :
    ((l ++ [x]).set l.length y).take (l.length + 1) = l ++ [y] := by
  induction l with
  | nil => simp
  | cons a rest ih => simp

theorem queue_new_holds {T : Type} : (threadsafe_queue.new : threadsafe_queue T).holds [] := by
  simp [threadsafe_queue.new, threadsafe_queue.holds]

theorem queue_push_holds {T : Type} (q : threadsafe_queue T) (pending : List T) (v : T)
    (h : q.holds pending) : (q.push v).holds (pending ++ [v]) := by
  obtain ⟨nodes, tail⟩ := q
  obtain ⟨h1, h2⟩ := h
  simp only at h1 h2
  subst h1 h2
  have e := set_last_take (pending.map (fun v => (⟨some v⟩ : queue_node T))) ⟨none⟩ ⟨some v⟩
  simp only [List.length_map] at e
  simp only [threadsafe_queue.push, threadsafe_queue.holds]
  rw [e]
  simp

theorem queue_try_pop_empty {T : Type} (q : threadsafe_queue T) (h : q.holds []) :
    q.try_pop = (none, q) := by
  obtain ⟨h1, h2⟩ := h
  simp only [List.length_nil] at h2
  simp [threadsafe_queue.try_pop, h2]

theorem queue_try_pop_holds {T : Type} (q : threadsafe_queue T) (x : T) (pending : List T)
    (h : q.holds (x :: pending)) :
    (q.try_pop).1 = some x ∧ (q.try_pop).2.holds pending := by
  obtain ⟨nodes, tail⟩ := q
  obtain ⟨h1, h2⟩ := h
  simp only at h1 h2
  subst h1 h2
  simp [threadsafe_queue.try_pop, threadsafe_queue.holds]

theorem queue_push_all_holds {T : Type} (xs : List T) (q : threadsafe_queue T)
    (pending : List T) (h : q.holds pending) : (q.push_all xs).holds (pending ++ xs) := by
  induction xs generalizing q pending with
  | nil => simpa [threadsafe_queue.push_all] using h
  | cons x rest ih =>
    have := ih (q.push x) (pending ++ [x]) (queue_push_holds q pending x h)
    simpa [threadsafe_queue.push_all] using this

theorem queue_try_pop_n_holds {T : Type} (xs : List T) (q : threadsafe_queue T)
    (h : q.holds xs) :
    (q.try_pop_n (xs.length + 1)).1 = xs.map some ++ [none]
      ∧ (q.try_pop_n (xs.length + 1)).2.holds [] := by
  induction xs generalizing q with
  | nil =>
    simp [threadsafe_queue.try_pop_n, queue_try_pop_empty q h]
    exact h
  | cons x rest ih =>
    obtain ⟨h1, h2⟩ := queue_try_pop_holds q x rest h
    obtain ⟨e1, e2⟩ := ih (q.try_pop).2 h2
    rw [List.length_cons, threadsafe_queue.try_pop_n]
    rcases hc : threadsafe_queue.try_pop_n (rest.length + 1) (q.try_pop).2 with ⟨out, q1⟩
    rw [hc] at e1 e2
    simp only at e1 e2 ⊢
    subst e1
    exact ⟨by simp [h1], e2⟩

theorem queue_calls_holds {T : Type} (cs : List (queue_call T)) (q : threadsafe_queue T)
    (pending : List T) (h : q.holds pending) :
    ∃ left, (q.calls cs).1.holds left
      ∧ left.length + (q.calls cs).2.2 = pending.length + (q.calls cs).2.1 := by
  induction cs generalizing q pending with
  | nil => exact ⟨pending, by simpa [threadsafe_queue.calls] using h, by simp [threadsafe_queue.calls]⟩
  | cons c rest ih =>
    cases c with
    | push v =>
      obtain ⟨left, e1, e2⟩ := ih (q.push v) (pending ++ [v]) (queue_push_holds q pending v h)
      rcases hc : (q.push v).calls rest with ⟨q1, pushed, popped⟩
      rw [hc] at e1 e2
      simp only [threadsafe_queue.calls, hc]
      simp only [List.length_append, List.length_singleton] at e2 ⊢
      exact ⟨left, e1, by omega⟩
    | try_pop =>
      cases pending with
      | nil =>
        have hp := queue_try_pop_empty q h
        obtain ⟨left, e1, e2⟩ := ih q [] h
        rcases hc : q.calls rest with ⟨q1, pushed, popped⟩
        rw [hc] at e1 e2
        simp only [threadsafe_queue.calls, hp, hc]
        exact ⟨left, e1, by simpa using e2⟩
      | cons x tl =>
        obtain ⟨h1, h2⟩ := queue_try_pop_holds q x tl h
        obtain ⟨left, e1, e2⟩ := ih (q.try_pop).2 tl h2
        rcases hc : (q.try_pop).2.calls rest with ⟨q1, pushed, popped⟩
        rw [hc] at e1 e2
        simp only [threadsafe_queue.calls, hc, h1]
        simp only [List.length_cons] at e2 ⊢
        exact ⟨left, e1, by simp; omega⟩

/-- C23. For every list `xs`: after the elements of `xs` are pushed in order
onto a new queue, `|xs| + 1` calls of `try_pop` return the elements of `xs` in
the same order, each once, and then a null pointer.  After any sequence of
`push` and `try_pop` calls on a new queue, the pops that returned a value are
at most as many as the pushes, and the next `try_pop` returns null if and only
if they are as many. -/
theorem queue_try_pop_order {T : Type} (xs : List T) (cs : List (queue_call T)) :
    (((threadsafe_queue.new : threadsafe_queue T).push_all xs).try_pop_n (xs.length + 1)).1
        = xs.map some ++ [none]
      ∧ ((threadsafe_queue.new : threadsafe_queue T).calls cs).2.2
          ≤ ((threadsafe_queue.new : threadsafe_queue T).calls cs).2.1
      ∧ ((((threadsafe_queue.new : threadsafe_queue T).calls cs).1.try_pop).1 = none
          ↔ ((threadsafe_queue.new : threadsafe_queue T).calls cs).2.2
            = ((threadsafe_queue.new : threadsafe_queue T).calls cs).2.1) := by
  refine ⟨?_, ?_, ?_⟩
  · have h := queue_push_all_holds xs _ [] (queue_new_holds (T := T))
    simp only [List.nil_append] at h
    exact (queue_try_pop_n_holds xs _ h).1
  · obtain ⟨left, -, e2⟩ := queue_calls_holds cs _ [] (queue_new_holds (T := T))
    simp only [List.length_nil] at e2
    omega
  · obtain ⟨left, e1, e2⟩ := queue_calls_holds cs _ [] (queue_new_holds (T := T))
    simp only [List.length_nil] at e2
    cases left with
    | nil =>
      rw [queue_try_pop_empty _ e1]
      simp only [List.length_nil] at e2
      constructor
      · intro _; omega
      · intro _; rfl
    | cons x tl =>
      rw [(queue_try_pop_holds _ x tl e1).1]
      simp only [List.length_cons] at e2
      constructor
      · intro hn; cases hn
      · intro he; omega

/-! ## The list -/

theorem remove_if_loop_eq_filter {T : Type} (p : T → Bool) (xs : List T) :
    threadsafe_list.remove_if_loop p xs = xs.filter (fun x => !p x) := by
  induction xs with
  | nil => rfl
  | cons x rest ih =>
    by_cases h : p x = true
    · simp [threadsafe_list.remove_if_loop, h, ih]
    · simp [threadsafe_list.remove_if_loop, h, ih]

theorem for_each_loop_count {T : Type} (xs : List T) (n : Nat) :
    threadsafe_list.for_each_loop (fun (val : T) (count : Nat) => (val, count + 1)) xs n
      = (xs, n + xs.length) := by
  induction xs generalizing n with
  | nil => rfl
  | cons x rest ih =>
    simp only [threadsafe_list.for_each_loop, ih, List.length_cons]
    congr 1
    omega

theorem data_printer_eq_length (l : threadsafe_list Int) : data_printer l = l.nodes.length := by
  simp [data_printer, threadsafe_list.for_each, for_each_loop_count]

/-- C24. For every contents `xs` (head first) and predicate `p`, the list after
`remove_if(p)` holds exactly the elements of `xs` that do not satisfy `p`, in
their order in `xs`: none of them satisfies `p`, and a counting `for_each`
visits as many elements as `xs` has that do not satisfy `p`, leaving the list
as it is.  When `xs` is any arrangement of the values pushed by two
`data_producer` runs, `data_cleaner` leaves 100 elements, which is at most
100. -/
theorem remove_if_keeps_the_others {T : Type} (xs : List T) (p : T → Bool) (ys : List Int) :
    ((⟨xs⟩ : threadsafe_list T).remove_if p).nodes = xs.filter (fun x => !p x)
      ∧ (∀ x ∈ ((⟨xs⟩ : threadsafe_list T).remove_if p).nodes, p x = false)
      ∧ ((⟨xs⟩ : threadsafe_list T).remove_if p).for_each
          (fun (val : T) (count : Nat) => (val, count + 1)) 0
        = ((⟨xs⟩ : threadsafe_list T).remove_if p, (xs.filter (fun x => !p x)).length)
      ∧ (ys.Perm (data_producer (data_producer ⟨[]⟩)).nodes →
          data_printer (data_cleaner ⟨ys⟩) = 100 ∧ data_printer (data_cleaner ⟨ys⟩) ≤ 100) := by
  have e : ((⟨xs⟩ : threadsafe_list T).remove_if p).nodes = xs.filter (fun x => !p x) :=
    remove_if_loop_eq_filter p xs
  refine ⟨e, ?_, ?_, ?_⟩
  · intro x hx
    rw [e] at hx
    simpa using (List.mem_filter.mp hx).2
  · simp only [threadsafe_list.for_each, for_each_loop_count, e]
    simp [threadsafe_list.remove_if, remove_if_loop_eq_filter]
  · intro hp
    have h1 : data_printer (data_cleaner ⟨ys⟩)
        = (ys.filter (fun val => !(Int.tmod val 2 == 0))).length := by
      rw [data_printer_eq_length]
      simp only [data_cleaner, threadsafe_list.remove_if, remove_if_loop_eq_filter]
    have h2 := (hp.filter (fun val => !(Int.tmod val 2 == 0))).length_eq
    have h3 : ((data_producer (data_producer ⟨[]⟩)).nodes.filter
        (fun val => !(Int.tmod val 2 == 0))).length = 100 := by
      decide
    rw [h1, h2, h3]
    exact ⟨rfl, le_refl _⟩

theorem remove_if_keeps_the_others_witness :
    (data_producer (data_producer ⟨[]⟩)).nodes.Perm (data_producer (data_producer ⟨[]⟩)).nodes
      ∧ data_printer (data_cleaner ⟨(data_producer (data_producer ⟨[]⟩)).nodes⟩) = 100
      ∧ data_printer (data_cleaner ⟨(data_producer (data_producer ⟨[]⟩)).nodes⟩) ≤ 100 :=
  ⟨List.Perm.refl _,
    (remove_if_keeps_the_others ([] : List Int) (fun _ => true)
      (data_producer (data_producer ⟨[]⟩)).nodes).2.2.2 (List.Perm.refl _)⟩

/-! ## Money issued and money deducted -/

theorem world_discard (s : atm_state) (acc pin : List Char) (amt b : Nat)
    (out : List Println) (recv : List Message) (m : Message)
    (hs : s ≠ .done_processing) (hc : m ≠ .close_queue) (hd : m.index ∉ atm.declared s) :
    (World.idle s acc amt pin b out recv).stimulus m
      = some (World.idle s acc amt pin b out recv) := by
  have hr := (undeclared_message_discarded
    ⟨.machine, ⟨some .bank⟩, ⟨some .ui_hardware⟩, s, acc, amt, pin⟩ m [] hs hc hd).1
  simp [World.idle, World.stimulus, World.quiesce, World.step, World.step_machine,
    World.step_bank, World.step_ui, World.after_machine, Status.thread, hr, messaging.deliver,
    messaging.sender.send, messaging.Queues.get, messaging.Queues.set, messaging.queue.push,
    messaging.queue.wait_and_pop, messaging.queue.empty, atm.get_sender]

theorem world_last_digit_incorrect (acc pin : List Char) (d : Char) (amt b : Nat)
    (out : List Println) (recv : List Message) (hl : pin.length + 1 = 4)
    (h : pin ++ [d] ≠ ['1', '9', '3', '7']) :
    (World.idle .getting_pin acc amt pin b out recv).stimulus (.digit_pressed d)
      = some (World.idle .waiting_for_card acc amt (pin ++ [d]) b
          (out ++ [("Screen: PIN Incorrect", []), ("Hardware: Ejecting card", []),
            ("Screen: Please enter your card (Press I)", [])])
          (recv ++ [.display_pin_incorrect_message, .eject_card, .display_enter_card])) := by
  simp [World.idle, World.stimulus, World.quiesce, World.step, World.step_machine,
    World.step_bank, World.step_ui, World.after_machine, Status.thread, atm.resume,
    atm.resume_loop, atm.run_loop, atm.invoke, atm.state_handlers, atm.process_messages,
    atm.getting_pin_handlers, atm.verifying_pin, atm.verifying_pin_handlers,
    atm.done_processing, atm.waiting_for_card, Outcome.after, Run.after,
    messaging.deliver, messaging.sender.send, messaging.Queues.get, messaging.Queues.set,
    messaging.queue.push, messaging.queue.wait_and_pop, messaging.queue.empty, atm.get_sender,
    bank_machine.run, bank_machine.visit, interface_machine.run, interface_machine.visit, h, hl]

theorem world_clear_last_pressed (acc pin : List Char) (amt b : Nat)
    (out : List Println) (recv : List Message) :
    (World.idle .getting_pin acc amt pin b out recv).stimulus .clear_last_pressed
      = some (World.idle .getting_pin acc amt (if pin ≠ [] then pin.dropLast else pin) b
          out recv) := by
  simp [World.idle, World.stimulus, World.quiesce, World.step, World.step_machine,
    World.step_bank, World.step_ui, World.after_machine, Status.thread, atm.resume,
    atm.resume_loop, atm.state_handlers, atm.process_messages, atm.getting_pin_handlers,
    Outcome.after, messaging.deliver, messaging.sender.send, messaging.Queues.get,
    messaging.Queues.set, messaging.queue.push, messaging.queue.wait_and_pop,
    messaging.queue.empty, atm.get_sender]

theorem world_cancel_pressed (s : atm_state) (acc pin : List Char) (amt b : Nat)
    (out : List Println) (recv : List Message)
    (hs : s = .getting_pin ∨ s = .wait_for_action) :
    (World.idle s acc amt pin b out recv).stimulus .cancel_pressed
      = some (World.idle .waiting_for_card acc amt pin b
          (out ++ [("Hardware: Ejecting card", []),
            ("Screen: Please enter your card (Press I)", [])])
          (recv ++ [.eject_card, .display_enter_card])) := by
  rcases hs with rfl | rfl <;>
  simp [World.idle, World.stimulus, World.quiesce, World.step, World.step_machine,
    World.step_bank, World.step_ui, World.after_machine, Status.thread, atm.resume,
    atm.resume_loop, atm.run_loop, atm.invoke, atm.state_handlers, atm.process_messages,
    atm.getting_pin_handlers, atm.wait_for_action_handlers,
    atm.done_processing, atm.waiting_for_card, Outcome.after, Run.after,
    messaging.deliver, messaging.sender.send, messaging.Queues.get, messaging.Queues.set,
    messaging.queue.push, messaging.queue.wait_and_pop, messaging.queue.empty, atm.get_sender,
    interface_machine.run, interface_machine.visit]

theorem world_balance_pressed (acc pin : List Char) (amt b : Nat)
    (out : List Println) (recv : List Message) :
    (World.idle .wait_for_action acc amt pin b out recv).stimulus .balance_pressed
      = some (World.idle .wait_for_action acc amt pin b
          (out ++ [("Screen: Balance is \x7b\x7d", [b]),
            ("Screen: Withdraw 50 (w) | Balance (b) | Cancel (c)", [])])
          (recv ++ [.display_balance b, .display_withdrawal_options])) := by
  simp [World.idle, World.stimulus, World.quiesce, World.step, World.step_machine,
    World.step_bank, World.step_ui, World.after_machine, Status.thread, atm.resume,
    atm.resume_loop, atm.run_loop, atm.invoke, atm.state_handlers, atm.process_messages,
    atm.wait_for_action_handlers, atm.process_balance, atm.process_balance_handlers,
    atm.wait_for_action, Outcome.after, Run.after,
    messaging.deliver, messaging.sender.send, messaging.Queues.get, messaging.Queues.set,
    messaging.queue.push, messaging.queue.wait_and_pop, messaging.queue.empty, atm.get_sender,
    bank_machine.run, bank_machine.visit, interface_machine.run, interface_machine.visit]

theorem issued_append (l1 l2 : List Message) : issued (l1 ++ l2) = issued l1 + issued l2 := by
  simp [issued]

/-- A stimulus from card reader or keypad takes a system at rest, with the atm
waiting for a card, a pin digit or a menu choice, to such a system again; the
balance does not grow, and the money issued plus the balance stays the same. -/
theorem world_stimulus_settled (s : atm_state) (acc pin : List Char) (amt b : Nat)
    (out : List Println) (recv : List Message) (m : Message)
    (hs : s = .waiting_for_card ∨ s = .getting_pin ∨ s = .wait_for_action)
    (hb : b < 4294967296) (hm : m.interface_event = true) :
    ∃ s1 acc1 amt1 pin1 b1 out1 recv1,
      (World.idle s acc amt pin b out recv).stimulus m
        = some (World.idle s1 acc1 amt1 pin1 b1 out1 recv1)
      ∧ (s1 = .waiting_for_card ∨ s1 = .getting_pin ∨ s1 = .wait_for_action)
      ∧ b1 ≤ b ∧ issued recv1 + b1 = issued recv + b := by
  have hdisc : ∀ s0, s0 ≠ atm_state.done_processing → m.index ∉ atm.declared s0 →
      (s0 = .waiting_for_card ∨ s0 = .getting_pin ∨ s0 = .wait_for_action) →
      ∃ s1 acc1 amt1 pin1 b1 out1 recv1,
        (World.idle s0 acc amt pin b out recv).stimulus m
          = some (World.idle s1 acc1 amt1 pin1 b1 out1 recv1)
        ∧ (s1 = .waiting_for_card ∨ s1 = .getting_pin ∨ s1 = .wait_for_action)
        ∧ b1 ≤ b ∧ issued recv1 + b1 = issued recv + b := by
    intro s0 h0 hd h1
    have hc : m ≠ .close_queue := by
      intro e; rw [e] at hm; cases hm
    exact ⟨_, _, _, _, _, _, _, world_discard s0 acc pin amt b out recv m h0 hc hd, h1,
      le_refl _, rfl⟩
  rcases hs with rfl | rfl | rfl
  · cases m <;> simp only [Message.interface_event, Bool.false_eq_true] at hm
    case card_inserted account =>
      exact ⟨_, _, _, _, _, _, _, world_card_inserted acc account pin amt b out recv,
        Or.inr (Or.inl rfl), le_refl _, by simp [issued_append, issued, Message.issued_amount]⟩
    all_goals exact hdisc _ (by decide) (by simp [Message.index, atm.declared]) (Or.inl rfl)
  · cases m <;> simp only [Message.interface_event, Bool.false_eq_true] at hm
    case digit_pressed d =>
      by_cases hl : pin.length + 1 = 4
      · by_cases hp : pin ++ [d] = ['1', '9', '3', '7']
        · exact ⟨_, _, _, _, _, _, _, world_last_digit_verified acc pin d amt b out recv hp,
            Or.inr (Or.inr rfl), le_refl _,
            by simp [issued_append, issued, Message.issued_amount]⟩
        · exact ⟨_, _, _, _, _, _, _, world_last_digit_incorrect acc pin d amt b out recv hl hp,
            Or.inl rfl, le_refl _, by simp [issued_append, issued, Message.issued_amount]⟩
      · exact ⟨_, _, _, _, _, _, _, world_digit_pressed acc pin d amt b out recv hl,
          Or.inr (Or.inl rfl), le_refl _, rfl⟩
    case clear_last_pressed =>
      exact ⟨_, _, _, _, _, _, _, world_clear_last_pressed acc pin amt b out recv,
        Or.inr (Or.inl rfl), le_refl _, rfl⟩
    case cancel_pressed =>
      exact ⟨_, _, _, _, _, _, _, world_cancel_pressed _ acc pin amt b out recv (Or.inl rfl),
        Or.inl rfl, le_refl _, by simp [issued_append, issued, Message.issued_amount]⟩
    all_goals exact hdisc _ (by decide) (by simp [Message.index, atm.declared]) (Or.inr (Or.inl rfl))
  · cases m <;> simp only [Message.interface_event, Bool.false_eq_true] at hm
    case withdraw_pressed a =>
      by_cases ha : a ≤ b
      · refine ⟨_, _, _, _, _, _, _, world_withdraw_approved acc pin amt a b out recv ha,
          Or.inl rfl, ?_, ?_⟩
        · rw [unsigned_sub_exact b a hb ha]; omega
        · rw [unsigned_sub_exact b a hb ha]
          simp only [issued_append]
          simp only [issued, Message.issued_amount, List.map_cons, List.map_nil, List.sum_cons,
            List.sum_nil]
          omega
      · exact ⟨_, _, _, _, _, _, _,
          world_withdraw_denied acc pin amt a b out recv (by omega),
          Or.inl rfl, le_refl _, by simp [issued_append, issued, Message.issued_amount]⟩
    case balance_pressed =>
      exact ⟨_, _, _, _, _, _, _, world_balance_pressed acc pin amt b out recv,
        Or.inr (Or.inr rfl), le_refl _, by simp [issued_append, issued, Message.issued_amount]⟩
    case cancel_pressed =>
      exact ⟨_, _, _, _, _, _, _, world_cancel_pressed _ acc pin amt b out recv (Or.inr rfl),
        Or.inl rfl, le_refl _, by simp [issued_append, issued, Message.issued_amount]⟩
    all_goals exact hdisc _ (by decide) (by simp [Message.index, atm.declared]) (Or.inr (Or.inr rfl))

theorem world_stimuli_settled (msgs : List Message) (s : atm_state) (acc pin : List Char)
    (amt b : Nat) (out : List Println) (recv : List Message)
    (hs : s = .waiting_for_card ∨ s = .getting_pin ∨ s = .wait_for_action)
    (hb : b < 4294967296) (hm : ∀ m ∈ msgs, m.interface_event = true) :
    ∃ s1 acc1 amt1 pin1 b1 out1 recv1,
      (World.idle s acc amt pin b out recv).stimuli msgs
        = some (World.idle s1 acc1 amt1 pin1 b1 out1 recv1)
      ∧ (s1 = .waiting_for_card ∨ s1 = .getting_pin ∨ s1 = .wait_for_action)
      ∧ b1 ≤ b ∧ issued recv1 + b1 = issued recv + b := by
  induction msgs generalizing s acc pin amt b out recv with
  | nil => exact ⟨_, _, _, _, _, _, _, rfl, hs, le_refl _, rfl⟩
  | cons m rest ih =>
    obtain ⟨s1, acc1, amt1, pin1, b1, out1, recv1, e1, hs1, hb1, hi1⟩ :=
      world_stimulus_settled s acc pin amt b out recv m hs hb
        (hm m (List.mem_cons_self m rest))
    obtain ⟨s2, acc2, amt2, pin2, b2, out2, recv2, e2, hs2, hb2, hi2⟩ :=
      ih s1 acc1 pin1 amt1 b1 out1 recv1 hs1 (by omega)
        (fun x hx => hm x (List.mem_cons_of_mem m hx))
    refine ⟨s2, acc2, amt2, pin2, b2, out2, recv2, ?_, hs2, by omega, by omega⟩
    simp only [World.stimuli, e1]
    exact e2

theorem main_switch_interface_events (s : sender) (c : Char) :
    ∀ x ∈ (main_switch s c).1, x.1 = s ∧ x.2.interface_event = true := by
  unfold main_switch
  split <;> simp [Message.interface_event]

theorem main_loop_interface_events (s : sender) (input : List Char) :
    ∀ x ∈ (main_loop s input).1, x.1 = s ∧ x.2.interface_event = true := by
  induction input with
  | nil => simp [main_loop]
  | cons c rest ih =>
    have hc := main_switch_interface_events s c
    rw [main_loop]
    rcases hm : main_switch s c with ⟨sent, quit⟩
    rw [hm] at hc
    cases quit with
    | true => exact hc
    | false =>
      rcases hl : main_loop s rest with ⟨sent1, quit1, left⟩
      rw [hl] at ih
      simp only at ih hc ⊢
      intro x hx
      rcases List.mem_append.mp hx with hx | hx
      · exact hc x hx
      · exact ih x hx

/-- C25. The threads of `main` started and come to rest, then the messages that
the loop of the orchestrator posts for any input, each processed until no thread
can move: the run exists, the balance of the bank is at most 199, and the
amounts of the `issue_money` messages the interface has received add up to 199
minus the balance.  The same holds after any interleavings of the three threads
that come to rest after each message. -/
theorem issued_money_is_deducted (amount0 : Nat) (input : List Char) :
    ∃ w0 w, World.boot amount0 = some w0
      ∧ w0.stimuli ((main_loop ⟨some .machine⟩ input).1.map Prod.snd) = some w
      ∧ w.bank.balance ≤ 199
      ∧ issued w.ui_received = 199 - w.bank.balance
      ∧ ∀ l w1, l.map Prod.fst = (main_loop ⟨some .machine⟩ input).1.map Prod.snd →
          w0.stimuli_by l = some w1 →
          w1.bank.balance ≤ 199 ∧ issued w1.ui_received = 199 - w1.bank.balance := by
  obtain ⟨s1, acc1, amt1, pin1, b1, out1, recv1, hs, -, hb, hi⟩ :=
    world_stimuli_settled ((main_loop ⟨some .machine⟩ input).1.map Prod.snd)
      .waiting_for_card [] [] amount0 199
      [("Screen: Please enter your card (Press I)", [])] [.display_enter_card]
      (Or.inl rfl) (by decide)
      (by
        intro m hm
        obtain ⟨x, hx, rfl⟩ := List.mem_map.mp hm
        exact (main_loop_interface_events _ input x hx).2)
  have hi0 : issued [Message.display_enter_card] = 0 := rfl
  rw [hi0] at hi
  have key : (World.idle s1 acc1 amt1 pin1 b1 out1 recv1).bank.balance ≤ 199
      ∧ issued (World.idle s1 acc1 amt1 pin1 b1 out1 recv1).ui_received
        = 199 - (World.idle s1 acc1 amt1 pin1 b1 out1 recv1).bank.balance := by
    simp only [World.idle]
    omega
  refine ⟨_, _, world_boot amount0, hs, key.1, key.2, ?_⟩
  intro l w1 hl h1
  have e := stimuli_by_unique l _ w1 _ (idle_wired _ _ _ _ _ _ _) h1 (by rw [hl]; exact hs)
  rw [e]
  exact key

/-! ## The pin between card and verification -/

theorem process_messages_append (H : Handlers) (a : atm) (ms more : List Message) :
    ((atm.process_messages H a ms).ctl = .blocked
        ∧ atm.process_messages H a (ms ++ more)
          = (atm.process_messages H (atm.process_messages H a ms).self more).after
              (atm.process_messages H a ms).sent)
      ∨ ((atm.process_messages H a ms).ctl ≠ .blocked
        ∧ atm.process_messages H a (ms ++ more)
          = ⟨(atm.process_messages H a ms).ctl, (atm.process_messages H a ms).self,
              (atm.process_messages H a ms).sent, (atm.process_messages H a ms).inbox ++ more⟩) := by
  induction ms generalizing a with
  | nil => left; simp [process_messages_nil, Outcome.after]
  | cons m tail ih =>
    by_cases hm : m = .close_queue
    · subst hm
      right
      simp [process_messages_close]
    · rw [List.cons_append, process_messages_cons H a m _ hm, process_messages_cons H a m _ hm]
      cases hH : H a m with
      | none => simpa using ih a
      | some hd =>
        by_cases hb : hd.handled = true
        · right; simp [hb]
        · simp only [hb, Bool.false_eq_true, ↓reduceIte, Outcome.after]
          rcases ih hd.self with ⟨h1, h2⟩ | ⟨h1, h2⟩
          · left; exact ⟨h1, by rw [h2]; simp [Outcome.after]⟩
          · right; exact ⟨h1, by rw [h2]⟩

theorem atm_invoke_append (a : atm) (ms more : List Message) :
    ((a.invoke ms).ctl = .blocked
        ∧ a.invoke (ms ++ more)
          = (atm.process_messages (atm.state_handlers a.state) (a.invoke ms).self more).after
              (a.invoke ms).sent)
      ∨ ((a.invoke ms).ctl ≠ .blocked
        ∧ a.invoke (ms ++ more)
          = ⟨(a.invoke ms).ctl, (a.invoke ms).self, (a.invoke ms).sent,
              (a.invoke ms).inbox ++ more⟩) := by
  unfold atm.invoke
  cases hs : a.state <;> simp only
  case done_processing => right; simp [atm.done_processing]
  all_goals
    simp only [atm.waiting_for_card, atm.getting_pin, atm.verifying_pin, atm.wait_for_action,
      atm.process_withdrawal, atm.process_balance, Outcome.after, atm.state_handlers]
    rcases process_messages_append _ a ms more with ⟨h1, h2⟩ | ⟨h1, h2⟩
    · left; exact ⟨h1, by rw [h2]; simp [Outcome.after]⟩
    · right; exact ⟨h1, by rw [h2]⟩

/-- The loop of `atm::run` on an inbox that grows: a run that ended on
`close_queue` leaves the further messages in the inbox, and a run that is left
blocked goes on with them from where it waits. -/
theorem atm_run_loop_append (fuel : Nat) (a : atm) (ms more : List Message) (r : Run atm)
    (hr : atm.run_loop fuel a ms = some r) :
    (r.status = .closed →
        atm.run_loop fuel a (ms ++ more) = some ⟨.closed, r.self, r.sent, r.inbox ++ more⟩)
      ∧ (r.status = .blocked → ∀ fuel2 r2, atm.resume_loop fuel2 r.self more = some r2 →
        atm.run_loop (fuel + fuel2) a (ms ++ more) = some (r2.after r.sent)) := by
  induction fuel generalizing a ms r with
  | zero => simp [atm.run_loop] at hr
  | succ n ih =>
    rw [atm.run_loop] at hr
    rcases atm_invoke_append a ms more with ⟨h1, h2⟩ | ⟨h1, h2⟩
    · simp only [h1, Option.some.injEq] at hr
      subst hr
      refine ⟨fun h => (by cases h), fun _ fuel2 r2 h2r => ?_⟩
      obtain ⟨e1, e2⟩ := atm_invoke_blocked_state a ms h1
      have hne : (a.invoke ms).self.state ≠ .done_processing := by rw [e1]; exact e2
      simp only at h2r
      rw [atm_resume_loop_eq _ _ _ hne, e1] at h2r
      have hf : n + 1 + fuel2 = (n + fuel2) + 1 := by omega
      rw [hf, atm.run_loop, h2]
      cases hc : (atm.process_messages (atm.state_handlers a.state) (a.invoke ms).self more).ctl
      · simp only [hc] at h2r
        simp only [Outcome.after, hc]
        cases hq : atm.run_loop fuel2
            (atm.process_messages (atm.state_handlers a.state) (a.invoke ms).self more).self
            (atm.process_messages (atm.state_handlers a.state) (a.invoke ms).self more).inbox with
        | none => simp [hq] at h2r
        | some r1 =>
          rw [hq] at h2r
          simp only [Option.map_some', Option.some.injEq] at h2r
          subst h2r
          rw [atm_run_loop_mono fuel2 (n + fuel2) _ _ r1 hq (by omega)]
          simp [Run.after]
      · simp only [hc, Option.some.injEq] at h2r
        subst h2r
        simp [Outcome.after, hc, Run.after]
      · simp only [hc, Option.some.injEq] at h2r
        subst h2r
        simp [Outcome.after, hc, Run.after]
    · cases hc : (a.invoke ms).ctl
      · simp only [hc] at hr
        cases hq : atm.run_loop n (a.invoke ms).self (a.invoke ms).inbox with
        | none => simp [hq] at hr
        | some r1 =>
          rw [hq] at hr
          simp only [Option.map_some', Option.some.injEq] at hr
          subst hr
          obtain ⟨i1, i2⟩ := ih _ _ r1 hq
          refine ⟨fun h => ?_, fun h fuel2 r2 h2r => ?_⟩
          · rw [atm.run_loop, h2]
            simp only [hc]
            rw [i1 h]
            simp [Run.after]
          · have hf : n + 1 + fuel2 = (n + fuel2) + 1 := by omega
            rw [hf, atm.run_loop, h2]
            simp only [hc]
            rw [i2 h fuel2 r2 h2r]
            simp [Run.after]
      · simp only [hc, Option.some.injEq] at hr
        subst hr
        refine ⟨fun _ => ?_, fun h => (by cases h)⟩
        rw [atm.run_loop, h2]
        simp [hc]
      · exact absurd hc h1

theorem atm_run_loop_unique (f1 f2 : Nat) (a : atm) (ms : List Message) (r1 r2 : Run atm)
    (h1 : atm.run_loop f1 a ms = some r1) (h2 : atm.run_loop f2 a ms = some r2) : r1 = r2 := by
  have e1 := atm_run_loop_mono f1 (f1 + f2) a ms r1 h1 (by omega)
  have e2 := atm_run_loop_mono f2 (f1 + f2) a ms r2 h2 (by omega)
  rw [e1] at e2
  exact Option.some.inj e2

/-- The run of `atm::run` on an inbox that grows: after `close_queue` the
further messages stay in the inbox; a blocked atm is resumed with them. -/
theorem atm_run_append (a : atm) (ms more : List Message) (r : Run atm)
    (hr : a.run ms = some r) :
    (r.status = .closed → a.run (ms ++ more) = some ⟨.closed, r.self, r.sent, r.inbox ++ more⟩)
      ∧ (r.status = .blocked →
        ∃ r2, r.self.resume more = some r2 ∧ a.run (ms ++ more) = some (r2.after r.sent)) := by
  obtain ⟨r3, h3⟩ := atm_run_total a (ms ++ more)
  unfold atm.run at hr h3
  obtain ⟨i1, i2⟩ := atm_run_loop_append _ _ ms more r hr
  refine ⟨fun h => ?_, fun h => ?_⟩
  · unfold atm.run
    rw [h3, atm_run_loop_unique _ _ _ _ _ _ h3 (i1 h)]
  · obtain ⟨r2, h2⟩ := atm_resume_total r.self more
    refine ⟨r2, h2, ?_⟩
    unfold atm.run
    unfold atm.resume at h2
    rw [h3, atm_run_loop_unique _ _ _ _ _ _ h3 (i2 h _ r2 h2)]

set_option maxHeartbeats 4000000 in
/-- One message given to an atm that waits in a receive: what becomes of the
pin, and the only way a `verify_pin` is sent. -/
theorem atm_resume_one (b : atm) (m : Message) (hs : b.state ≠ .done_processing)
    (hi : b.state = .getting_pin → b.pin.length ≤ 3) :
    ∃ r2, b.resume [m] = some r2
      ∧ (r2.self.state = .getting_pin → r2.self.pin.length ≤ 3)
      ∧ ((b.state = .getting_pin ∧ b.pin.length = 3 ∧ ∃ d, m = .digit_pressed d
            ∧ r2.sent = [(b.to_bank, .verify_pin b.account (b.pin ++ [d]) b.get_sender)])
          ∨ ∀ x ∈ r2.sent, ∀ acc pin q, x.2 ≠ .verify_pin acc pin q)
      ∧ (r2.status = .blocked → r2.self.state = .getting_pin →
          (b.state = .waiting_for_card ∧ r2.self.pin = []
              ∧ m = .card_inserted r2.self.account)
            ∨ (b.state = .getting_pin ∧ r2.self.account = b.account
              ∧ r2.self.pin = kept_digit_spec b.pin m))
      ∧ (b.state = .getting_pin → m = .clear_last_pressed →
          r2.status = .blocked ∧ r2.self.state = .getting_pin ∧ r2.sent = []
            ∧ r2.self.pin = (if b.pin ≠ [] then b.pin.dropLast else b.pin)) := by
  obtain ⟨inbox, to_bank, to_interface, s, account, amount, pin⟩ := b
  simp only at hs hi
  cases s
  case getting_pin =>
    cases m
    case digit_pressed d =>
      by_cases hl : pin.length = 3
      · simp [atm.resume, atm.resume_loop, atm.run_loop, atm.invoke, atm.state_handlers,
      atm.waiting_for_card, atm.getting_pin, atm.verifying_pin, atm.wait_for_action,
      atm.process_withdrawal, atm.process_balance, atm.done_processing,
      atm.waiting_for_card_handlers, atm.getting_pin_handlers, atm.verifying_pin_handlers,
      atm.wait_for_action_handlers, atm.process_withdrawal_handlers,
      atm.process_balance_handlers, atm.process_messages, Outcome.after, Run.after,
      kept_digit_spec, atm.get_sender, hl]
      · simp [atm.resume, atm.resume_loop, atm.run_loop, atm.invoke, atm.state_handlers,
      atm.waiting_for_card, atm.getting_pin, atm.verifying_pin, atm.wait_for_action,
      atm.process_withdrawal, atm.process_balance, atm.done_processing,
      atm.waiting_for_card_handlers, atm.getting_pin_handlers, atm.verifying_pin_handlers,
      atm.wait_for_action_handlers, atm.process_withdrawal_handlers,
      atm.process_balance_handlers, atm.process_messages, Outcome.after, Run.after,
      kept_digit_spec, atm.get_sender, hl] at hs hi ⊢
        omega
    all_goals
      simp [atm.resume, atm.resume_loop, atm.run_loop, atm.invoke, atm.state_handlers,
      atm.waiting_for_card, atm.getting_pin, atm.verifying_pin, atm.wait_for_action,
      atm.process_withdrawal, atm.process_balance, atm.done_processing,
      atm.waiting_for_card_handlers, atm.getting_pin_handlers, atm.verifying_pin_handlers,
      atm.wait_for_action_handlers, atm.process_withdrawal_handlers,
      atm.process_balance_handlers, atm.process_messages, Outcome.after, Run.after,
      kept_digit_spec, atm.get_sender] at hs hi ⊢
      first
      | exact hi
      | (rintro _ _ h _ _ _ rfl; simp at h)
      | (refine ⟨?_, fun h => by simp [h]⟩
         split
         · exact hi
         · simp only [List.length_dropLast]; omega)
  all_goals
    cases m <;>
    simp [atm.resume, atm.resume_loop, atm.run_loop, atm.invoke, atm.state_handlers,
      atm.waiting_for_card, atm.getting_pin, atm.verifying_pin, atm.wait_for_action,
      atm.process_withdrawal, atm.process_balance, atm.done_processing,
      atm.waiting_for_card_handlers, atm.getting_pin_handlers, atm.verifying_pin_handlers,
      atm.wait_for_action_handlers, atm.process_withdrawal_handlers,
      atm.process_balance_handlers, atm.process_messages, Outcome.after, Run.after,
      kept_digit_spec, atm.get_sender] at hs hi ⊢ <;>
    (rintro _ _ h _ _ _ rfl; simp at h)

theorem atm_run_blocked_state (a : atm) (ms : List Message) (r : Run atm)
    (hr : a.run ms = some r) (hb : r.status = .blocked) : r.self.state ≠ .done_processing := by
  unfold atm.run at hr
  exact atm_run_loop_blocked_state _ _ _ r hr hb

theorem kept_digits_spec_append (pin : List Char) (ms : List Message) (m : Message) :
    kept_digits_spec pin (ms ++ [m]) = kept_digit_spec (kept_digits_spec pin ms) m := by
  simp [kept_digits_spec, List.foldl_append]

/-- Whatever the inbox holds, `atm::run` ends or blocks with a pin of at most
three digits when the state is `getting_pin`, every `verify_pin` it sent has a
pin of four digits, and when it waits in `getting_pin` the inbox was some
messages after which it waited for a card, `card_inserted` with the account it
holds, and messages that left the pin it holds. -/
theorem atm_run_pin (a : atm) (ms : List Message) :
    ∃ r, a.run ms = some r
      ∧ (r.self.state = .getting_pin → r.self.pin.length ≤ 3)
      ∧ (∀ x ∈ r.sent, ∀ acc pin q, x.2 = .verify_pin acc pin q → pin.length = 4)
      ∧ (r.status = .blocked → r.self.state = .getting_pin →
          ∃ pre mid r0, ms = pre ++ .card_inserted r.self.account :: mid
            ∧ a.run pre = some r0 ∧ r0.status = .blocked
            ∧ r0.self.state = .waiting_for_card
            ∧ r.self.pin = kept_digits_spec [] mid) := by
  induction ms using List.reverseRecOn with
  | nil =>
    refine ⟨_, atm_run_nil a, ?_, ?_, ?_⟩
    · intro h; cases h
    · intro x hx acc pin q e
      simp only [List.mem_singleton] at hx
      subst hx
      cases e
    · intro _ h; cases h
  | append_singleton l m ih =>
    obtain ⟨r, hr, i1, i2, i3⟩ := ih
    cases hst : r.status with
    | closed =>
      refine ⟨_, (atm_run_append a l [m] r hr).1 hst, i1, i2, ?_⟩
      intro h; cases h
    | blocked =>
      obtain ⟨r2, h2, h3⟩ := (atm_run_append a l [m] r hr).2 hst
      obtain ⟨r2a, h2a, j1, j2, j3, -⟩ :=
        atm_resume_one r.self m (atm_run_blocked_state a l r hr hst) i1
      rw [h2] at h2a
      cases h2a
      refine ⟨_, h3, j1, ?_, ?_⟩
      · intro x hx acc pin q e
        simp only [Run.after, List.mem_append] at hx
        rcases hx with hx | hx
        · exact i2 x hx acc pin q e
        · rcases j2 with ⟨-, hl, d, -, hs⟩ | hn
          · rw [hs, List.mem_singleton] at hx
            subst hx
            cases e
            simp [hl]
          · exact absurd e (hn x hx acc pin q)
      · intro hb hg
        rcases j3 hb hg with ⟨hw, hp, hm⟩ | ⟨hw, ha, hp⟩
        · exact ⟨l, [], r, by rw [hm]; rfl, hr, hst, hw, by show r2.self.pin = _; rw [hp]; rfl⟩
        · obtain ⟨pre, mid, r0, e1, e2, e3, e4, e5⟩ := i3 hst hw
          refine ⟨pre, mid ++ [m], r0, ?_, e2, e3, e4, ?_⟩
          · show l ++ [m] = pre ++ Message.card_inserted r2.self.account :: (mid ++ [m])
            rw [ha]
            conv_lhs => rw [e1]
            simp
          · show r2.self.pin = _
            rw [hp, kept_digits_spec_append, e5]

/-- C26 (as stated, refuted). A `card_inserted` that arrives while the atm waits
in `getting_pin` is discarded and the pin is not reset: for the inbox card,
digit 1, card, digits 2, 3 and 4, the `verify_pin` sent carries the pin 1234
for the first account, while the digits pressed since the last `card_inserted`
are 2, 3 and 4 only. -/
theorem verify_pin_spans_discarded_card :
    ((⟨.machine, ⟨some .bank⟩, ⟨some .ui_hardware⟩, .waiting_for_card, [], 0, []⟩ : atm).run
        [.card_inserted ['a'], .digit_pressed '1', .card_inserted ['b'], .digit_pressed '2',
         .digit_pressed '3', .digit_pressed '4']).map (fun r => r.sent)
      = some [(⟨some .ui_hardware⟩, .display_enter_card),
          (⟨some .ui_hardware⟩, .display_enter_pin),
          (⟨some .bank⟩, .verify_pin ['a'] ['1', '2', '3', '4'] ⟨some .machine⟩)]
    ∧ kept_digits_spec []
        (since_last_card_inserted_spec
          [.card_inserted ['a'], .digit_pressed '1', .card_inserted ['b'], .digit_pressed '2',
           .digit_pressed '3', .digit_pressed '4'])
      = ['2', '3', '4'] := by
  decide

/-- C26 (amended). Whatever messages the inbox holds, `atm::run` ends or blocks
with these properties.  When the state is `getting_pin` the pin has at most
three digits.  Every `verify_pin` sent has a pin of four digits.  When the atm
waits in `getting_pin`, the inbox was: messages after which the atm waited in
`waiting_for_card`, the `card_inserted` it accepted there, and messages `mid`;
the pin is the digits of `mid` in order, each `clear_last_pressed` having
removed the last kept digit or nothing when none was kept.  One more message
makes the atm send a `verify_pin` only when it is a digit that is the fourth
kept since that accepted `card_inserted`, and the pin sent is those four
digits.  One more `clear_last_pressed` in `getting_pin` sends nothing, leaves
an empty pin empty and removes the last digit of any other.  After
`close_queue` nothing more is sent. -/
theorem verify_pin_carries_kept_digits (a : atm) (ms : List Message) :
    ∃ r, a.run ms = some r
      ∧ (r.self.state = .getting_pin → r.self.pin.length ≤ 3)
      ∧ (∀ x ∈ r.sent, ∀ acc pin q, x.2 = .verify_pin acc pin q → pin.length = 4)
      ∧ (r.status = .blocked → r.self.state = .getting_pin →
          ∃ pre mid r0, ms = pre ++ .card_inserted r.self.account :: mid
            ∧ a.run pre = some r0 ∧ r0.status = .blocked
            ∧ r0.self.state = .waiting_for_card
            ∧ r.self.pin = kept_digits_spec [] mid)
      ∧ (r.status = .blocked → ∀ m, ∃ r1, a.run (ms ++ [m]) = some r1
          ∧ ((∃ new, r1.sent = r.sent ++ new
                ∧ ∀ x ∈ new, ∀ acc pin q, x.2 ≠ .verify_pin acc pin q)
            ∨ (∃ d pre mid r0, m = .digit_pressed d ∧ r.self.state = .getting_pin
                ∧ ms = pre ++ .card_inserted r.self.account :: mid
                ∧ a.run pre = some r0 ∧ r0.status = .blocked
                ∧ r0.self.state = .waiting_for_card
                ∧ (kept_digits_spec [] (mid ++ [m])).length = 4
                ∧ r1.sent = r.sent ++ [(r.self.to_bank,
                    .verify_pin r.self.account (kept_digits_spec [] (mid ++ [m]))
                      r.self.get_sender)])))
      ∧ (r.status = .blocked → r.self.state = .getting_pin →
          ∃ r1, a.run (ms ++ [.clear_last_pressed]) = some r1
            ∧ r1.status = .blocked ∧ r1.self.state = .getting_pin ∧ r1.sent = r.sent
            ∧ (r.self.pin = [] → r1.self.pin = [])
            ∧ ∀ p c, r.self.pin = p ++ [c] → r1.self.pin = p)
      ∧ (r.status = .closed → ∀ more, ∃ r1, a.run (ms ++ more) = some r1
          ∧ r1.sent = r.sent) := by
  obtain ⟨r, hr, i1, i2, i3⟩ := atm_run_pin a ms
  refine ⟨r, hr, i1, i2, i3, ?_, ?_, ?_⟩
  · intro hst m
    obtain ⟨r2, h2, h3⟩ := (atm_run_append a ms [m] r hr).2 hst
    obtain ⟨r2a, h2a, -, j2, -, -⟩ :=
      atm_resume_one r.self m (atm_run_blocked_state a ms r hr hst) i1
    rw [h2] at h2a
    cases h2a
    refine ⟨_, h3, ?_⟩
    rcases j2 with ⟨hg, hl, d, hm, hs⟩ | hn
    · right
      obtain ⟨pre, mid, r0, e1, e2, e3, e4, e5⟩ := i3 hst hg
      have hk : kept_digits_spec [] (mid ++ [m]) = r.self.pin ++ [d] := by
        rw [kept_digits_spec_append, ← e5, hm]
        rfl
      refine ⟨d, pre, mid, r0, hm, hg, e1, e2, e3, e4, ?_, ?_⟩
      · rw [hk]; simp [hl]
      · rw [hk]
        show r.sent ++ r2.sent = _
        rw [hs]
    · left
      exact ⟨r2.sent, rfl, hn⟩
  · intro hst hg
    obtain ⟨r2, h2, h3⟩ := (atm_run_append a ms [.clear_last_pressed] r hr).2 hst
    obtain ⟨r2a, h2a, -, -, -, j4⟩ :=
      atm_resume_one r.self .clear_last_pressed (atm_run_blocked_state a ms r hr hst) i1
    rw [h2] at h2a
    cases h2a
    obtain ⟨k1, k2, k3, k4⟩ := j4 hg rfl
    refine ⟨_, h3, k1, k2, ?_, ?_, ?_⟩
    · show r.sent ++ r2.sent = _
      rw [k3]; simp
    · intro he
      show r2.self.pin = _
      rw [k4, he]; rfl
    · intro p c he
      show r2.self.pin = _
      rw [k4, he]; simp
  · intro hst more
    exact ⟨_, (atm_run_append a ms more r hr).1 hst, rfl⟩
